import Mathlib

/-!
Verification of the pgeon PostgreSQL client library (TypeScript) against its
natural-language specification.  The relevant parts of the source are embedded
shallowly: byte buffers become `List ℕ` (each element a byte value `< 256`,
JS `Buffer` reads of out-of-range indices yield `undefined`, modelled where it
matters), JS numbers that stay integral become `ℤ`/`ℕ`, strings become
`List Char`, and the stateful message handlers become explicit state-passing
functions.  Every definition is translated from the source files
(`src/serialization.ts`, `src/pool.ts`, `src/frontend.ts` and the backend
message module); comments cite the source function each definition embeds.
-/

namespace Pgeon

/-! ## Byte-level primitives (src/serialization.ts)

JS `Buffer` reads: `buffer[i]` is the byte at `i` (0 for our purposes when in
range; out-of-range handled specially where the source depends on it).
We model a buffer as `List ℕ` and in-range reads with `getD _ 0`. -/

/-- `readUint8` (serialization.ts): `buffer[offset]`. -/
def readUint8 (buffer : List ℕ) (offset : ℕ) : ℕ := buffer.getD offset 0

/-- `readUint16` (serialization.ts): `buffer[offset] * 256 + buffer[offset+1]`. -/
def readUint16 (buffer : List ℕ) (offset : ℕ) : ℕ :=
  buffer.getD offset 0 * 256 + buffer.getD (offset + 1) 0

/-- `readInt16` (serialization.ts): reads the big-endian 16-bit value and
sign-extends it; the JS idiom `value | (value & 32768) * 0x1fffe` subtracts
`2^16` exactly when bit 15 is set. -/
def readInt16 (buffer : List ℕ) (offset : ℕ) : ℤ :=
  let value := readUint16 buffer offset
  if value < 32768 then (value : ℤ) else (value : ℤ) - 65536

/-- `readUint32` (serialization.ts): `buffer[offset] * 16777216 + (... << 16) + (... << 8) + ...`. -/
def readUint32 (buffer : List ℕ) (offset : ℕ) : ℕ :=
  buffer.getD offset 0 * 16777216 + buffer.getD (offset + 1) 0 * 65536 +
    buffer.getD (offset + 2) 0 * 256 + buffer.getD (offset + 3) 0

/-- `readInt32` (serialization.ts): big-endian 32-bit read where
`buffer[offset] << 24` is a signed 32-bit shift in JS, so the result is the
unsigned value minus `2^32` when bit 31 is set. -/
def readInt32 (buffer : List ℕ) (offset : ℕ) : ℤ :=
  let value := readUint32 buffer offset
  if value < 2147483648 then (value : ℤ) else (value : ℤ) - 4294967296

/-- The four big-endian bytes of `u % 2^32`: what the byte-assignment sequence
in `writeInt32`/`writeUint32` (serialization.ts) stores, since each
`buffer[offset++] = value >> k` assignment keeps only the low 8 bits. -/
def be4 (u : ℕ) : List ℕ :=
  [u / 16777216 % 256, u / 65536 % 256, u / 256 % 256, u % 256]

/-- `writeInt32`/`writeUint32` (serialization.ts, identical bodies) as the list
of bytes stored for an integral JS number `v`: the shifts operate on
`ToInt32(v)`, so the bytes are the big-endian form of `v mod 2^32`. -/
def writeInt32Bytes (v : ℤ) : List ℕ := be4 (v % 4294967296).toNat

/-- The two big-endian bytes of `u % 2^16`, as stored by
`writeUint16` (serialization.ts). -/
def be2 (u : ℕ) : List ℕ := [u / 256 % 256, u % 256]

/-- `writeUint16` (serialization.ts) as the bytes stored for value `u`. -/
def writeUint16Bytes (u : ℕ) : List ℕ := be2 (u % 65536)

/-- `writeInt16` (serialization.ts) as the bytes stored for an integral JS
number `v` (used with `v = weight ≥ -1` in `writeNumeric`): byte assignments
keep the low 8 bits of `v >> 8` and `v`, i.e. the big-endian form of
`v mod 2^16`. -/
def writeInt16Bytes (v : ℤ) : List ℕ := be2 (v % 65536).toNat

/-! Basic evaluation facts used throughout. -/

theorem readUint16_be2 (u : ℕ) (hu : u < 65536) (rest : List ℕ) :
    readUint16 (be2 u ++ rest) 0 = u := by
  simp only [readUint16, be2]
  have h1 : u / 256 % 256 = u / 256 := Nat.mod_eq_of_lt (by omega)
  simp [List.getD, h1]
  omega

/-! ## JS strings and decimal printing/parsing

JS strings are modelled as lists of character codes (`List ℕ`): `'0' = 48`,
`'-' = 45`, `'.' = 46`, `'$' = 36`, etc.  Only code-point identity matters to
the embedded functions. -/

/-- Character-code constants for the characters the source manipulates. -/
def chDollar : ℕ := 36
def chMinus : ℕ := 45
def chDot : ℕ := 46
def chZero : ℕ := 48

/-- `"NaN"` as character codes. -/
def nanChars : List ℕ := [78, 97, 78]

/-- JS `'' + n` for a non-negative integral number: its base-10 digit
characters, most significant first; `0` prints as `"0"`. -/
def natToChars (n : ℕ) : List ℕ :=
  if n = 0 then [48] else ((Nat.digits 10 n).map (fun d => 48 + d)).reverse

/-- JS `parseInt(s, 10)` restricted to all-digit strings (every use site in
the embedded code passes strings of characters `'0'..'9'`): horner evaluation
of the digit values. -/
def parseIntDigits (s : List ℕ) : ℕ :=
  s.foldl (fun a c => 10 * a + (c - 48)) 0

/-- Numeric value of a big-endian digit-value list. -/
def digitsVal (l : List ℕ) : ℕ := l.foldl (fun a d => 10 * a + d) 0

theorem digitsVal_foldl (init : ℕ) (l : List ℕ) :
    l.foldl (fun a d => 10 * a + d) init = init * 10 ^ l.length + digitsVal l := by
  induction l generalizing init with
  | nil => simp [digitsVal]
  | cons d l ih =>
    simp only [List.foldl_cons, digitsVal, List.length_cons]
    rw [ih, ih]
    ring

theorem digitsVal_append (a b : List ℕ) :
    digitsVal (a ++ b) = digitsVal a * 10 ^ b.length + digitsVal b := by
  simp only [digitsVal, List.foldl_append]
  exact digitsVal_foldl _ b

theorem digitsVal_reverse_ofDigits (l : List ℕ) :
    digitsVal l.reverse = Nat.ofDigits 10 l := by
  induction l with
  | nil => simp [digitsVal, Nat.ofDigits]
  | cons d l ih =>
    simp only [List.reverse_cons, digitsVal_append, Nat.ofDigits_cons, ih]
    simp [digitsVal]
    ring

/-- Digit-character values of `natToChars n` recover `n`. -/
theorem digitsVal_natToChars (n : ℕ) :
    digitsVal ((natToChars n).map (fun c => c - 48)) = n := by
  by_cases h : n = 0
  · simp [natToChars, h, digitsVal]
  · have : ((natToChars n).map (fun c => c - 48)) = (Nat.digits 10 n).reverse := by
      simp only [natToChars, if_neg h, List.map_reverse, List.map_map]
      congr 1
      refine (List.map_congr_left ?_).trans (List.map_id _)
      intro d _
      simp
    rw [this, digitsVal_reverse_ofDigits, Nat.ofDigits_digits]

/-- `natToChars n` consists of digit characters. -/
theorem natToChars_isDigit (n : ℕ) : ∀ c ∈ natToChars n, 48 ≤ c ∧ c ≤ 57 := by
  intro c hc
  by_cases h : n = 0
  · simp [natToChars, h] at hc
    omega
  · simp only [natToChars, if_neg h, List.mem_reverse, List.mem_map] at hc
    obtain ⟨d, hdm, rfl⟩ := hc
    have hlt : d < 10 := Nat.digits_lt_base (by norm_num) hdm
    omega

theorem natToChars_length_le (n : ℕ) (k : ℕ) (hk : 1 ≤ k) (h : n < 10 ^ k) :
    (natToChars n).length ≤ k := by
  by_cases h0 : n = 0
  · simp [natToChars, h0]; omega
  · simp only [natToChars, if_neg h0, List.length_reverse, List.length_map]
    rw [Nat.digits_len 10 n (by norm_num) h0]
    have := Nat.log_lt_of_lt_pow h0 h
    omega

theorem natToChars_ne_nil (n : ℕ) : natToChars n ≠ [] := by
  by_cases h : n = 0 <;> simp [natToChars, h]
  intro hc
  exact (Nat.digits_ne_nil_iff_ne_zero.mpr h) (by simpa using congrArg List.length hc)

/-! ## The tagged-template builder `sql` (src/pool.ts, lines 77-107)

Parameter values are compared with `===` (identity); modelled by a type with
decidable equality.  The returned `id` field (`md5(sql)`) involves external
crypto and is outside the claims, so the descriptor carries the rendered text
and the deduplicated parameter list. -/

section SqlBuilder

variable {α : Type} [DecidableEq α]

/-- The inner `for (let j = 0; j < argIdx; ++j)` scan of `sql`: index of the
first element of `uniqueParams` identical to `val`, if any. -/
def scanMatch (val : α) : List α → Option ℕ
  | [] => none
  | u :: us => if val = u then some 0 else (scanMatch val us).map (· + 1)

/-- The labelled outer loop of `sql` (pool.ts lines 82-94), threading
`(uniqueParams, argIndices)` through the parameter list. -/
def dedupLoop (params : List α) : List α × List ℕ :=
  params.foldl
    (fun acc val =>
      match scanMatch val acc.1 with
      | some j => (acc.1, acc.2 ++ [j + 1])
      | none => (acc.1 ++ [val], acc.2 ++ [acc.1.length + 1]))
    ([], [])

/-- `uniqueParams` as computed by `sql`. -/
def uniqueParams (params : List α) : List α := (dedupLoop params).1

/-- `argIndices` as computed by `sql`. -/
def argIndices (params : List α) : List ℕ := (dedupLoop params).2

/-- The rendering loop of `sql` (pool.ts lines 96-100):
`sql += sqlParts[i] + '$' + argIndices[i]` for each parameter position, then
the trailing literal part. -/
def renderLoop (sqlParts : List (List ℕ)) (idxs : List ℕ) : List ℕ :=
  ((List.range idxs.length).foldl
    (fun s i => s ++ (sqlParts.getD i [] ++ chDollar :: natToChars (idxs.getD i 0))) [])
  ++ sqlParts.getD idxs.length []

/-- The query descriptor assembled by `sql` (`id` omitted, see above). -/
structure QueryDescriptor (α : Type) where
  sqlText : List ℕ
  params : List α

/-- `sql` (pool.ts): dedup the template parameters, then interleave. -/
def sqlBuild (sqlParts : List (List ℕ)) (params : List α) : QueryDescriptor α :=
  { sqlText := renderLoop sqlParts (argIndices params)
    params := uniqueParams params }

/-! Facts about the dedup loop, by induction from the right. -/

theorem scanMatch_eq_none {val : α} {l : List α} : scanMatch val l = none ↔ val ∉ l := by
  induction l with
  | nil => simp [scanMatch]
  | cons u us ih =>
    by_cases h : val = u
    · simp [scanMatch, h]
    · simp [scanMatch, h, ih, Option.map_eq_none]

theorem scanMatch_get {val : α} {l : List α} {j : ℕ} (h : scanMatch val l = some j) :
    j < l.length ∧ l.getD j val = val := by
  induction l generalizing j with
  | nil => simp [scanMatch] at h
  | cons u us ih =>
    by_cases hv : val = u
    · simp [scanMatch, hv] at h
      subst h
      simp [hv]
    · simp [scanMatch, hv, Option.map_eq_some] at h
      obtain ⟨j', hj', rfl⟩ := h
      obtain ⟨h1, h2⟩ := ih hj'
      exact ⟨by simpa using h1, by simpa using h2⟩

theorem scanMatch_append_of_mem {val : α} {l : List α} (h : val ∈ l) (l' : List α) :
    scanMatch val (l ++ l') = scanMatch val l := by
  induction l with
  | nil => simp at h
  | cons u us ih =>
    by_cases hv : val = u
    · simp [scanMatch, hv]
    · have : val ∈ us := by
        rcases List.mem_cons.mp h with h' | h'
        · exact absurd h' hv
        · exact h'
      simp [scanMatch, hv, ih this]

theorem scanMatch_self_append {val : α} {l : List α} (h : val ∉ l) (l' : List α) :
    scanMatch val (l ++ val :: l') = some l.length := by
  induction l with
  | nil => simp [scanMatch]
  | cons u us ih =>
    have hv : val ≠ u := fun hv => h (by simp [hv])
    have : val ∉ us := fun hm => h (by simp [hm])
    simp [scanMatch, hv, ih this]

theorem scanMatch_isSome_of_mem {val : α} {l : List α} (h : val ∈ l) :
    (scanMatch val l).isSome := by
  cases hs : scanMatch val l with
  | none => exact absurd (scanMatch_eq_none.mp hs) (by simp [h])
  | some _ => simp

theorem dedupLoop_concat (params : List α) (v : α) :
    dedupLoop (params ++ [v]) =
      let acc := dedupLoop params
      match scanMatch v acc.1 with
      | some j => (acc.1, acc.2 ++ [j + 1])
      | none => (acc.1 ++ [v], acc.2 ++ [acc.1.length + 1]) := by
  simp [dedupLoop, List.foldl_append]

/-- Invariant of the dedup loop: `uniqueParams` is duplicate-free, has the
same members as `params`, and every `argIndices` entry is one more than the
scan index of that parameter in the final `uniqueParams`. -/
theorem dedupLoop_invariant (params : List α) :
    (uniqueParams params).Nodup ∧
    (∀ v, v ∈ uniqueParams params ↔ v ∈ params) ∧
    (argIndices params).length = params.length ∧
    (∀ i, (hi : i < params.length) →
      ∃ j, scanMatch params[i] (uniqueParams params) = some j ∧
        (argIndices params).getD i 0 = j + 1) := by
  induction params using List.reverseRecOn with
  | nil => simp [uniqueParams, argIndices, dedupLoop]
  | append_singleton ps v ih =>
    obtain ⟨hnd, hmem, hlen, hidx⟩ := ih
    by_cases hv : v ∈ uniqueParams ps
    · obtain ⟨j, hj⟩ := Option.isSome_iff_exists.mp (scanMatch_isSome_of_mem hv)
      have hj' : scanMatch v (dedupLoop ps).1 = some j := hj
      have hu : uniqueParams (ps ++ [v]) = uniqueParams ps := by
        simp [uniqueParams, dedupLoop_concat, hj']
      have ha : argIndices (ps ++ [v]) = argIndices ps ++ [j + 1] := by
        simp [argIndices, dedupLoop_concat, hj']
      refine ⟨by rw [hu]; exact hnd, ?_, ?_, ?_⟩
      · intro w
        rw [hu]
        constructor
        · intro hw
          exact List.mem_append_left _ ((hmem w).mp hw)
        · intro hw
          rcases List.mem_append.mp hw with hw | hw
          · exact (hmem w).mpr hw
          · simp at hw
            subst hw
            exact hv
      · simp [ha, hlen]
      · intro i hi
        have hilen : i < ps.length + 1 := by simpa using hi
        rcases Nat.lt_succ_iff_lt_or_eq.mp hilen with hi' | hi'
        · obtain ⟨k, hk1, hk2⟩ := hidx i hi'
          refine ⟨k, ?_, ?_⟩
          · rw [hu, List.getElem_append_left hi']
            exact hk1
          · rw [ha, List.getD_eq_getElem?_getD, List.getElem?_append_left (hlen ▸ hi'),
              ← List.getD_eq_getElem?_getD]
            exact hk2
        · subst hi'
          refine ⟨j, ?_, ?_⟩
          · rw [hu, List.getElem_concat_length ps v _ rfl]
            exact hj
          · rw [ha, List.getD_eq_getElem?_getD, ← hlen,
              List.getElem?_append_right (le_refl _)]
            simp
    · have hnone : scanMatch v (dedupLoop ps).1 = none := scanMatch_eq_none.mpr hv
      have hu : uniqueParams (ps ++ [v]) = uniqueParams ps ++ [v] := by
        simp [uniqueParams, dedupLoop_concat, hnone]
      have ha : argIndices (ps ++ [v]) = argIndices ps ++ [(uniqueParams ps).length + 1] := by
        simp [argIndices, uniqueParams, dedupLoop_concat, hnone]
      refine ⟨?_, ?_, ?_, ?_⟩
      · rw [hu]
        exact List.Nodup.append hnd (List.nodup_singleton v)
          (List.disjoint_singleton.mpr hv)
      · intro w
        rw [hu]
        simp only [List.mem_append, List.mem_singleton]
        constructor
        · intro hw
          rcases hw with hw | hw
          · exact Or.inl ((hmem w).mp hw)
          · exact Or.inr hw
        · intro hw
          rcases hw with hw | hw
          · exact Or.inl ((hmem w).mpr hw)
          · exact Or.inr hw
      · simp [ha, hlen]
      · intro i hi
        have hilen : i < ps.length + 1 := by simpa using hi
        rcases Nat.lt_succ_iff_lt_or_eq.mp hilen with hi' | hi'
        · obtain ⟨k, hk1, hk2⟩ := hidx i hi'
          have hmem' : ps[i] ∈ uniqueParams ps := by
            by_contra hc
            rw [scanMatch_eq_none.mpr hc] at hk1
            exact Option.noConfusion hk1
          refine ⟨k, ?_, ?_⟩
          · rw [hu, List.getElem_append_left hi', scanMatch_append_of_mem hmem']
            exact hk1
          · rw [ha, List.getD_eq_getElem?_getD, List.getElem?_append_left (hlen ▸ hi'),
              ← List.getD_eq_getElem?_getD]
            exact hk2
        · subst hi'
          refine ⟨(uniqueParams ps).length, ?_, ?_⟩
          · rw [hu, List.getElem_concat_length ps v _ rfl]
            exact scanMatch_self_append hv []
          · rw [ha, List.getD_eq_getElem?_getD, ← hlen,
              List.getElem?_append_right (le_refl _)]
            simp

theorem uniqueParams_length_card (params : List α) :
    (uniqueParams params).length = params.toFinset.card := by
  obtain ⟨hnd, hmem, -, -⟩ := dedupLoop_invariant params
  have : (uniqueParams params).toFinset = params.toFinset := by
    ext w
    simp [List.mem_toFinset, hmem]
  rw [← this, List.toFinset_card_of_nodup hnd]

/-- A helper for the interleaving: pushing an accumulating fold over
`List.range` out into a join. -/
theorem foldl_range_append {β : Type} (f : ℕ → List β) (n : ℕ) (init : List β) :
    (List.range n).foldl (fun s i => s ++ f i) init = init ++ ((List.range n).map f).flatten := by
  induction n generalizing init with
  | zero => simp
  | succ n ih =>
    rw [List.range_succ]
    simp [ih, List.foldl_append]

theorem range_map_getD_zipWith (parts : List (List ℕ)) (idxs : List ℕ)
    (h : idxs.length ≤ parts.length) :
    (List.range idxs.length).map
        (fun i => parts.getD i [] ++ chDollar :: natToChars (idxs.getD i 0)) =
      List.zipWith (fun p k => p ++ chDollar :: natToChars k) parts idxs := by
  induction idxs generalizing parts with
  | nil => simp
  | cons k ks ih =>
    cases parts with
    | nil => simp at h
    | cons p ps =>
      rw [List.length_cons, List.range_succ_eq_map, List.map_cons, List.map_map,
        List.zipWith_cons_cons]
      have h0 : (p :: ps).getD 0 [] ++ chDollar :: natToChars ((k :: ks).getD 0 0)
          = p ++ chDollar :: natToChars k := by simp [List.getD]
      rw [h0]
      congr 1
      refine Eq.trans (List.map_congr_left ?_) (ih ps (by simpa using h))
      intro i _
      simp [List.getD]

/-- **C5.** The tagged-template builder `sql`: (1) two parameter positions
receive the same placeholder number `$k` iff the embedded values there are
identity-equal; (2) a single duplicated value makes `uniqueParams` exactly one
element shorter than the template's parameter list; (3) the rendered SQL is
the template's literal parts interleaved with the positional placeholders. -/
theorem sql_placeholder_dedup_interleave {α : Type} [DecidableEq α]
    (sqlParts : List (List ℕ)) (params : List α) :
    (∀ i j, (hi : i < params.length) → (hj : j < params.length) →
      ((argIndices params).getD i 0 = (argIndices params).getD j 0 ↔
        params[i] = params[j])) ∧
    ((∃ v, params.count v = 2 ∧ ∀ w, w ≠ v → params.count w ≤ 1) →
      (uniqueParams params).length + 1 = params.length) ∧
    (params.length < sqlParts.length →
      (sqlBuild sqlParts params).sqlText =
        (List.zipWith (fun p k => p ++ chDollar :: natToChars k)
          sqlParts (argIndices params)).flatten ++ sqlParts.getD params.length []) := by
  obtain ⟨hnd, hmem, hlen, hidx⟩ := dedupLoop_invariant params
  refine ⟨?_, ?_, ?_⟩
  · intro i j hi hj
    obtain ⟨ki, hki, hai⟩ := hidx i hi
    obtain ⟨kj, hkj, haj⟩ := hidx j hj
    obtain ⟨hkil, hkiv⟩ := scanMatch_get hki
    obtain ⟨hkjl, hkjv⟩ := scanMatch_get hkj
    constructor
    · intro hEq
      rw [hai, haj] at hEq
      have hk : ki = kj := by omega
      subst hk
      rw [List.getD_eq_getElem _ _ hkil] at hkiv hkjv
      rw [← hkiv, ← hkjv]
    · intro hEq
      have hk : ki = kj := by
        rw [hEq] at hki
        rw [hki] at hkj
        exact Option.some_inj.mp hkj
      rw [hai, haj, hk]
  · rintro ⟨v, hv2, hother⟩
    have hvmem : v ∈ params := by
      by_contra hc
      rw [List.count_eq_zero_of_not_mem hc] at hv2
      omega
    have hsum : ∑ x ∈ params.toFinset, params.count x = params.length :=
      List.sum_toFinset_count_eq_length params
    have hvfin : v ∈ params.toFinset := List.mem_toFinset.mpr hvmem
    have herase : ∀ x ∈ params.toFinset.erase v, params.count x = 1 := by
      intro x hx
      obtain ⟨hxne, hxmem⟩ := Finset.mem_erase.mp hx
      have h1 : 1 ≤ params.count x := List.count_pos_iff.mpr (List.mem_toFinset.mp hxmem)
      have h2 := hother x hxne
      omega
    have : ∑ x ∈ params.toFinset.erase v, params.count x + params.count v
        = ∑ x ∈ params.toFinset, params.count x := Finset.sum_erase_add _ _ hvfin
    rw [Finset.sum_congr rfl herase, Finset.sum_const, smul_eq_mul, mul_one, hv2] at this
    rw [uniqueParams_length_card]
    have hcard : params.toFinset.card = (params.toFinset.erase v).card + 1 :=
      (Finset.card_erase_add_one hvfin).symm
    omega
  · intro hparts
    simp only [sqlBuild, renderLoop, foldl_range_append, List.nil_append, hlen]
    rw [← hlen, range_map_getD_zipWith sqlParts (argIndices params) (by omega)]

/-- Witness for C5: the duplicate-parameter template
(literal parts `"a" "b" "c" "d"`, parameters `[5, 7, 5]`). -/
theorem sql_placeholder_dedup_interleave_witness :
    ((argIndices ([5, 7, 5] : List ℕ)).getD 0 0 = (argIndices ([5, 7, 5] : List ℕ)).getD 2 0) ∧
    (uniqueParams ([5, 7, 5] : List ℕ)).length + 1 = 3 ∧
    (sqlBuild [[97], [98], [99], [100]] ([5, 7, 5] : List ℕ)).sqlText =
      (List.zipWith (fun p k => p ++ chDollar :: natToChars k)
        [[97], [98], [99], [100]] (argIndices ([5, 7, 5] : List ℕ))).flatten
        ++ [[97], [98], [99], [100]].getD 3 [] := by
  have h := sql_placeholder_dedup_interleave [[97], [98], [99], [100]] ([5, 7, 5] : List ℕ)
  refine ⟨(h.1 0 2 (by decide) (by decide)).mpr (by decide), ?_, h.2.2 (by decide)⟩
  refine h.2.1 ⟨5, by decide, ?_⟩
  intro w hw
  rcases eq_or_ne w 7 with rfl | h7
  · decide
  · have : w ∉ ([5, 7, 5] : List ℕ) := by simp [hw, h7]
    simp [List.count_eq_zero_of_not_mem this]

end SqlBuilder

/-! ## `readCString` (src/serialization.ts, lines 312-316)

```
let end = offset
while (buffer[end] !== 0) ++end
return buffer.slice(offset, end).toString('ascii')
```

The loop has no bound: past the end of the buffer, `buffer[end]` is
`undefined`, which is never `=== 0`, so when no zero byte exists at or after
`offset` the loop increments `end` forever.  The scan is therefore modelled as
an `Option`: `some` with the first zero position when one exists inside the
buffer, `none` (divergence of the JS loop) otherwise. -/

/-- The `while (buffer[end] !== 0) ++end` scan: first in-buffer index
`e ≥ offset` holding a zero byte, `none` (JS non-termination) otherwise. -/
def findZeroFrom (buffer : List ℕ) (e : ℕ) : Option ℕ :=
  if h : e < buffer.length then
    if buffer.getD e 0 = 0 then some e else findZeroFrom buffer (e + 1)
  else none
termination_by buffer.length - e

/-- `readCString` (serialization.ts): bytes from `offset` up to the first zero
byte, decoded with Node's `'ascii'` decoding (which masks each byte to 7
bits); `none` models the never-terminating scan. -/
def readCString (buffer : List ℕ) (offset : ℕ) : Option (List ℕ) :=
  (findZeroFrom buffer offset).map
    (fun e => ((buffer.drop offset).take (e - offset)).map (· % 128))

theorem findZeroFrom_some {buffer : List ℕ} {e r : ℕ}
    (h : findZeroFrom buffer e = some r) :
    e ≤ r ∧ r < buffer.length ∧ buffer.getD r 0 = 0 ∧
      ∀ k, e ≤ k → k < r → buffer.getD k 0 ≠ 0 := by
  induction e using findZeroFrom.induct buffer with
  | case1 e he hz =>
    rw [findZeroFrom, dif_pos he, if_pos hz] at h
    obtain rfl := Option.some_inj.mp h
    exact ⟨le_refl _, he, hz, fun k hk1 hk2 => absurd (hk1.trans_lt hk2) (lt_irrefl e)⟩
  | case2 e he hz ih =>
    rw [findZeroFrom, dif_pos he, if_neg hz] at h
    obtain ⟨h1, h2, h3, h4⟩ := ih h
    refine ⟨by omega, h2, h3, ?_⟩
    intro k hk1 hk2
    rcases Nat.eq_or_lt_of_le hk1 with rfl | hk1'
    · exact hz
    · exact h4 k hk1' hk2
  | case3 e he =>
    rw [findZeroFrom, dif_neg he] at h
    exact Option.noConfusion h

theorem findZeroFrom_none {buffer : List ℕ} {e : ℕ}
    (h : findZeroFrom buffer e = none) :
    ∀ i, e ≤ i → i < buffer.length → buffer.getD i 0 ≠ 0 := by
  induction e using findZeroFrom.induct buffer with
  | case1 e he hz =>
    rw [findZeroFrom, dif_pos he, if_pos hz] at h
    exact Option.noConfusion h
  | case2 e he hz ih =>
    rw [findZeroFrom, dif_pos he, if_neg hz] at h
    intro i hi1 hi2
    rcases Nat.eq_or_lt_of_le hi1 with rfl | hi1'
    · exact hz
    · exact ih h i hi1' hi2
  | case3 e he =>
    intro i hi1 hi2
    exact absurd (hi1.trans_lt hi2) he

theorem findZeroFrom_isSome {buffer : List ℕ} {e : ℕ}
    (h : ∃ i, e ≤ i ∧ i < buffer.length ∧ buffer.getD i 0 = 0) :
    (findZeroFrom buffer e).isSome := by
  cases hr : findZeroFrom buffer e with
  | some r => simp
  | none =>
    obtain ⟨i, hi1, hi2, hi3⟩ := h
    exact absurd hi3 (findZeroFrom_none hr i hi1 hi2)

/-- **C10.** `readCString(buffer, offset)` terminates with the ASCII string of
the bytes from `offset` up to the first zero byte exactly when some index at
or after `offset` within the buffer holds a zero byte; with no such zero byte
the scan never terminates (modelled as `none`), since the loop has no bound on
the buffer's length. -/
theorem readCString_terminates_iff_zero_byte (buffer : List ℕ) (offset : ℕ) :
    ((∃ i, offset ≤ i ∧ i < buffer.length ∧ buffer.getD i 0 = 0) →
      ∃ e, offset ≤ e ∧ e < buffer.length ∧ buffer.getD e 0 = 0 ∧
        (∀ k, offset ≤ k → k < e → buffer.getD k 0 ≠ 0) ∧
        readCString buffer offset =
          some (((buffer.drop offset).take (e - offset)).map (· % 128))) ∧
    ((∀ i, offset ≤ i → i < buffer.length → buffer.getD i 0 ≠ 0) →
      readCString buffer offset = none) := by
  constructor
  · intro h
    obtain ⟨r, hr⟩ := Option.isSome_iff_exists.mp (findZeroFrom_isSome h)
    obtain ⟨h1, h2, h3, h4⟩ := findZeroFrom_some hr
    exact ⟨r, h1, h2, h3, h4, by simp [readCString, hr]⟩
  · intro h
    cases hr : findZeroFrom buffer offset with
    | some r =>
      obtain ⟨h1, h2, h3, -⟩ := findZeroFrom_some hr
      exact absurd h3 (h r h1 h2)
    | none => simp [readCString, hr]

/-- Witness for C10: buffer `[65, 66, 0, 67]` scanned from 0 terminates at the
zero byte; buffer `[65, 66]` has no zero byte, so the scan diverges. -/
theorem readCString_terminates_iff_zero_byte_witness :
    readCString [65, 66, 0, 67] 0 = some [65, 66] ∧
    readCString [65, 66] 0 = none := by
  constructor
  · obtain ⟨e, h1, h2, h3, h4, h5⟩ :=
      (readCString_terminates_iff_zero_byte [65, 66, 0, 67] 0).1 ⟨2, by decide, by decide, by decide⟩
    have h2' : e < 4 := by simpa using h2
    have he : e = 2 := by
      interval_cases e
      · exact absurd h3 (by decide)
      · exact absurd h3 (by decide)
      · rfl
      · exact absurd h3 (by decide)
    rw [h5, he]
    decide
  · refine (readCString_terminates_iff_zero_byte [65, 66] 0).2 ?_
    intro i _ hi
    have : i < 2 := by simpa using hi
    interval_cases i <;> decide

/-! ## `Pool.destroy` (src/pool.ts, lines 232-243)

```
destroy() {
   for (const conn of openConnections)
      conn.destroy()
   openingConnections = openConnections.length = waitingForConnection.length
      = availableConnections.length = options.minConnections
      = options.maxConnections = 0
}
```

Connections and waiters are identified by numbers.  The observable actions of
`destroy` are modelled as a list of effects; note that the source never
invokes (resolves or rejects) any queued waiter callback — it only truncates
the `waitingForConnection` array, so the corresponding promises are never
settled. -/

/-- Mutable pool state captured by the `newPool` closure. -/
structure PoolState where
  openingConnections : ℕ
  openConnections : List ℕ
  availableConnections : List ℕ
  waitingForConnection : List ℕ
  minConnections : ℕ
  maxConnections : ℕ
deriving DecidableEq

/-- Externally observable actions taken on sockets and waiters. -/
inductive PoolEffect where
  | destroySocket (conn : ℕ)
  | rejectWaiter (waiter : ℕ)
deriving DecidableEq

/-- `Pool.destroy` (pool.ts): destroy each open connection's socket, then zero
every counter and truncate every queue.  The effect list records exactly the
socket destructions; no waiter is resolved or rejected. -/
def poolDestroy (s : PoolState) : PoolState × List PoolEffect :=
  ({ openingConnections := 0, openConnections := [], availableConnections := [],
     waitingForConnection := [], minConnections := 0, maxConnections := 0 },
   s.openConnections.map PoolEffect.destroySocket)

/-- Counterexample for C4 as stated: with one queued waiter (id 0), `destroy`
emits no rejection for it — the waiter's promise is never settled. -/
theorem poolDestroy_never_rejects_waiter :
    0 ∈ (PoolState.mk 0 [1] [] [0] 2 8).waitingForConnection ∧
    PoolEffect.rejectWaiter 0 ∉ (poolDestroy (PoolState.mk 0 [1] [] [0] 2 8)).2 := by
  decide

/-- **C4 (amended).** `Pool.destroy` destroys every open connection's socket
and clears all pool counters and queues, but queued waiters are merely
discarded from the queue without being rejected: no `rejectWaiter` effect is
ever emitted, so a queued waiter's promise remains forever pending. -/
theorem poolDestroy_destroys_and_clears (s : PoolState) :
    (poolDestroy s).2 = s.openConnections.map PoolEffect.destroySocket ∧
    (∀ c ∈ s.openConnections, PoolEffect.destroySocket c ∈ (poolDestroy s).2) ∧
    (poolDestroy s).1 = PoolState.mk 0 [] [] [] 0 0 ∧
    (∀ w, PoolEffect.rejectWaiter w ∉ (poolDestroy s).2) := by
  refine ⟨rfl, ?_, rfl, ?_⟩
  · intro c hc
    exact List.mem_map_of_mem _ hc
  · intro w hw
    simp only [poolDestroy, List.mem_map] at hw
    obtain ⟨c, -, hc⟩ := hw
    exact PoolEffect.noConfusion hc

/-- Witness for C4's amended theorem at a concrete pool state. -/
theorem poolDestroy_destroys_and_clears_witness :
    (poolDestroy (PoolState.mk 1 [4, 7] [4] [9] 2 8)).2 =
      [PoolEffect.destroySocket 4, PoolEffect.destroySocket 7] ∧
    (poolDestroy (PoolState.mk 1 [4, 7] [4] [9] 2 8)).1 = PoolState.mk 0 [] [] [] 0 0 := by
  have h := poolDestroy_destroys_and_clears (PoolState.mk 1 [4, 7] [4] [9] 2 8)
  exact ⟨h.1, h.2.2.1⟩

/-! ## `newPool` option defaulting (src/pool.ts, lines 116-131)

Each option line is `options.x = options.x || fallback`, where `||` takes the
right operand whenever the left is falsy (`undefined`, `''`, `0`).  String
options and environment variables are `Option (List ℕ)` (absent or a
character-code list; the empty string is falsy), numeric options `Option ℤ`
(absent or a value; `0` is falsy). -/

/-- JS truthiness of a possibly-undefined string. -/
def strTruthy : Option (List ℕ) → Bool
  | none => false
  | some s => !s.isEmpty

/-- JS `a || b` for possibly-undefined strings. -/
def strOr (a b : Option (List ℕ)) : Option (List ℕ) := if strTruthy a then a else b

/-- JS `a || b` for a possibly-undefined number against a number fallback. -/
def numOr (a : Option ℤ) (b : ℤ) : ℤ :=
  match a with
  | some n => if n ≠ 0 then n else b
  | none => b

/-- `"localhost"` as character codes. -/
def localhostChars : List ℕ := [108, 111, 99, 97, 108, 104, 111, 115, 116]

/-- `"postgres"` as character codes. -/
def postgresChars : List ℕ := [112, 111, 115, 116, 103, 114, 101, 115]

/-- The environment variables `newPool` consults. -/
structure Env where
  PGHOST : Option (List ℕ)
  PGPORT : Option (List ℕ)
  PGDATABASE : Option (List ℕ)
  POSTGRES_DB : Option (List ℕ)
  PGUSER : Option (List ℕ)
  POSTGRES_USER : Option (List ℕ)
  PGPASSWORD : Option (List ℕ)
  POSTGRES_PASSWORD : Option (List ℕ)

/-- The caller-supplied `Partial<PoolOptions>` (`ssl` is not defaulted by
`newPool` and carries no claim, so it is omitted here). -/
structure PoolOptionsIn where
  host : Option (List ℕ)
  port : Option ℤ
  database : Option (List ℕ)
  username : Option (List ℕ)
  password : Option (List ℕ)
  minConnections : Option ℤ
  maxConnections : Option ℤ
  connectTimeout : Option ℤ
  queryTimeout : Option ℤ
  idleTimeout : Option ℤ

/-- The options after `newPool`'s defaulting assignments. -/
structure PoolOptionsOut where
  host : Option (List ℕ)
  port : ℤ
  database : Option (List ℕ)
  username : Option (List ℕ)
  password : Option (List ℕ)
  minConnections : ℤ
  maxConnections : ℤ
  connectTimeout : ℤ
  queryTimeout : ℤ
  idleTimeout : ℤ

/-- The defaulting block of `newPool` (pool.ts lines 122-131).  `parseInt` on
`PGPORT` is restricted to digit strings (`parseIntDigits`), the only
well-formed use. -/
def newPoolOptions (o : PoolOptionsIn) (env : Env) : PoolOptionsOut where
  host := strOr o.host (strOr env.PGHOST (some localhostChars))
  port := numOr o.port
    (if strTruthy env.PGPORT then (parseIntDigits (env.PGPORT.getD []) : ℤ) else 5432)
  database := strOr o.database (strOr env.PGDATABASE (strOr env.POSTGRES_DB (some postgresChars)))
  username := strOr o.username (strOr env.PGUSER (strOr env.POSTGRES_USER (some postgresChars)))
  password := strOr o.password (strOr env.PGPASSWORD env.POSTGRES_PASSWORD)
  minConnections := numOr o.minConnections 2
  maxConnections := numOr o.maxConnections 8
  connectTimeout := numOr o.connectTimeout 15000
  queryTimeout := numOr o.queryTimeout 120000
  idleTimeout := numOr o.idleTimeout 300000

/-- **C9.** Every pool option supplied with a falsy value is replaced by its
documented default or environment fallback, exactly as if it had been
omitted: `0` for a numeric option (`port`, `minConnections`, `maxConnections`,
`connectTimeout`, `queryTimeout`, `idleTimeout`) and `''` for a string option
(`host`, `database`, `username`, `password`) behave like `undefined`; in
particular `minConnections: 0` resolves to `2` and `port: 0` resolves to
`5432` when `PGPORT` is unset. -/
theorem newPool_falsy_options_defaulted (o : PoolOptionsIn) (env : Env) :
    (newPoolOptions { o with host := some [] } env
      = newPoolOptions { o with host := none } env) ∧
    (newPoolOptions { o with port := some 0 } env
      = newPoolOptions { o with port := none } env) ∧
    (newPoolOptions { o with database := some [] } env
      = newPoolOptions { o with database := none } env) ∧
    (newPoolOptions { o with username := some [] } env
      = newPoolOptions { o with username := none } env) ∧
    (newPoolOptions { o with password := some [] } env
      = newPoolOptions { o with password := none } env) ∧
    (newPoolOptions { o with minConnections := some 0 } env
      = newPoolOptions { o with minConnections := none } env) ∧
    (newPoolOptions { o with maxConnections := some 0 } env
      = newPoolOptions { o with maxConnections := none } env) ∧
    (newPoolOptions { o with connectTimeout := some 0 } env
      = newPoolOptions { o with connectTimeout := none } env) ∧
    (newPoolOptions { o with queryTimeout := some 0 } env
      = newPoolOptions { o with queryTimeout := none } env) ∧
    (newPoolOptions { o with idleTimeout := some 0 } env
      = newPoolOptions { o with idleTimeout := none } env) ∧
    (newPoolOptions { o with minConnections := some 0 } env).minConnections = 2 ∧
    (env.PGPORT = none →
      (newPoolOptions { o with port := some 0 } env).port = 5432) ∧
    (o.host = some [] → env.PGHOST = none →
      (newPoolOptions o env).host = some localhostChars) := by
  refine ⟨rfl, rfl, rfl, rfl, rfl, rfl, rfl, rfl, rfl, rfl, rfl, ?_, ?_⟩
  · intro h1
    simp [newPoolOptions, numOr, h1, strTruthy]
  · intro h1 h2
    simp [newPoolOptions, h1, h2, strOr, strTruthy]

/-- Witness for C9 at a concrete option set and empty environment. -/
theorem newPool_falsy_options_defaulted_witness :
    (newPoolOptions
        (PoolOptionsIn.mk (some []) (some 0) none none none (some 0) none none (some 0) none)
        (Env.mk none none none none none none none none)).minConnections = 2 ∧
    (newPoolOptions
        (PoolOptionsIn.mk (some []) (some 0) none none none (some 0) none none (some 0) none)
        (Env.mk none none none none none none none none)).port = 5432 ∧
    (newPoolOptions
        (PoolOptionsIn.mk (some []) (some 0) none none none (some 0) none none (some 0) none)
        (Env.mk none none none none none none none none)).host = some localhostChars := by
  have h := newPool_falsy_options_defaulted
    (PoolOptionsIn.mk (some []) (some 0) none none none (some 0) none none (some 0) none)
    (Env.mk none none none none none none none none)
  refine ⟨?_, ?_, h.2.2.2.2.2.2.2.2.2.2.2.2 rfl rfl⟩
  · have := h.2.2.2.2.2.1
    simp only [show ({ (PoolOptionsIn.mk (some []) (some 0) none none none (some 0) none none (some 0) none) with minConnections := some 0 } : PoolOptionsIn) = PoolOptionsIn.mk (some []) (some 0) none none none (some 0) none none (some 0) none from rfl] at this ⊢
    exact h.2.2.2.2.2.2.2.2.2.2.1
  · have := h.2.2.2.2.2.2.2.2.2.2.2.1 rfl
    simpa using this

/-! ## The generic phase driver (backend module, `handleBackendMessage`)

`handleBackendMessage` registers a data listener that reassembles frames (the
reassembly loop is modelled separately for C2) and dispatches each complete
message to the active handler, layering the universal `ErrorResponse` /
`NoticeResponse` treatment over `UNPROCESSED`.  Here the driver is modelled as
a fold over the sequence of already-framed `(type, data)` messages, with the
handler's closure state made explicit. -/

/-- `MessageHandlerResponseType`/`MessageHandlerResponse` (backend module):
`doneStep` is the source's `DONE_PARTIAL`. -/
inductive HandlerResponse (T : Type) where
  | unprocessed
  | doneStep
  | doneFinal (value : T)
  | fail (error : ℕ × ℤ)
deriving DecidableEq

/-- Failure identifiers standing for the `Error` objects the source
constructs (the payload is any datum the message text interpolates). -/
def errPostgres : ℕ := 0
def errAuthNotCompleted : ℕ := 1
def errUnsupportedAuth : ℕ := 2
def errSaslSignatureMismatch : ℕ := 3
def errNegotiateVersion : ℕ := 4
def errExecIncomplete : ℕ := 5

/-- Accumulated driver context: handler state plus collected notices and
unexpected messages. -/
structure DriverAcc (σ : Type) where
  state : σ
  notices : List (List ℕ)
  unexpected : List (ℕ × List ℕ)
deriving DecidableEq

/-- Outcome of a phase over a (finite) message sequence: still waiting,
resolved, or rejected. -/
inductive PhaseResult (σ T : Type) where
  | pending (acc : DriverAcc σ)
  | success (value : T) (notices : List (List ℕ)) (unexpected : List (ℕ × List ℕ))
  | failure (error : ℕ × ℤ) (notices : List (List ℕ)) (unexpected : List (ℕ × List ℕ))
deriving DecidableEq

/-- One message dispatch of `handleBackendMessage` (lines 333-352 of the
backend module): consult the handler, then the universal responses
(`ErrorResponse` = 69 fails the phase, `NoticeResponse` = 78 is collected,
anything else unprocessed is recorded as unexpected). -/
def stepPhase {σ T : Type} (handler : σ → ℕ → List ℕ → σ × HandlerResponse T)
    (acc : DriverAcc σ) (messageType : ℕ) (data : List ℕ) : PhaseResult σ T :=
  let hr := handler acc.state messageType data
  match hr.2 with
  | .fail e => .failure e acc.notices acc.unexpected
  | .doneFinal v => .success v acc.notices acc.unexpected
  | .doneStep => .pending { acc with state := hr.1 }
  | .unprocessed =>
      if messageType = 69 then .failure (errPostgres, 0) acc.notices acc.unexpected
      else if messageType = 78 then
        .pending { acc with state := hr.1, notices := acc.notices ++ [data] }
      else .pending { acc with state := hr.1, unexpected := acc.unexpected ++ [(messageType, data)] }

/-- Run the driver over a message sequence, stopping at the first terminal
response. -/
def runPhase {σ T : Type} (handler : σ → ℕ → List ℕ → σ × HandlerResponse T)
    (acc : DriverAcc σ) : List (ℕ × List ℕ) → PhaseResult σ T
  | [] => .pending acc
  | m :: ms =>
      match stepPhase handler acc m.1 m.2 with
      | .pending acc' => runPhase handler acc' ms
      | r => r

theorem runPhase_nil {σ T : Type} (handler : σ → ℕ → List ℕ → σ × HandlerResponse T)
    (acc : DriverAcc σ) : runPhase handler acc [] = .pending acc := rfl

theorem runPhase_cons {σ T : Type} (handler : σ → ℕ → List ℕ → σ × HandlerResponse T)
    (acc : DriverAcc σ) (m : ℕ × List ℕ) (ms : List (ℕ × List ℕ)) :
    runPhase handler acc (m :: ms) =
      match stepPhase handler acc m.1 m.2 with
      | .pending acc' => runPhase handler acc' ms
      | r => r := rfl

theorem runPhase_append {σ T : Type} (handler : σ → ℕ → List ℕ → σ × HandlerResponse T)
    (acc : DriverAcc σ) (xs ys : List (ℕ × List ℕ)) :
    runPhase handler acc (xs ++ ys) =
      match runPhase handler acc xs with
      | .pending a => runPhase handler a ys
      | r => r := by
  induction xs generalizing acc with
  | nil => simp [runPhase]
  | cons m ms ih =>
    rw [List.cons_append, runPhase, runPhase]
    cases stepPhase handler acc m.1 m.2 with
    | pending acc' => exact ih acc'
    | success v n u => rfl
    | failure e n u => rfl

/-! ## The startup phase handler (backend module, `handleStartupPhase`)

The SASL message construction and signature computation
(`createSaslInitialResponseMessage`, `createSaslContinueResponseMessage`)
involve `crypto` primitives; the bytes written to the socket are recorded as
symbolic events carrying their inputs, and the server signature that
`SaslFinal` compares against is an arbitrary function `saslSig` of the same
inputs, universally quantified in the theorems. -/

/-- `createCancelRequestMessage` (frontend.ts lines 66-73). -/
def createCancelRequestMessage (processId secretKey : ℤ) : List ℕ :=
  writeInt32Bytes 16 ++ writeInt32Bytes 80877102 ++
    writeInt32Bytes processId ++ writeInt32Bytes secretKey

/-- JS `buffer.indexOf(byte, start)`: first index at or after `start` holding
`byte`, `-1` when absent. -/
def bufferIndexOf (buffer : List ℕ) (v : ℕ) (start : ℕ) : ℤ :=
  if h : start < buffer.length then
    if buffer.getD start 0 = v then (start : ℤ) else bufferIndexOf buffer v (start + 1)
  else -1
termination_by buffer.length - start

/-- The socket writes `handleStartupPhase` performs, symbolically. -/
inductive StartupWrite where
  | saslInitialResponse (username nonce : List ℕ)
  | saslContinueResponse (username password nonce serverFirst : List ℕ)
  | md5PasswordMessage (username password salt : List ℕ)
  | cleartextPasswordMessage (password : List ℕ)
deriving DecidableEq

/-- Closure state of `handleStartupPhase` (lines 34-37 of the backend
module): `authOk`, `cancelKey`, `nonce`, `serverSignature`, plus the writes
performed. -/
structure StartupState where
  authOk : Bool
  cancelKey : Option (List ℕ)
  nonce : List ℕ
  serverSignature : List ℕ
  writes : List StartupWrite
deriving DecidableEq

/-- The message handler of `handleStartupPhase` (lines 39-102).
Authentication codes: Ok 0, CleartextPassword 3, Md5Password 5, Sasl 10,
SaslContinue 11, SaslFinal 12, tested in source order.  Backend message
types: Authentication 82, ParameterStatus 83, BackendKeyData 75,
ReadyForQuery 90, NegotiateProtocolVersion 118. -/
def startupHandler (saslSig : List ℕ → List ℕ → List ℕ → List ℕ → List ℕ)
    (username password freshNonce : List ℕ)
    (s : StartupState) (messageType : ℕ) (data : List ℕ) :
    StartupState × HandlerResponse (Option (List ℕ)) :=
  if messageType = 82 then
    let authRes := readInt32 data 5
    if authRes = 10 then
      ({ s with
          nonce := freshNonce,
          writes := s.writes ++ [.saslInitialResponse username freshNonce] }, .doneStep)
    else if authRes = 11 then
      let serverFirst := data.drop 9
      ({ s with
          serverSignature := saslSig username password s.nonce serverFirst,
          writes := s.writes ++ [.saslContinueResponse username password s.nonce serverFirst] },
       .doneStep)
    else if authRes = 12 then
      let e := bufferIndexOf data 0 11 - 1
      let serverResponse := (data.drop 11).take (e - 11).toNat
      if serverResponse = s.serverSignature then (s, .doneStep)
      else (s, .fail (errSaslSignatureMismatch, 0))
    else if authRes = 5 then
      ({ s with writes := s.writes ++ [.md5PasswordMessage username password (data.drop 9)] },
       .doneStep)
    else if authRes = 0 then
      ({ s with authOk := true }, .doneStep)
    else if authRes = 3 then
      ({ s with writes := s.writes ++ [.cleartextPasswordMessage password] }, .doneStep)
    else (s, .fail (errUnsupportedAuth, authRes))
  else if messageType = 83 then (s, .doneStep)
  else if messageType = 75 then
    ({ s with
        cancelKey := some (createCancelRequestMessage (readInt32 data 5) (readInt32 data 9)) },
     .doneStep)
  else if messageType = 90 then
    if s.authOk then (s, .doneFinal s.cancelKey) else (s, .fail (errAuthNotCompleted, 0))
  else if messageType = 118 then
    (s, .fail (errNegotiateVersion, readInt32 data 5))
  else (s, .unprocessed)

/-- Initial closure state of `handleStartupPhase`. -/
def startupInit : StartupState :=
  { authOk := false, cancelKey := none, nonce := [], serverSignature := [], writes := [] }

/-- The whole startup phase over a framed message sequence. -/
def runStartup (saslSig : List ℕ → List ℕ → List ℕ → List ℕ → List ℕ)
    (username password freshNonce : List ℕ) (msgs : List (ℕ × List ℕ)) :
    PhaseResult StartupState (Option (List ℕ)) :=
  runPhase (startupHandler saslSig username password freshNonce)
    { state := startupInit, notices := [], unexpected := [] } msgs

/-- Effect of a single non-terminal startup dispatch on `authOk` and
`cancelKey`. -/
theorem startupStep_pending_facts (saslSig : List ℕ → List ℕ → List ℕ → List ℕ → List ℕ)
    (username password freshNonce : List ℕ) (acc : DriverAcc StartupState)
    (t : ℕ) (d : List ℕ) (acc' : DriverAcc StartupState)
    (h : stepPhase (startupHandler saslSig username password freshNonce) acc t d
      = .pending acc') :
    (acc'.state.authOk = (acc.state.authOk || (decide (t = 82) && decide (readInt32 d 5 = 0)))) ∧
    (acc'.state.cancelKey =
      if t = 75 then some (createCancelRequestMessage (readInt32 d 5) (readInt32 d 9))
      else acc.state.cancelKey) := by
  by_cases h82 : t = 82
  · subst h82
    by_cases h10 : readInt32 d 5 = 10
    · simp [stepPhase, startupHandler, h10] at h
      subst h
      simp [h10]
    · by_cases h11 : readInt32 d 5 = 11
      · simp [stepPhase, startupHandler, h10, h11] at h
        subst h
        simp [h11]
      · by_cases h12 : readInt32 d 5 = 12
        · by_cases hsig : ((d.drop 11).take (bufferIndexOf d 0 11 - 1 - 11).toNat)
              = acc.state.serverSignature
          · simp [stepPhase, startupHandler, h10, h11, h12, hsig] at h
            subst h
            simp [h12]
          · simp [stepPhase, startupHandler, h10, h11, h12, hsig] at h
        · by_cases h5 : readInt32 d 5 = 5
          · simp [stepPhase, startupHandler, h10, h11, h12, h5] at h
            subst h
            simp [h5]
          · by_cases h0 : readInt32 d 5 = 0
            · simp [stepPhase, startupHandler, h10, h11, h12, h5, h0] at h
              subst h
              simp [h0]
            · by_cases h3 : readInt32 d 5 = 3
              · simp [stepPhase, startupHandler, h10, h11, h12, h5, h0, h3] at h
                subst h
                simp [h0]
              · simp [stepPhase, startupHandler, h10, h11, h12, h5, h0, h3] at h
  · by_cases h83 : t = 83
    · simp [stepPhase, startupHandler, h82, h83] at h
      subst h
      simp [h82, h83]
    · by_cases h75 : t = 75
      · simp [stepPhase, startupHandler, h82, h83, h75] at h
        subst h
        simp [h82, h75]
      · by_cases h90 : t = 90
        · by_cases hauth : acc.state.authOk
          · simp [stepPhase, startupHandler, h82, h83, h75, h90, hauth] at h
          · simp [stepPhase, startupHandler, h82, h83, h75, h90, hauth] at h
        · by_cases h118 : t = 118
          · simp [stepPhase, startupHandler, h82, h83, h75, h90, h118] at h
          · by_cases h69 : t = 69
            · simp [stepPhase, startupHandler, h82, h83, h75, h90, h118, h69] at h
            · by_cases h78 : t = 78
              · simp [stepPhase, startupHandler, h82, h83, h75, h90, h118, h69, h78] at h
                subst h
                simp [h82, h75]
              · simp [stepPhase, startupHandler, h82, h83, h75, h90, h118, h69, h78] at h
                subst h
                simp [h82, h75]

/-- Invariant of a still-pending startup phase: `authOk` records exactly
whether an `AuthenticationOk` message was seen, and `cancelKey` is the cancel
frame built from the latest `BackendKeyData` message, if any. -/
theorem runStartup_pending_invariant
    (saslSig : List ℕ → List ℕ → List ℕ → List ℕ → List ℕ)
    (username password freshNonce : List ℕ)
    (pre : List (ℕ × List ℕ)) (acc : DriverAcc StartupState)
    (h : runStartup saslSig username password freshNonce pre = .pending acc) :
    (acc.state.authOk = true ↔ ∃ dd, (82, dd) ∈ pre ∧ readInt32 dd 5 = 0) ∧
    acc.state.cancelKey = ((pre.filter (fun m => m.1 = 75)).getLast?).map
      (fun m => createCancelRequestMessage (readInt32 m.2 5) (readInt32 m.2 9)) := by
  induction pre using List.reverseRecOn generalizing acc with
  | nil =>
    rw [runStartup, runPhase_nil] at h
    cases h
    simp [startupInit]
  | append_singleton ps m ih =>
    rw [runStartup, runPhase_append] at h
    cases hps : runPhase (startupHandler saslSig username password freshNonce)
        { state := startupInit, notices := [], unexpected := [] } ps with
    | success v n u => rw [hps] at h; exact PhaseResult.noConfusion h
    | failure e n u => rw [hps] at h; exact PhaseResult.noConfusion h
    | pending a =>
      rw [hps] at h
      have h' : runPhase (startupHandler saslSig username password freshNonce) a [m]
          = .pending acc := h
      rw [runPhase_cons] at h'
      obtain ⟨iha1, iha2⟩ := ih a hps
      cases hstep : stepPhase (startupHandler saslSig username password freshNonce) a m.1 m.2 with
      | success v n u => rw [hstep] at h'; exact PhaseResult.noConfusion h'
      | failure e n u => rw [hstep] at h'; exact PhaseResult.noConfusion h'
      | pending acc' =>
        rw [hstep] at h'
        have h2 : (PhaseResult.pending acc' : PhaseResult StartupState (Option (List ℕ)))
            = .pending acc := h'
        cases h2
        obtain ⟨hf1, hf2⟩ := startupStep_pending_facts _ _ _ _ _ _ _ _ hstep
        constructor
        · rw [hf1]
          simp only [Bool.or_eq_true, decide_eq_true_iff, Bool.and_eq_true, iha1]
          constructor
          · rintro (⟨dd, hdd1, hdd2⟩ | ⟨h82, h0⟩)
            · exact ⟨dd, List.mem_append_left _ hdd1, hdd2⟩
            · refine ⟨m.2, List.mem_append_right _ ?_, h0⟩
              simp only [List.mem_singleton]
              rw [← h82]
          · rintro ⟨dd, hdd1, hdd2⟩
            rcases List.mem_append.mp hdd1 with hdd1 | hdd1
            · exact Or.inl ⟨dd, hdd1, hdd2⟩
            · simp only [List.mem_singleton] at hdd1
              rw [← hdd1]
              exact Or.inr ⟨rfl, hdd2⟩
        · rw [hf2, List.filter_append]
          by_cases h75 : m.1 = 75
          · have : List.filter (fun m => decide (m.1 = 75)) [m] = [m] := by
              simp [List.filter, h75]
            rw [if_pos h75, this, List.getLast?_concat]
            simp
          · have : List.filter (fun m => decide (m.1 = 75)) [m] = [] := by
              simp [List.filter, h75]
            rw [if_neg h75, this, List.append_nil]
            exact iha2

/-- **C8.** The startup phase terminates at `ReadyForQuery` and succeeds iff
an `AuthenticationOk` was received earlier in the phase: `ReadyForQuery` after
`AuthenticationOk` resolves the phase with the prebuilt `CancelRequest` frame
computed from the latest `BackendKeyData`, while `ReadyForQuery` without a
prior `AuthenticationOk` fails the phase with an error. -/
theorem startupPhase_readyForQuery
    (saslSig : List ℕ → List ℕ → List ℕ → List ℕ → List ℕ)
    (username password freshNonce : List ℕ)
    (pre : List (ℕ × List ℕ)) (acc : DriverAcc StartupState)
    (d : List ℕ) (rest : List (ℕ × List ℕ))
    (hpre : runStartup saslSig username password freshNonce pre = .pending acc) :
    (runStartup saslSig username password freshNonce (pre ++ (90, d) :: rest) =
      if acc.state.authOk then
        PhaseResult.success acc.state.cancelKey acc.notices acc.unexpected
      else
        PhaseResult.failure (errAuthNotCompleted, 0) acc.notices acc.unexpected) ∧
    (acc.state.authOk = true ↔ ∃ dd, (82, dd) ∈ pre ∧ readInt32 dd 5 = 0) ∧
    (acc.state.cancelKey = ((pre.filter (fun m => m.1 = 75)).getLast?).map
      (fun m => createCancelRequestMessage (readInt32 m.2 5) (readInt32 m.2 9))) := by
  obtain ⟨h1, h2⟩ := runStartup_pending_invariant _ _ _ _ _ _ hpre
  refine ⟨?_, h1, h2⟩
  rw [runStartup, runPhase_append]
  rw [runStartup] at hpre
  rw [hpre]
  show runPhase (startupHandler saslSig username password freshNonce) acc ((90, d) :: rest) = _
  rw [runPhase_cons]
  by_cases hauth : acc.state.authOk
  · rw [if_pos hauth]
    simp [stepPhase, startupHandler, hauth]
  · rw [if_neg hauth]
    simp [stepPhase, startupHandler, hauth]

/-- Witness for C8: a concrete startup exchange.  `AuthenticationOk` then
`BackendKeyData` (pid 5, secret 9) then `ReadyForQuery` succeeds with the
cancel frame; a bare `ReadyForQuery` with no prior `AuthenticationOk` fails. -/
theorem startupPhase_readyForQuery_witness :
    (runStartup (fun _ _ _ _ => []) [117] [112] [110]
        [(82, [82, 0, 0, 0, 8, 0, 0, 0, 0]), (75, [75, 0, 0, 0, 12, 0, 0, 0, 5, 0, 0, 0, 9]),
         (90, [90, 0, 0, 0, 5, 73])] =
      PhaseResult.success
        (some (createCancelRequestMessage 5 9)) [] []) ∧
    (runStartup (fun _ _ _ _ => []) [117] [112] [110] [(90, [90, 0, 0, 0, 5, 73])] =
      PhaseResult.failure (errAuthNotCompleted, 0) [] []) := by
  constructor
  · have hpre : runStartup (fun _ _ _ _ => []) [117] [112] [110]
        [(82, [82, 0, 0, 0, 8, 0, 0, 0, 0]), (75, [75, 0, 0, 0, 12, 0, 0, 0, 5, 0, 0, 0, 9])]
        = .pending (DriverAcc.mk
            (StartupState.mk true (some (createCancelRequestMessage 5 9)) [] [] []) [] []) := by
      decide
    have h := (startupPhase_readyForQuery (fun _ _ _ _ => []) [117] [112] [110]
        _ _ [90, 0, 0, 0, 5, 73] [] hpre).1
    simpa using h
  · have hpre : runStartup (fun _ _ _ _ => []) [117] [112] [110] [] = .pending
        (DriverAcc.mk startupInit [] []) := rfl
    have h := (startupPhase_readyForQuery (fun _ _ _ _ => []) [117] [112] [110]
        [] _ [90, 0, 0, 0, 5, 73] [] hpre).1
    simpa [startupInit] using h

/-! ## The extended-query execution handler (backend module,
`handleQueryExecution`, lines 191-277)

Column decoding of `DataRow` messages dispatches on the declared OIDs through
the byte codecs (modelled at codec level elsewhere); for this phase model the
row decoder is an arbitrary function parameter, since the claim at issue
concerns `rowsAffected`.  JS `parseInt` can yield `NaN`; `rowsAffected` is
therefore an `Option ℕ`, `none` standing for `NaN` and `some 0` being the
initial value. -/

/-- `['INSERT', 'DELETE', 'UPDATE', 'SELECT', 'MOVE', 'FETCH', 'COPY']` as
character-code strings (backend module, line 178). -/
def commandsWithRowsAffected : List (List ℕ) :=
  [[73, 78, 83, 69, 82, 84], [68, 69, 76, 69, 84, 69], [85, 80, 68, 65, 84, 69],
   [83, 69, 76, 69, 67, 84], [77, 79, 86, 69], [70, 69, 84, 67, 72], [67, 79, 80, 89]]

/-- JS `parseInt(s, 10)` on an arbitrary string (as used on the command tag's
last token): the maximal leading run of digits, `none` (`NaN`) when there is
none.  (Leading sign and whitespace do not occur in command tags.) -/
def jsParseIntDec (s : List ℕ) : Option ℕ :=
  let ds := s.takeWhile (fun c => decide (48 ≤ c) && decide (c ≤ 57))
  if ds.isEmpty then none else some (digitsVal (ds.map (· - 48)))

/-- Closure state of `handleQueryExecution` (lines 192-197), over an abstract
row type `ρ`. -/
structure QueryExecState (ρ : Type) where
  parseCompleted : Bool
  bindingCompleted : Bool
  commandCompleted : Bool
  rows : List ρ
  rowsAffected : Option ℕ
deriving DecidableEq

/-- The message handler of `handleQueryExecution` (lines 199-276).  Message
types: DataRow 68, ParseComplete 49, BindComplete 50, CommandComplete 67,
ReadyForQuery 90.  On `CommandComplete` the command tag is the C string at
offset 5; its first space-separated word selects whether the last token is
parsed into `rowsAffected`. -/
def queryExecHandler {ρ : Type} (decodeRow : List ℕ → ρ)
    (s : QueryExecState ρ) (messageType : ℕ) (data : List ℕ) :
    QueryExecState ρ × HandlerResponse (List ρ × Option ℕ) :=
  if messageType = 68 then
    ({ s with rows := s.rows ++ [decodeRow data] }, .doneStep)
  else if messageType = 49 then
    ({ s with parseCompleted := true }, .doneStep)
  else if messageType = 50 then
    ({ s with bindingCompleted := true }, .doneStep)
  else if messageType = 67 then
    let commandTagParts := ((readCString data 5).getD []).splitOn 32
    let commandTag := commandTagParts.headI
    if commandTag ∈ commandsWithRowsAffected then
      ({ s with
          commandCompleted := true,
          rowsAffected := jsParseIntDec (commandTagParts.getLastD []) }, .doneStep)
    else
      ({ s with commandCompleted := true }, .doneStep)
  else if messageType = 90 then
    if s.parseCompleted && s.bindingCompleted && s.commandCompleted then
      (s, .doneFinal (s.rows, s.rowsAffected))
    else
      (s, .fail (errExecIncomplete, if !s.parseCompleted then 0 else if !s.bindingCompleted then 1 else 2))
  else (s, .unprocessed)

/-- Initial closure state of `handleQueryExecution` (`parseCompleted`
starts at `skipParse`). -/
def queryExecInit (ρ : Type) (skipParse : Bool) : QueryExecState ρ :=
  ⟨skipParse, false, false, [], some 0⟩

/-- A frame whose payload is the 5-byte header followed by the NUL-terminated
command tag: what `CommandComplete` carries. -/
def commandCompleteData (tag : List ℕ) : List ℕ :=
  [67, 0, 0, 0, 0] ++ tag ++ [0]

theorem readCString_commandCompleteData (tag : List ℕ)
    (htag : ∀ c ∈ tag, c < 128) (hz : 0 ∉ tag) :
    readCString (commandCompleteData tag) 5 = some tag := by
  have hbuf : commandCompleteData tag = [67, 0, 0, 0, 0] ++ (tag ++ [0]) := by
    simp [commandCompleteData]
  have hfind : findZeroFrom (commandCompleteData tag) 5 = some (5 + tag.length) := by
    have hex : ∃ i, 5 ≤ i ∧ i < (commandCompleteData tag).length ∧
        (commandCompleteData tag).getD i 0 = 0 := by
      refine ⟨5 + tag.length, by omega, ?_, ?_⟩
      · simp [commandCompleteData]
        omega
      · rw [hbuf, List.getD_eq_getElem?_getD, List.getElem?_append_right (by simp)]
        simp
    obtain ⟨r, hr⟩ := Option.isSome_iff_exists.mp (findZeroFrom_isSome hex)
    obtain ⟨h1, h2, h3, h4⟩ := findZeroFrom_some hr
    have hlen : (commandCompleteData tag).length = tag.length + 6 := by
      simp [commandCompleteData]
    have hr5 : r = 5 + tag.length := by
      by_contra hne
      have hrlt : r < 5 + tag.length := by omega
      have : (commandCompleteData tag).getD r 0 ∈ tag := by
        rw [hbuf, List.getD_eq_getElem?_getD]
        rw [List.getElem?_append_right (by simp; omega)]
        simp only [List.length_cons, List.length_nil]
        have hr5' : r - 5 < tag.length := by omega
        rw [List.getElem?_append_left (by simpa using hr5')]
        rw [List.getElem?_eq_getElem hr5']
        simp [List.getElem_mem]
      rw [h3] at this
      exact hz this
    rw [← hr5]
    exact hr
  rw [readCString, hfind, Option.map_some']
  congr 1
  have hdrop : (commandCompleteData tag).drop 5 = tag ++ [0] := by
    rw [hbuf]
    rfl
  rw [hdrop]
  have : 5 + tag.length - 5 = tag.length := by omega
  rw [this, List.take_append_of_le_length (le_refl _), List.take_length]
  refine (List.map_congr_left ?_).trans (List.map_id _)
  intro c hc
  exact Nat.mod_eq_of_lt (htag c hc)

/-- **C7.** `handleQueryExecution` and `rowsAffected`: starting from 0, a
`CommandComplete` whose tag's first space-separated word is one of INSERT,
UPDATE, DELETE, SELECT, MOVE, FETCH, COPY sets `rowsAffected` to the tag's
last space-separated token parsed as a non-negative integer; any other
command tag leaves `rowsAffected` unchanged (hence 0); the final result
delivered at `ReadyForQuery` carries exactly this value. -/
theorem queryExecution_rowsAffected {ρ : Type} (decodeRow : List ℕ → ρ)
    (s : QueryExecState ρ) (tag : List ℕ)
    (htag : ∀ c ∈ tag, c < 128) (hz : 0 ∉ tag) :
    ((queryExecInit ρ false).rowsAffected = some 0) ∧
    ((tag.splitOn 32).headI ∈ commandsWithRowsAffected →
      ∀ lastTok, (tag.splitOn 32).getLastD [] = lastTok →
        lastTok ≠ [] → (∀ c ∈ lastTok, 48 ≤ c ∧ c ≤ 57) →
        ((queryExecHandler decodeRow s 67 (commandCompleteData tag)).1.rowsAffected
          = some (digitsVal (lastTok.map (· - 48))))) ∧
    ((tag.splitOn 32).headI ∉ commandsWithRowsAffected →
      (queryExecHandler decodeRow s 67 (commandCompleteData tag)).1.rowsAffected
        = s.rowsAffected) ∧
    (∀ d, s.parseCompleted = true → s.bindingCompleted = true → s.commandCompleted = true →
      (queryExecHandler decodeRow s 90 d).2 = HandlerResponse.doneFinal (s.rows, s.rowsAffected)) := by
  have hread := readCString_commandCompleteData tag htag hz
  refine ⟨rfl, ?_, ?_, ?_⟩
  · intro hmem lastTok hlast hne hdig
    have hjs : jsParseIntDec lastTok = some (digitsVal (lastTok.map (· - 48))) := by
      rw [jsParseIntDec]
      have htw : lastTok.takeWhile (fun c => decide (48 ≤ c) && decide (c ≤ 57)) = lastTok :=
        List.takeWhile_eq_self_iff.mpr (by
          intro c hc
          simp [hdig c hc])
      simp [htw, List.isEmpty_iff, hne]
    simp only [queryExecHandler, hread, Option.getD_some]
    norm_num
    rw [if_pos hmem]
    show jsParseIntDec ((List.splitOn 32 tag).getLast?.getD []) = _
    rw [← List.getLastD_eq_getLast?, hlast, hjs]
  · intro hmem
    simp only [queryExecHandler, hread, Option.getD_some]
    norm_num
    rw [if_neg hmem]
  · intro d hp hb hc
    simp only [queryExecHandler]
    norm_num [hp, hb, hc]

/-- Witness for C7: the tag `"INSERT 0 5"` sets `rowsAffected` to 5; the tag
`"CREATE TABLE"` leaves it at 0. -/
theorem queryExecution_rowsAffected_witness :
    ((queryExecHandler (fun d => d) (queryExecInit (List ℕ) false) 67
        (commandCompleteData [73, 78, 83, 69, 82, 84, 32, 48, 32, 53])).1.rowsAffected
      = some 5) ∧
    ((queryExecHandler (fun d => d) (queryExecInit (List ℕ) false) 67
        (commandCompleteData [67, 82, 69, 65, 84, 69, 32, 84, 65, 66, 76, 69])).1.rowsAffected
      = some 0) := by
  constructor
  · have h := (queryExecution_rowsAffected (fun d => d) (queryExecInit (List ℕ) false)
      [73, 78, 83, 69, 82, 84, 32, 48, 32, 53] (by decide) (by decide)).2.1
      (by decide) [53] (by decide) (by decide) (by decide)
    rw [h]
    decide
  · have h := (queryExecution_rowsAffected (fun d => d) (queryExecInit (List ℕ) false)
      [67, 82, 69, 65, 84, 69, 32, 84, 65, 66, 76, 69] (by decide) (by decide)).2.2.1
      (by decide)
    rw [h]
    rfl

/-! ## Timestamps (src/serialization.ts, lines 291-302)

```
const postgresEpoch = new Date('2000-01-01T00:00:00Z').getTime()
readTimestamp:  value = 4294967296 * readInt32(b, o) + readUint32(b, o+4)
                new Date(Math.round(value / 1000) + postgresEpoch)
writeTimestamp: t = (value.getTime() - postgresEpoch) * 1000
                writeInt32(b, t / 4294967296, o); writeUint32(b, t, o+4)
```

Instants are their JS epoch milliseconds (`ℤ`).  JS number arithmetic is
embedded exactly over `ℤ`/`ℚ`; this agrees with IEEE double arithmetic on the
ranges used in the theorems: every intermediate integer stays below `2^53`
(so products and sums are exact), division by `2^32` is exact scaling by a
power of two, and for `|value| < 2^52` the correctly-rounded `value / 1000`
never crosses a rounding boundary of `Math.round`.  `Math.round(x)` is
`⌊x + 1/2⌋` (halves toward `+∞`).  `writeInt32` receives the non-integral
quotient `t / 4294967296`, which JS bit-operations first convert with
`ToInt32`, truncating toward zero: that is `Int.div` on the exact value. -/

/-- `new Date('2000-01-01T00:00:00Z').getTime()`. -/
def postgresEpoch : ℤ := 946684800000

/-- `readTimestamp` (serialization.ts): milliseconds of the returned `Date`. -/
def readTimestamp (buffer : List ℕ) (offset : ℕ) : ℤ :=
  let value : ℤ := 4294967296 * readInt32 buffer offset + readUint32 buffer (offset + 4)
  ⌊(value : ℚ) / 1000 + 1 / 2⌋ + postgresEpoch

/-- `writeTimestamp` (serialization.ts): the eight bytes stored for an
instant of `ms` epoch milliseconds.  `Int.tdiv` truncates toward zero, as
`ToInt32` does on the JS float quotient `t / 4294967296`. -/
def writeTimestamp (ms : ℤ) : List ℕ :=
  let t : ℤ := (ms - postgresEpoch) * 1000
  writeInt32Bytes (Int.tdiv t 4294967296) ++ writeInt32Bytes t

/-- The wire image of a signed 64-bit microsecond count, big-endian. -/
def int64be (m : ℤ) : List ℕ :=
  be4 ((m / 4294967296) % 4294967296).toNat ++ be4 (m % 4294967296).toNat

theorem be4_lt (u : ℕ) : ∀ b ∈ be4 u, b < 256 := by
  intro b hb
  simp [be4] at hb
  rcases hb with rfl | rfl | rfl | rfl <;> omega

theorem readUint32_be4 (u : ℕ) (hu : u < 4294967296) (rest : List ℕ) :
    readUint32 (be4 u ++ rest) 0 = u := by
  simp only [readUint32, be4]
  have h1 : u / 16777216 % 256 = u / 16777216 := Nat.mod_eq_of_lt (by omega)
  simp [List.getD, h1]
  omega

theorem readUint32_after4 (a : List ℕ) (ha : a.length = 4) (u : ℕ) (hu : u < 4294967296)
    (rest : List ℕ) : readUint32 (a ++ (be4 u ++ rest)) 4 = u := by
  match a, ha with
  | [a0, a1, a2, a3], _ =>
    simp only [readUint32, be4]
    have h1 : u / 16777216 % 256 = u / 16777216 := Nat.mod_eq_of_lt (by omega)
    simp [List.getD, h1]
    omega

theorem readInt32_be4_signed (v : ℤ) (hlo : -2147483648 ≤ v) (hhi : v < 2147483648)
    (rest : List ℕ) :
    readInt32 (be4 ((v % 4294967296).toNat) ++ rest) 0 = v := by
  have hmod_nonneg : 0 ≤ v % 4294967296 := Int.emod_nonneg v (by norm_num)
  have hmod_lt : v % 4294967296 < 4294967296 := Int.emod_lt_of_pos v (by norm_num)
  have hu : (v % 4294967296).toNat < 4294967296 := by omega
  have hid := Int.ediv_add_emod v 4294967296
  rw [readInt32]
  simp only [readUint32_be4 _ hu rest]
  split <;> omega

/-- **C3 (amended).** `readTimestamp` maps a wire value of `m` signed
microseconds since 2000-01-01T00:00:00Z to `round(m / 1000) +
postgresEpochMilliseconds` (halves toward `+∞`), for `|m| < 2^52` (the range
where double arithmetic is exact; this includes negative values); and
`readTimestamp ∘ writeTimestamp` is the identity on millisecond instants *at
or after* 2000-01-01.  (For instants before the epoch the composition is not
the identity: see the counterexample.) -/
theorem timestamp_codec_roundtrip :
    (∀ m : ℤ, -4503599627370496 < m → m < 4503599627370496 →
      readTimestamp (int64be m) 0 = ⌊(m : ℚ) / 1000 + 1 / 2⌋ + postgresEpoch) ∧
    (∀ ms : ℤ, postgresEpoch ≤ ms → (ms - postgresEpoch) * 1000 < 4503599627370496 →
      readTimestamp (writeTimestamp ms) 0 = ms) := by
  constructor
  · intro m hm1 hm2
    have hid := Int.ediv_add_emod m 4294967296
    have hr0 : 0 ≤ m % 4294967296 := Int.emod_nonneg m (by norm_num)
    have hr1 : m % 4294967296 < 4294967296 := Int.emod_lt_of_pos m (by norm_num)
    have hdlo : -2147483648 ≤ m / 4294967296 := by omega
    have hdhi : m / 4294967296 < 2147483648 := by omega
    have hlo : (m % 4294967296).toNat < 4294967296 := by omega
    have hbytes : int64be m
        = be4 ((m / 4294967296) % 4294967296).toNat
          ++ (be4 (m % 4294967296).toNat ++ []) := by
      rw [List.append_nil]
      rfl
    have hread32 : readInt32 (int64be m) 0 = m / 4294967296 := by
      rw [int64be]
      exact readInt32_be4_signed _ hdlo hdhi _
    have hreadU : readUint32 (int64be m) 4 = (m % 4294967296).toNat := by
      rw [hbytes]
      exact readUint32_after4 (be4 ((m / 4294967296) % 4294967296).toNat) rfl _ hlo []
    rw [readTimestamp]
    rw [hread32, hreadU]
    have hval : 4294967296 * (m / 4294967296) + (((m % 4294967296).toNat : ℕ) : ℤ) = m := by
      omega
    rw [hval]
  · intro ms h1 h2
    have ht0 : 0 ≤ (ms - postgresEpoch) * 1000 := by
      omega
    set t : ℤ := (ms - postgresEpoch) * 1000 with ht
    have htdiv : Int.tdiv t 4294967296 = t / 4294967296 :=
      Int.tdiv_eq_ediv ht0 (by norm_num)
    have hid := Int.ediv_add_emod t 4294967296
    have hr0 : 0 ≤ t % 4294967296 := Int.emod_nonneg t (by norm_num)
    have hr1 : t % 4294967296 < 4294967296 := Int.emod_lt_of_pos t (by norm_num)
    have hdlo : -2147483648 ≤ t / 4294967296 := by omega
    have hdhi : t / 4294967296 < 2147483648 := by
      omega
    have hlob : (t % 4294967296).toNat < 4294967296 := by omega
    have hwr : writeTimestamp ms
        = be4 ((t / 4294967296) % 4294967296).toNat
          ++ (be4 (t % 4294967296).toNat ++ []) := by
      rw [List.append_nil, writeTimestamp, writeInt32Bytes, writeInt32Bytes, htdiv]
    have hread32 : readInt32 (writeTimestamp ms) 0 = t / 4294967296 := by
      rw [writeTimestamp, writeInt32Bytes, writeInt32Bytes, htdiv]
      exact readInt32_be4_signed _ hdlo hdhi _
    have hreadU : readUint32 (writeTimestamp ms) 4 = (t % 4294967296).toNat := by
      rw [hwr]
      exact readUint32_after4 (be4 ((t / 4294967296) % 4294967296).toNat) rfl _ hlob []
    rw [readTimestamp, hread32, hreadU]
    have hval : 4294967296 * (t / 4294967296) + (((t % 4294967296).toNat : ℕ) : ℤ) = t := by
      omega
    rw [hval]
    have hq : (t : ℚ) / 1000 = ((ms - postgresEpoch : ℤ) : ℚ) := by
      rw [ht]
      push_cast
      ring
    rw [hq, add_comm ((ms - postgresEpoch : ℤ) : ℚ) (1 / 2), Int.floor_add_int]
    have : ⌊(1 / 2 : ℚ)⌋ = 0 := by norm_num
    rw [this]
    omega

/-- Witness for C3's amended theorem: microsecond value `-1000` reads as the
instant one millisecond before the epoch, and the instant
2004-10-19T10:23:54.021Z survives the round trip. -/
theorem timestamp_codec_roundtrip_witness :
    readTimestamp (int64be (-1000)) 0 = 946684799999 ∧
    readTimestamp (writeTimestamp 1098181434021) 0 = 1098181434021 := by
  constructor
  · have h := timestamp_codec_roundtrip.1 (-1000) (by norm_num) (by norm_num)
    rw [h]
    norm_num [postgresEpoch]
  · exact timestamp_codec_roundtrip.2 1098181434021 (by norm_num [postgresEpoch])
      (by norm_num [postgresEpoch])

/-- Counterexample for C3 as stated: the instant one millisecond *before*
2000-01-01 (epoch ms 946684799999) does not survive `writeTimestamp` followed
by `readTimestamp` — the hi word is truncated toward zero while the low word
wraps, so the value comes back 2^32 microseconds too high. -/
theorem timestamp_negative_roundtrip_fails :
    readTimestamp (writeTimestamp 946684799999) 0 = 946689094966 ∧
    (946689094966 : ℤ) ≠ 946684799999 := by
  constructor
  · have hw : writeTimestamp 946684799999
        = be4 0 ++ be4 4294966296 := by
      decide
    rw [hw, readTimestamp]
    have h32 : readInt32 (be4 0 ++ be4 4294966296) 0 = 0 := by decide
    have hU : readUint32 (be4 0 ++ be4 4294966296) 4 = 4294966296 := by decide
    rw [h32, hU]
    rw [show (4294967296 * 0 + ((4294966296 : ℕ) : ℤ) : ℤ) = 4294966296 by norm_num]
    rw [show ((4294966296 : ℤ) : ℚ) / 1000 + 1 / 2 = 4294966796 / 1000 by norm_num]
    rw [show ⌊(4294966796 / 1000 : ℚ)⌋ = 4294966 by norm_num [Int.floor_eq_iff]]
    norm_num [postgresEpoch]
  · norm_num

/-! ## Frame reassembly (backend module, `handleBackendMessage`'s `onData`,
lines 316-356)

```
function onData(data) {
   if (dataLeftover) { data = Buffer.concat([dataLeftover, data]); dataLeftover = undefined }
   if (data.byteLength <= 5) { dataLeftover = data; return }
   const messageSize = 1 + readInt32(data, 1)
   if (messageSize > data.byteLength) { dataLeftover = data; return }
   const messageType = readUint8(data, 0)
   ... dispatch (messageType, data) ...
   if (data.byteLength > messageSize) onData(data.slice(messageSize))
}
```

The dispatch is modelled as recording the `(messageType, data)` pair exactly
as passed to the handler (`data` is the whole remaining buffer, not just the
frame), for the scenario in which the handler keeps the phase open.  `fuel`
bounds the self-recursion; `data.length` suffices whenever every length field
is at least 4 (`messageSize ≥ 5`); an ill-formed length field ≤ −1 would make
the JS loop spin forever.  A retained `dataLeftover` of `undefined` and of an
empty buffer are observationally identical under `Buffer.concat`, so the
chunk-feeding fold carries `(leftover : Option _).getD []`. -/

/-- The reassembly loop body, with explicit recursion fuel. -/
def onDataFuel : ℕ → List ℕ → List (ℕ × List ℕ) × Option (List ℕ)
  | 0, data => ([], some data)
  | fuel + 1, data =>
    if data.length ≤ 5 then ([], some data)
    else
      let messageSize : ℤ := 1 + readInt32 data 1
      if (data.length : ℤ) < messageSize then ([], some data)
      else
        let messageType := readUint8 data 0
        if messageSize < (data.length : ℤ) then
          let r := onDataFuel fuel (data.drop messageSize.toNat)
          ((messageType, data) :: r.1, r.2)
        else ([(messageType, data)], none)

/-- One `data` event: the messages dispatched and the retained leftover. -/
def onData (data : List ℕ) : List (ℕ × List ℕ) × Option (List ℕ) :=
  onDataFuel data.length data

/-- Feeding successive socket `data` events through `onData`, threading
`dataLeftover` (`none` and `some []` behave identically, so the running state
is the `getD []` of the previous leftover). -/
def feedChunksGo (lo : List ℕ) : List (List ℕ) → List (ℕ × List ℕ) × List ℕ
  | [] => ([], lo)
  | c :: cs =>
    let r := onData (lo ++ c)
    let r2 := feedChunksGo (r.2.getD []) cs
    (r.1 ++ r2.1, r2.2)

/-- A whole sequence of socket `data` events, starting with no leftover. -/
def feedChunks (chunks : List (List ℕ)) : List (ℕ × List ℕ) × List ℕ :=
  feedChunksGo [] chunks

/-- A backend frame: type tag plus payload. -/
structure Frame where
  tag : ℕ
  payload : List ℕ
deriving DecidableEq

/-- The wire bytes of a frame: tag byte, then the int32 length field
(4 + payload length, counting itself but not the tag), then the payload. -/
def frameBytes (f : Frame) : List ℕ :=
  f.tag :: (writeInt32Bytes (4 + f.payload.length) ++ f.payload)

/-- Well-formedness: byte-valued contents and a length field that fits a
positive int32. -/
def WfFrame (f : Frame) : Prop :=
  f.tag < 256 ∧ (∀ b ∈ f.payload, b < 256) ∧ (f.payload.length : ℤ) + 4 < 2147483648

instance (f : Frame) : Decidable (WfFrame f) := by
  unfold WfFrame
  infer_instance

/-- Total wire size of a frame. -/
def frameLen (f : Frame) : ℕ := 5 + f.payload.length

/-- Total wire size of a frame sequence. -/
def streamLen (fs : List Frame) : ℕ := (fs.map frameLen).sum

/-- The byte stream carrying a frame sequence. -/
def stream (fs : List Frame) : List ℕ := (fs.map frameBytes).flatten

/-- The first `m` bytes of the stream: what has arrived so far. -/
def partialStream (fs : List Frame) (m : ℕ) : List ℕ := (stream fs).take m

/-- How many leading frames the reassembly loop has dispatched once `m` bytes
of the stream have arrived: frame-by-frame, the head frame is dispatched as
soon as its bytes are all present *and* the available run exceeds 5 bytes. -/
def dispCount (fs : List Frame) (m : ℕ) : ℕ :=
  match fs with
  | [] => 0
  | f :: rest =>
    if 5 < m ∧ frameLen f ≤ m then 1 + dispCount rest (m - frameLen f) else 0

/-- Trimming a dispatched `(type, data)` pair to the frame it announces:
the first `1 + readInt32(data, 1)` bytes of `data`. -/
def stripMsg (msg : ℕ × List ℕ) : ℕ × List ℕ :=
  (msg.1, msg.2.take (1 + readInt32 msg.2 1).toNat)

theorem length_frameBytes (f : Frame) : (frameBytes f).length = frameLen f := by
  simp [frameBytes, frameLen, writeInt32Bytes, be4]
  omega

theorem length_stream (fs : List Frame) : (stream fs).length = streamLen fs := by
  rw [stream, List.length_flatten, streamLen, List.map_map]
  congr 1
  exact List.map_congr_left (fun f _ => length_frameBytes f)

theorem frameLen_ge (f : Frame) : 5 ≤ frameLen f := by
  simp [frameLen]

theorem streamLen_cons (f : Frame) (rest : List Frame) :
    streamLen (f :: rest) = frameLen f + streamLen rest := by
  simp [streamLen]

theorem stream_cons (f : Frame) (rest : List Frame) :
    stream (f :: rest) = frameBytes f ++ stream rest := by
  simp [stream]

/-- `getD` through a short enough `take`. -/
theorem getD_take_of_lt (l : List ℕ) (m i : ℕ) (h : i < m) :
    (l.take m).getD i 0 = l.getD i 0 := by
  rw [List.getD_eq_getElem?_getD, List.getD_eq_getElem?_getD, List.getElem?_take_of_lt h]

/-- `getD` inside the left part of an append. -/
theorem getD_append_left2 {l r : List ℕ} {i : ℕ} (h : i < l.length) :
    (l ++ r).getD i 0 = l.getD i 0 := by
  rw [List.getD_eq_getElem?_getD, List.getD_eq_getElem?_getD, List.getElem?_append_left h]

theorem readUint32_take_be4 (u k : ℕ) (z : List ℕ) (hk : 4 ≤ k) (hu : u < 4294967296) :
    readUint32 ((be4 u ++ z).take k) 0 = u := by
  have hbe : (be4 u).length = 4 := by simp [be4]
  rw [readUint32]
  rw [getD_take_of_lt _ _ _ (by omega), getD_take_of_lt _ _ _ (by omega),
    getD_take_of_lt _ _ _ (by omega), getD_take_of_lt _ _ _ (by omega)]
  rw [getD_append_left2 (by omega), getD_append_left2 (by omega),
    getD_append_left2 (by omega), getD_append_left2 (by omega)]
  have e0 : (be4 u).getD 0 0 = u / 16777216 % 256 := rfl
  have e1 : (be4 u).getD (0 + 1) 0 = u / 65536 % 256 := rfl
  have e2 : (be4 u).getD (0 + 2) 0 = u / 256 % 256 := rfl
  have e3 : (be4 u).getD (0 + 3) 0 = u % 256 := rfl
  rw [e0, e1, e2, e3]
  omega

/-- Reading the length field of the head frame once more than 5 bytes of the
stream are available. -/
theorem readInt32_stream_head (f : Frame) (rest : List Frame) (m : ℕ)
    (hm : 5 ≤ m) (hwf : (f.payload.length : ℤ) + 4 < 2147483648) :
    readInt32 (partialStream (f :: rest) m) 1 = 4 + (f.payload.length : ℤ) := by
  have hlt : 4 + f.payload.length < 4294967296 := by omega
  have hbytes : partialStream (f :: rest) m
      = f.tag :: ((be4 (4 + f.payload.length) ++ (f.payload ++ stream rest)).take (m - 1)) := by
    rw [partialStream, stream_cons, frameBytes, writeInt32Bytes]
    have hmod : ((4 + f.payload.length : ℕ) : ℤ) % 4294967296 = ((4 + f.payload.length : ℕ) : ℤ) :=
      Int.emod_eq_of_lt (by omega) (by omega)
    rw [show ((4 + f.payload.length : ℤ)) = ((4 + f.payload.length : ℕ) : ℤ) by push_cast; ring,
      hmod, Int.toNat_natCast]
    rw [List.cons_append, List.append_assoc]
    cases m with
    | zero => omega
    | succ mm => rw [List.take_succ_cons, Nat.add_sub_cancel]
  rw [hbytes]
  rw [show readInt32
      (f.tag :: ((be4 (4 + f.payload.length) ++ (f.payload ++ stream rest)).take (m - 1))) 1
    = readInt32 ((be4 (4 + f.payload.length) ++ (f.payload ++ stream rest)).take (m - 1)) 0
    from rfl]
  rw [readInt32]
  rw [readUint32_take_be4 _ _ _ (by omega) hlt]
  rw [if_pos (by exact_mod_cast (by omega : ((4 + f.payload.length : ℕ) : ℤ) < 2147483648))]
  push_cast
  ring

/-- The head byte of the partial stream is the head frame's tag. -/
theorem readUint8_stream_head (f : Frame) (rest : List Frame) (m : ℕ) (hm : 1 ≤ m) :
    readUint8 (partialStream (f :: rest) m) 0 = f.tag := by
  rw [readUint8, partialStream, getD_take_of_lt _ _ _ (by omega), stream_cons, frameBytes]
  rfl

theorem dispCount_nil (m : ℕ) : dispCount [] m = 0 := rfl

theorem dispCount_cons (f : Frame) (rest : List Frame) (m : ℕ) :
    dispCount (f :: rest) m =
      if 5 < m ∧ frameLen f ≤ m then 1 + dispCount rest (m - frameLen f) else 0 := rfl

theorem dispCount_of_le5 (fs : List Frame) (m : ℕ) (hm : m ≤ 5) : dispCount fs m = 0 := by
  cases fs with
  | nil => rfl
  | cons f rest =>
    rw [dispCount_cons, if_neg]
    omega

theorem onDataFuel_zero (data : List ℕ) : onDataFuel 0 data = ([], some data) := rfl

theorem onDataFuel_succ (fuel : ℕ) (data : List ℕ) :
    onDataFuel (fuel + 1) data =
      if data.length ≤ 5 then ([], some data)
      else if (data.length : ℤ) < 1 + readInt32 data 1 then ([], some data)
      else if 1 + readInt32 data 1 < (data.length : ℤ) then
        ((readUint8 data 0, data) :: (onDataFuel fuel (data.drop (1 + readInt32 data 1).toNat)).1,
         (onDataFuel fuel (data.drop (1 + readInt32 data 1).toNat)).2)
      else ([(readUint8 data 0, data)], none) := rfl

theorem partialStream_nil (m : ℕ) : partialStream [] m = [] := by
  simp [partialStream, stream]

/-- The central lemma: how a single (leftover-concatenated) buffer holding
the first `m` bytes of a well-formed frame stream is split by `onData`.
The dispatched messages, trimmed to their frames, are exactly the first
`dispCount` frames, and the leftover is the remaining bytes. -/
theorem onDataFuel_partialStream (gs : List Frame) :
    ∀ (m fuel : ℕ), (∀ f ∈ gs, WfFrame f) → m ≤ streamLen gs → m ≤ fuel →
    ((onDataFuel fuel (partialStream gs m)).1.map stripMsg
        = (gs.take (dispCount gs m)).map (fun f => (f.tag, frameBytes f)))
    ∧ ((onDataFuel fuel (partialStream gs m)).2.getD []
        = partialStream (gs.drop (dispCount gs m))
            (m - streamLen (gs.take (dispCount gs m)))) := by
  induction gs with
  | nil =>
    intro m fuel hwf hm hfuel
    have hm0 : m = 0 := by simpa [streamLen] using hm
    subst hm0
    rw [partialStream_nil]
    cases fuel with
    | zero => simp [onDataFuel_zero, dispCount_nil, partialStream_nil]
    | succ fu =>
      rw [onDataFuel_succ, if_pos (by simp)]
      simp [dispCount_nil, partialStream_nil]
  | cons g rest ih =>
    intro m fuel hwf hm hfuel
    have hwfg : WfFrame g := hwf g (by simp)
    have hwfr : ∀ f ∈ rest, WfFrame f := fun f hf => hwf f (by simp [hf])
    have hmlen : m ≤ streamLen (g :: rest) := hm
    have hlen : (partialStream (g :: rest) m).length = m := by
      rw [partialStream, List.length_take, length_stream]
      omega
    by_cases hm5 : m ≤ 5
    · have hdisp : dispCount (g :: rest) m = 0 := dispCount_of_le5 _ _ hm5
      have hres : (onDataFuel fuel (partialStream (g :: rest) m))
          = ([], some (partialStream (g :: rest) m)) := by
        cases fuel with
        | zero => exact onDataFuel_zero _
        | succ fu =>
          rw [onDataFuel_succ, if_pos (by omega)]
      rw [hres, hdisp]
      simp [streamLen]
    · push_neg at hm5
      cases fuel with
      | zero => omega
      | succ fu =>
        have hplen : (g.payload.length : ℤ) + 4 < 2147483648 := hwfg.2.2
        have hsize := readInt32_stream_head g rest m (by omega) hplen
        have hflen : frameLen g = 5 + g.payload.length := rfl
        rw [onDataFuel_succ, if_neg (by omega)]
        rw [hsize, hlen]
        by_cases hcomplete : frameLen g ≤ m
        · rw [if_neg (by omega)]
          have htoNat : (1 + (4 + (g.payload.length : ℤ))).toNat = frameLen g := by
            rw [hflen]; omega
          have htag := readUint8_stream_head g rest m (by omega)
          have hstrip : stripMsg (readUint8 (partialStream (g :: rest) m) 0,
              partialStream (g :: rest) m) = (g.tag, frameBytes g) := by
            rw [stripMsg]
            have h1 : (partialStream (g :: rest) m).take
                (1 + readInt32 (partialStream (g :: rest) m) 1).toNat
                = frameBytes g := by
              rw [hsize, htoNat, partialStream, List.take_take,
                min_eq_left hcomplete, stream_cons, ← length_frameBytes g,
                List.take_left]
            rw [h1, htag]
          by_cases hmore : frameLen g < m
          · rw [if_pos (by omega)]
            have hdrop : (partialStream (g :: rest) m).drop
                (1 + (4 + (g.payload.length : ℤ))).toNat
                = partialStream rest (m - frameLen g) := by
              rw [htoNat, partialStream, List.drop_take, partialStream, stream_cons,
                ← length_frameBytes g, List.drop_left, length_frameBytes]
            have hrec := ih (m - frameLen g) fu hwfr
              (by rw [streamLen_cons] at hmlen; omega) (by omega)
            rw [hdrop]
            have hdisp : dispCount (g :: rest) m
                = dispCount rest (m - frameLen g) + 1 := by
              rw [dispCount_cons, if_pos ⟨hm5, hcomplete⟩, Nat.add_comm]
            constructor
            · rw [List.map_cons, hstrip, hdisp, List.take_succ_cons, List.map_cons,
                hrec.1]
            · rw [hrec.2, hdisp, List.drop_succ_cons, List.take_succ_cons,
                streamLen_cons]
              have : m - frameLen g - streamLen (rest.take (dispCount rest (m - frameLen g)))
                  = m - (frameLen g + streamLen (rest.take (dispCount rest (m - frameLen g)))) := by
                omega
              rw [this]
          · rw [if_neg (by omega)]
            have hmeq : m = frameLen g := by omega
            have hdisp : dispCount (g :: rest) m = 1 := by
              rw [dispCount_cons, if_pos ⟨hm5, hcomplete⟩,
                dispCount_of_le5 rest (m - frameLen g) (by omega)]
            rw [hdisp]
            constructor
            · rw [List.map_cons, List.map_nil, hstrip]
              rfl
            · show ([] : List ℕ) = _
              rw [show (g :: rest).drop 1 = rest from rfl,
                show (g :: rest).take 1 = [g] from rfl,
                show streamLen [g] = frameLen g by simp [streamLen],
                hmeq, Nat.sub_self]
              simp [partialStream]
        · rw [if_pos (by omega)]
          have hdisp : dispCount (g :: rest) m = 0 := by
            rw [dispCount_cons, if_neg (by omega)]
          rw [hdisp]
          simp [streamLen]

theorem streamLen_append (a b : List Frame) :
    streamLen (a ++ b) = streamLen a + streamLen b := by
  simp [streamLen]

theorem stream_append (a b : List Frame) : stream (a ++ b) = stream a ++ stream b := by
  simp [stream]

theorem streamLen_take_le (fs : List Frame) :
    ∀ m : ℕ, streamLen (fs.take (dispCount fs m)) ≤ m := by
  induction fs with
  | nil => intro m; simp [streamLen]
  | cons g rest ih =>
    intro m
    rw [dispCount_cons]
    split
    · rename_i hc
      rw [Nat.add_comm 1 (dispCount rest (m - frameLen g)), List.take_succ_cons,
        streamLen_cons]
      have := ih (m - frameLen g)
      omega
    · simp [streamLen]

theorem dispCount_le_length (fs : List Frame) : ∀ m : ℕ, dispCount fs m ≤ fs.length := by
  induction fs with
  | nil => intro m; simp [dispCount_nil]
  | cons g rest ih =>
    intro m
    rw [dispCount_cons]
    split
    · have := ih (m - frameLen g)
      simp
      omega
    · simp

/-- `dispCount` composes: counting at `m'` equals counting at `m ≤ m'` plus
counting the remaining frames on the remaining bytes. -/
theorem dispCount_extend (fs : List Frame) :
    ∀ m m' : ℕ, m ≤ m' →
    dispCount fs m' = dispCount fs m
      + dispCount (fs.drop (dispCount fs m)) (m' - streamLen (fs.take (dispCount fs m))) := by
  induction fs with
  | nil => intro m m' h; simp [dispCount_nil]
  | cons g rest ih =>
    intro m m' h
    by_cases hc : 5 < m ∧ frameLen g ≤ m
    · have hc' : 5 < m' ∧ frameLen g ≤ m' := ⟨by omega, by omega⟩
      rw [dispCount_cons, if_pos hc', dispCount_cons, if_pos hc]
      rw [Nat.add_comm 1 (dispCount rest (m - frameLen g)), List.drop_succ_cons,
        List.take_succ_cons, streamLen_cons]
      have ih' := ih (m - frameLen g) (m' - frameLen g) (by omega)
      have harith : m' - (frameLen g + streamLen (rest.take (dispCount rest (m - frameLen g))))
          = (m' - frameLen g) - streamLen (rest.take (dispCount rest (m - frameLen g))) := by
        omega
      rw [harith]
      omega
    · have h0 : dispCount (g :: rest) m = 0 := by rw [dispCount_cons, if_neg hc]
      rw [h0]
      simp [streamLen]

/-- Chunk-fold invariant: feeding the remaining chunks from the mid-stream
state (`m` bytes already consumed, leftover as computed) dispatches exactly
the frames between position `dispCount fs m` and the final count. -/
theorem feedChunksGo_spec (fs : List Frame) (hwf : ∀ f ∈ fs, WfFrame f) :
    ∀ (chunks : List (List ℕ)) (m : ℕ), m ≤ streamLen fs →
      (stream fs).drop m = chunks.flatten →
      ((feedChunksGo (partialStream (fs.drop (dispCount fs m))
          (m - streamLen (fs.take (dispCount fs m)))) chunks).1.map stripMsg
        = ((fs.drop (dispCount fs m)).take
            (dispCount fs (streamLen fs) - dispCount fs m)).map
              (fun f => (f.tag, frameBytes f))) := by
  intro chunks
  induction chunks with
  | nil =>
    intro m hm hdrop
    have hms : m = streamLen fs := by
      have := congrArg List.length hdrop
      simp only [List.length_drop, length_stream, List.flatten_nil, List.length_nil] at this
      omega
    rw [feedChunksGo]
    rw [hms, Nat.sub_self, List.take_zero, List.map_nil, List.map_nil]
  | cons c cs ihc =>
    intro m hm hdrop
    have hoj : streamLen (fs.take (dispCount fs m)) ≤ m := streamLen_take_le fs m
    have hlenc : m + c.length ≤ streamLen fs := by
      have := congrArg List.length hdrop
      simp only [List.length_drop, length_stream, List.flatten_cons, List.length_append] at this
      omega
    have hc1 : c = ((stream fs).drop m).take c.length := by
      rw [hdrop, List.flatten_cons, List.take_left]
    -- the concatenated buffer is the partial stream of the remaining frames
    have hdropstream : stream (fs.drop (dispCount fs m))
        = (stream fs).drop (streamLen (fs.take (dispCount fs m))) := by
      conv_rhs =>
        rw [show stream fs
            = stream (fs.take (dispCount fs m)) ++ stream (fs.drop (dispCount fs m))
          from by rw [← stream_append, List.take_append_drop]]
      rw [← length_stream (fs.take (dispCount fs m)), List.drop_left]
    have hloc : partialStream (fs.drop (dispCount fs m))
          (m - streamLen (fs.take (dispCount fs m))) ++ c
        = partialStream (fs.drop (dispCount fs m))
            (m + c.length - streamLen (fs.take (dispCount fs m))) := by
      rw [partialStream, partialStream, hdropstream]
      rw [show m + c.length - streamLen (fs.take (dispCount fs m))
          = (m - streamLen (fs.take (dispCount fs m))) + c.length by omega]
      rw [List.take_add]
      congr 1
      rw [List.drop_drop]
      rw [show streamLen (fs.take (dispCount fs m))
          + (m - streamLen (fs.take (dispCount fs m))) = m by omega]
      exact hc1
    have hmm : m + c.length - streamLen (fs.take (dispCount fs m))
        ≤ streamLen (fs.drop (dispCount fs m)) := by
      have : streamLen (fs.take (dispCount fs m)) + streamLen (fs.drop (dispCount fs m))
          = streamLen fs := by
        rw [← streamLen_append, List.take_append_drop]
      omega
    have hwfdrop : ∀ f ∈ fs.drop (dispCount fs m), WfFrame f :=
      fun f hf => hwf f (List.mem_of_mem_drop hf)
    have hbuflen : (partialStream (fs.drop (dispCount fs m))
          (m + c.length - streamLen (fs.take (dispCount fs m)))).length
        = m + c.length - streamLen (fs.take (dispCount fs m)) := by
      rw [partialStream, List.length_take, length_stream]
      omega
    have hrun := onDataFuel_partialStream (fs.drop (dispCount fs m))
      (m + c.length - streamLen (fs.take (dispCount fs m)))
      (m + c.length - streamLen (fs.take (dispCount fs m)))
      hwfdrop hmm (le_refl _)
    have hext := dispCount_extend fs m (m + c.length) (by omega)
    -- names for the two counts
    rw [feedChunksGo]
    simp only [hloc]
    rw [show onData (partialStream (fs.drop (dispCount fs m))
          (m + c.length - streamLen (fs.take (dispCount fs m))))
        = onDataFuel (m + c.length - streamLen (fs.take (dispCount fs m)))
            (partialStream (fs.drop (dispCount fs m))
              (m + c.length - streamLen (fs.take (dispCount fs m))))
      from by rw [onData, hbuflen]]
    rw [List.map_append, hrun.1, hrun.2]
    -- leftover for the next round
    have hdd : (fs.drop (dispCount fs m)).drop
          (dispCount (fs.drop (dispCount fs m))
            (m + c.length - streamLen (fs.take (dispCount fs m))))
        = fs.drop (dispCount fs (m + c.length)) := by
      rw [List.drop_drop, hext, Nat.add_comm]
    have htt : streamLen ((fs.drop (dispCount fs m)).take
          (dispCount (fs.drop (dispCount fs m))
            (m + c.length - streamLen (fs.take (dispCount fs m)))))
        = streamLen (fs.take (dispCount fs (m + c.length)))
          - streamLen (fs.take (dispCount fs m)) := by
      rw [hext, List.take_add, streamLen_append]
      omega
    have harg : m + c.length - streamLen (fs.take (dispCount fs m))
          - streamLen ((fs.drop (dispCount fs m)).take
            (dispCount (fs.drop (dispCount fs m))
              (m + c.length - streamLen (fs.take (dispCount fs m)))))
        = m + c.length - streamLen (fs.take (dispCount fs (m + c.length))) := by
      rw [htt]
      have h1 := streamLen_take_le fs (m + c.length)
      have h2 : streamLen (fs.take (dispCount fs m))
          ≤ streamLen (fs.take (dispCount fs (m + c.length))) := by
        rw [hext, List.take_add, streamLen_append]
        omega
      omega
    have hnext := ihc (m + c.length) hlenc
      (by rw [show (stream fs).drop (m + c.length) = ((stream fs).drop m).drop c.length
            from by rw [List.drop_drop, Nat.add_comm]]
          rw [hdrop, List.flatten_cons, List.drop_left])
    rw [show partialStream ((fs.drop (dispCount fs m)).drop
          (dispCount (fs.drop (dispCount fs m))
            (m + c.length - streamLen (fs.take (dispCount fs m)))))
          (m + c.length - streamLen (fs.take (dispCount fs m))
            - streamLen ((fs.drop (dispCount fs m)).take
              (dispCount (fs.drop (dispCount fs m))
                (m + c.length - streamLen (fs.take (dispCount fs m))))))
        = partialStream (fs.drop (dispCount fs (m + c.length)))
            (m + c.length - streamLen (fs.take (dispCount fs (m + c.length))))
      from by rw [hdd, harg]]
    rw [hnext]
    -- reassemble the two frame segments
    have hmono : dispCount fs (m + c.length) ≤ dispCount fs (streamLen fs) := by
      rw [dispCount_extend fs (m + c.length) (streamLen fs) (by omega)]
      omega
    rw [hext]
    rw [show dispCount fs (streamLen fs)
          - dispCount fs m
        = dispCount (fs.drop (dispCount fs m))
            (m + c.length - streamLen (fs.take (dispCount fs m)))
          + (dispCount fs (streamLen fs)
            - (dispCount fs m + dispCount (fs.drop (dispCount fs m))
              (m + c.length - streamLen (fs.take (dispCount fs m))))) from by
      rw [← hext]
      omega]
    rw [List.take_add, List.map_append]
    congr 1
    rw [List.drop_drop, Nat.add_comm]

theorem streamLen_pos (fs : List Frame) (h : fs ≠ []) : 0 < streamLen fs := by
  cases fs with
  | nil => exact absurd rfl h
  | cons g rest =>
    rw [streamLen_cons]
    have := frameLen_ge g
    omega

/-- On the complete stream, every frame is dispatched except a final frame of
exactly five bytes (empty payload), which stays retained. -/
theorem dispCount_full (fs : List Frame) (hne : fs ≠ []) :
    dispCount fs (streamLen fs)
      = if (fs.getLast hne).payload = [] then fs.length - 1 else fs.length := by
  induction fs with
  | nil => exact absurd rfl hne
  | cons g rest ih =>
    cases rest with
    | nil =>
      rw [streamLen_cons, dispCount_cons]
      have hfl : frameLen g = 5 + g.payload.length := rfl
      by_cases hp : g.payload = []
      · rw [if_neg (by simp [streamLen, hfl, hp])]
        simp [List.getLast_singleton, hp]
      · have hplen : 0 < g.payload.length := List.length_pos_of_ne_nil hp
        rw [if_pos (by simp [streamLen]; omega)]
        rw [dispCount_of_le5 _ _ (by simp [streamLen])]
        simp [List.getLast_singleton, hp]
    | cons r rs =>
      have hrne : (r :: rs) ≠ [] := by simp
      rw [streamLen_cons, dispCount_cons]
      have h5 : 0 < streamLen (r :: rs) := streamLen_pos _ hrne
      have hfg := frameLen_ge g
      have hfr := frameLen_ge r
      rw [if_pos ⟨by rw [streamLen_cons] at h5 ⊢; omega, by omega⟩]
      rw [Nat.add_sub_cancel_left, ih hrne]
      rw [List.getLast_cons hrne]
      by_cases hp : ((r :: rs).getLast hrne).payload = []
      · rw [if_pos hp, if_pos hp]
        simp
        omega
      · rw [if_neg hp, if_neg hp]
        simp
        omega

/-- **C2 (amended).** The backend message reader, fed any partition of the
byte stream carrying a well-formed frame sequence, delivers to the handler —
in order, and independently of where the chunk boundaries fall — exactly the
complete frames of the stream, except that a run of **five or fewer** bytes is
retained as leftover, so a *final* frame with empty payload (exactly five
bytes, never followed by another byte) stays retained instead of being
dispatched.  Fragments are coalesced across reads without loss, and frames
followed by further data are dispatched with the trailing bytes of the same
buffer processed in turn. -/
theorem frameReassembly_chunk_independent (fs : List Frame) (chunks : List (List ℕ))
    (hwf : ∀ f ∈ fs, WfFrame f) (hchunks : chunks.flatten = stream fs) :
    ((feedChunks chunks).1.map stripMsg
      = (fs.take (dispCount fs (streamLen fs))).map (fun f => (f.tag, frameBytes f))) ∧
    (∀ hne : fs ≠ [],
      ((fs.getLast hne).payload ≠ [] →
        (feedChunks chunks).1.map stripMsg = fs.map (fun f => (f.tag, frameBytes f))) ∧
      ((fs.getLast hne).payload = [] →
        (feedChunks chunks).1.map stripMsg
          = fs.dropLast.map (fun f => (f.tag, frameBytes f)))) := by
  have h := feedChunksGo_spec fs hwf chunks 0 (Nat.zero_le _)
    (by rw [List.drop_zero, hchunks])
  rw [dispCount_of_le5 fs 0 (by omega)] at h
  simp only [List.drop_zero, List.take_zero, Nat.sub_zero] at h
  rw [show partialStream fs (0 - streamLen ([] : List Frame)) = [] from by
    simp [partialStream, streamLen]] at h
  have hmain : (feedChunks chunks).1.map stripMsg
      = (fs.take (dispCount fs (streamLen fs))).map (fun f => (f.tag, frameBytes f)) := by
    rw [feedChunks]
    exact h
  refine ⟨hmain, ?_⟩
  intro hne
  constructor
  · intro hp
    rw [hmain, dispCount_full fs hne, if_neg hp, List.take_length]
  · intro hp
    rw [hmain, dispCount_full fs hne, if_pos hp, ← List.dropLast_eq_take]

/-- Counterexample for C2 as stated: a complete five-byte frame (tag `'1'` =
ParseComplete, empty payload) arriving as the whole stream is *not*
dispatched — it is retained as leftover because the reader keeps fragments of
five or fewer bytes, not only of fewer than five. -/
theorem frameReassembly_five_byte_frame_not_delivered :
    stream [Frame.mk 49 []] = [49, 0, 0, 0, 4] ∧
    (feedChunks [[49, 0, 0, 0, 4]]).1 = [] ∧
    ([Frame.mk 49 []].map (fun f => (f.tag, frameBytes f))) ≠ [] := by
  refine ⟨by decide, by decide, by decide⟩

/-- Witness for C2's amended theorem: two frames (`ParseComplete`, then a
one-byte-payload `ReadyForQuery`) cut at awkward chunk boundaries are both
delivered, trimmed to their exact frames. -/
theorem frameReassembly_chunk_independent_witness :
    (feedChunks [[49, 0], [0, 0, 4, 90, 0], [0, 0, 5, 73]]).1.map stripMsg
      = [(49, [49, 0, 0, 0, 4]), (90, [90, 0, 0, 0, 5, 73])] := by
  have h := ((frameReassembly_chunk_independent [Frame.mk 49 [], Frame.mk 90 [73]]
    [[49, 0], [0, 0, 4, 90, 0], [0, 0, 5, 73]] (by decide) (by decide)).2
    (by decide)).1 (by decide)
  rw [h]
  decide

/-! ### C6: `createBindMessage` buffer growth (frontend.ts 191-266)

The Bind-message writer starts from `Buffer.allocUnsafe(4096)` and, after
encoding each parameter, checks `4 + offset >= message.length`; on overflow it
computes `newSize = priorMessage.length * 2; while (4 + offset >= newSize)
newSize *= 2`, allocates `newSize` bytes, copies the prefix `[0, priorOffset)`
written so far, resets `offset = priorOffset` and retries the same parameter
(`i--; continue`).

Buffers are `List ℕ` of fixed length (the capacity); a JS
`buffer[offset++] = value` assignment on a Node `Buffer` (a `Uint8Array`)
stores `value mod 256` and is a silent no-op out of range, which `storeByte`
mirrors.  Each parameter's encoding is abstracted as `Option (List ℕ)`:
`none` is SQL NULL (the loop writes int32 −1), `some body` stands for the
bytes the per-type writer of the `switch` produces for the value — every
branch writes a 4-byte length placeholder, then the value's encoding
contiguously from the current offset, then patches the length
(`writeUtf8String` may advance by less when the value does not fit, but in
exactly those cases `4 + offset >= message.length` triggers a retry anyway, so
the full-advance model reaches the same states at every check). -/

/-- One `buffer[i] = v` assignment on a Node Buffer of fixed capacity:
stores `v mod 256`, silently dropped out of range. -/
def storeByte (msg : List ℕ) (i v : ℕ) : List ℕ :=
  if i < msg.length then msg.set i (v % 256) else msg

/-- Write `body` byte by byte starting at offset `o` (the `offset++`
assignment chains of the serialization writers). -/
def putBytes : List ℕ → ℕ → List ℕ → List ℕ
  | msg, _, [] => msg
  | msg, o, b :: rest => putBytes (storeByte msg o b) (o + 1) rest

/-- The bytes a parameter contributes: int32 −1 for NULL, otherwise the
int32 byte count followed by the encoded value
(`messageSize = offset - (priorOffset + 4)` is exactly `body.length`). -/
def paramBytes (v : Option (List ℕ)) : List ℕ :=
  match v with
  | none => writeInt32Bytes (-1)
  | some body => writeInt32Bytes (body.length : ℤ) ++ body

/-- Encoding one parameter `v` at offset `off` of buffer `msg`, following the
source order: NULL writes int32 −1; otherwise the offset skips 4 bytes, the
value's encoding is written, and the length is patched at `priorOffset`.
Returns the updated buffer and offset. -/
def paramWrite (msg : List ℕ) (off : ℕ) (v : Option (List ℕ)) : List ℕ × ℕ :=
  match v with
  | none => (putBytes msg off (writeInt32Bytes (-1)), off + 4)
  | some body =>
      let msg2 := putBytes msg (off + 4) body
      (putBytes msg2 off (writeInt32Bytes (body.length : ℤ)), off + 4 + body.length)

/-- Offset advance of one parameter: 4 length bytes plus the encoded value. -/
def paramAdv (v : Option (List ℕ)) : ℕ :=
  match v with
  | none => 4
  | some body => 4 + body.length

/-- Total offset advance of a parameter list. -/
def paramsSize : List (Option (List ℕ)) → ℕ
  | [] => 0
  | v :: rest => paramAdv v + paramsSize rest

/-- The growth loop `let newSize = n; while (4 + offset >= newSize)
newSize *= 2`, fuel-based (`none` = the loop would not terminate; the source
always starts it from a positive `n`, where it terminates). -/
def growSizeF : ℕ → ℕ → ℕ → Option ℕ
  | 0, _, _ => none
  | f + 1, n, o => if n ≤ 4 + o then growSizeF f (n * 2) o else some n

/-- New capacity chosen on overflow at capacity `cap` and offset `o`:
`newSize = priorMessage.length * 2` then the doubling loop. -/
def growSize (cap o : ℕ) : Option ℕ := growSizeF (o + 6) (cap * 2) o

/-- The header `createBindMessage` writes before the parameter loop: tag `'B'`
(66) at 0, four size bytes skipped, C-string portal, C-string queryId,
int16 1, int16 `WireFormat.Binary` (= 1), int16 parameter count — into a fresh
buffer of `cap` bytes (`allocUnsafe` contents never reach the result: every
byte of the final slice is written). -/
def bindHeaderMsg (cap : ℕ) (portal queryId : List ℕ) (n : ℕ) : List ℕ :=
  let msg0 := List.replicate cap 0
  let msg1 := putBytes msg0 0 [66]
  let msg2 := putBytes msg1 5 (portal ++ [0])
  let o2 := 5 + portal.length + 1
  let msg3 := putBytes msg2 o2 (queryId ++ [0])
  let o3 := o2 + queryId.length + 1
  let msg4 := putBytes msg3 o3 (writeInt16Bytes 1)
  let msg5 := putBytes msg4 (o3 + 2) (writeInt16Bytes 1)
  putBytes msg5 (o3 + 4) (writeInt16Bytes (n : ℤ))

/-- Offset after the header. -/
def headerEnd (portal queryId : List ℕ) : ℕ :=
  5 + portal.length + 1 + queryId.length + 1 + 6

/-- The parameter loop of `createBindMessage`, with fuel for the `i--`
restarts and an instrumentation list recording every `allocUnsafe(newSize)`
the growth branch performs.  On overflow (`4 + offset >= message.length`) the
new buffer receives the copy of `[0, priorOffset)` and the rest of its cells
fresh, the offset rewinds to `priorOffset`, and the same parameter runs
again. -/
def bindLoopF : ℕ → List (Option (List ℕ)) → List ℕ → ℕ → List ℕ →
    Option (List ℕ × ℕ × List ℕ)
  | 0, _, _, _, _ => none
  | _ + 1, [], msg, off, allocs => some (msg, off, allocs)
  | f + 1, v :: rest, msg, off, allocs =>
      let r := paramWrite msg off v
      if msg.length ≤ 4 + r.2 then
        match growSize msg.length r.2 with
        | none => none
        | some newCap =>
            bindLoopF f (v :: rest)
              (r.1.take off ++ List.replicate (newCap - off) 0) off
              (allocs ++ [newCap])
      else bindLoopF f rest r.1 r.2 allocs

/-- `createBindMessage` with the initial capacity as a parameter (the source
fixes it to 4096): header, parameter loop, the trailing
`writeInt16 1; writeInt16 Binary`, the size patch `writeInt32(offset-1, 1)`,
and the final `slice(0, offset)`.  Also returns the instrumented allocation
list. -/
def createBindMessageWith (cap : ℕ) (portal queryId : List ℕ)
    (params : List (Option (List ℕ))) (fuel : ℕ) : Option (List ℕ × List ℕ) :=
  match bindLoopF fuel params (bindHeaderMsg cap portal queryId params.length)
      (headerEnd portal queryId) [] with
  | none => none
  | some (msg, off, allocs) =>
      let msg7 := putBytes msg off (writeInt16Bytes 1)
      let msg8 := putBytes msg7 (off + 2) (writeInt16Bytes 1)
      let off8 := off + 4
      let msg9 := putBytes msg8 1 (writeInt32Bytes ((off8 : ℤ) - 1))
      some (msg9.take off8, allocs)

/-- `createBindMessage` proper: initial `Buffer.allocUnsafe(4_096)`. -/
def createBindMessage (portal queryId : List ℕ)
    (params : List (Option (List ℕ))) (fuel : ℕ) : Option (List ℕ × List ℕ) :=
  createBindMessageWith 4096 portal queryId params fuel

theorem bindLoopF_zero (params : List (Option (List ℕ))) (msg : List ℕ)
    (off : ℕ) (allocs : List ℕ) : bindLoopF 0 params msg off allocs = none := rfl

theorem bindLoopF_nil (f : ℕ) (msg : List ℕ) (off : ℕ) (allocs : List ℕ) :
    bindLoopF (f + 1) [] msg off allocs = some (msg, off, allocs) := rfl

theorem bindLoopF_cons (f : ℕ) (v : Option (List ℕ))
    (rest : List (Option (List ℕ))) (msg : List ℕ) (off : ℕ) (allocs : List ℕ) :
    bindLoopF (f + 1) (v :: rest) msg off allocs =
      (let r := paramWrite msg off v
       if msg.length ≤ 4 + r.2 then
         match growSize msg.length r.2 with
         | none => none
         | some newCap =>
             bindLoopF f (v :: rest)
               (r.1.take off ++ List.replicate (newCap - off) 0) off
               (allocs ++ [newCap])
       else bindLoopF f rest r.1 r.2 allocs) := rfl

theorem storeByte_length (msg : List ℕ) (i v : ℕ) :
    (storeByte msg i v).length = msg.length := by
  unfold storeByte
  split
  · simp
  · rfl

theorem putBytes_length (body : List ℕ) (msg : List ℕ) (o : ℕ) :
    (putBytes msg o body).length = msg.length := by
  induction body generalizing msg o with
  | nil => rfl
  | cons b rest ih => rw [putBytes, ih, storeByte_length]

theorem bindHeaderMsg_length (cap : ℕ) (portal queryId : List ℕ) (n : ℕ) :
    (bindHeaderMsg cap portal queryId n).length = cap := by
  unfold bindHeaderMsg
  simp only [putBytes_length, List.length_replicate]

theorem paramWrite_length (msg : List ℕ) (off : ℕ) (v : Option (List ℕ)) :
    (paramWrite msg off v).1.length = msg.length := by
  cases v <;> simp [paramWrite, putBytes_length]

theorem paramWrite_offset (msg : List ℕ) (off : ℕ) (v : Option (List ℕ)) :
    (paramWrite msg off v).2 = off + paramAdv v := by
  cases v with
  | none => rfl
  | some body =>
      show off + 4 + body.length = off + (4 + body.length)
      omega

/-- `getD` inside the right part of an append. -/
theorem getD_append_right2 {l r : List ℕ} {i : ℕ} (h : l.length ≤ i) :
    (l ++ r).getD i 0 = r.getD (i - l.length) 0 := by
  rw [List.getD_eq_getElem?_getD, List.getD_eq_getElem?_getD,
    List.getElem?_append_right h]

theorem storeByte_getD (msg : List ℕ) (j v i : ℕ) :
    (storeByte msg j v).getD i 0 =
      if i = j ∧ j < msg.length then v % 256 else msg.getD i 0 := by
  unfold storeByte
  by_cases hj : j < msg.length
  · rw [if_pos hj]
    by_cases hij : i = j
    · subst hij
      rw [if_pos ⟨rfl, hj⟩, List.getD_eq_getElem?_getD, List.getElem?_set_self hj]
      rfl
    · rw [if_neg (by tauto), List.getD_eq_getElem?_getD, List.getD_eq_getElem?_getD,
        List.getElem?_set_ne (by omega)]
  · rw [if_neg hj, if_neg (by tauto)]

theorem putBytes_getD (body : List ℕ) (msg : List ℕ) (o i : ℕ) :
    (putBytes msg o body).getD i 0 =
      if o ≤ i ∧ i < o + body.length ∧ i < msg.length
      then body.getD (i - o) 0 % 256 else msg.getD i 0 := by
  induction body generalizing msg o with
  | nil =>
      rw [putBytes, if_neg (by simp only [List.length_nil]; omega)]
  | cons b rest ih =>
      rw [putBytes, ih, storeByte_length, storeByte_getD]
      simp only [List.length_cons]
      by_cases hio : i = o
      · subst hio
        rw [if_neg (by omega)]
        by_cases hlen : i < msg.length
        · rw [if_pos ⟨rfl, hlen⟩, if_pos ⟨le_refl i, by omega, hlen⟩]
          simp
        · rw [if_neg (by tauto), if_neg (by omega)]
      · have hsb : ¬(i = o ∧ o < msg.length) := by tauto
        rw [if_neg hsb]
        by_cases hin : o + 1 ≤ i ∧ i < o + 1 + rest.length ∧ i < msg.length
        · have hr : o ≤ i ∧ i < o + (rest.length + 1) ∧ i < msg.length :=
            ⟨by omega, by omega, hin.2.2⟩
          rw [if_pos hin, if_pos hr]
          have h5 : i - o = (i - (o + 1)) + 1 := by omega
          rw [h5, List.getD_cons_succ]
        · have hr : ¬(o ≤ i ∧ i < o + (rest.length + 1) ∧ i < msg.length) := by
            intro hc
            exact hin ⟨by omega, by omega, hc.2.2⟩
          rw [if_neg hin, if_neg hr]

/-- Writing the same bytes at the same offset into two buffers that agree on
their first `N` cells (and both have at least `N` cells) keeps them agreeing
on the first `N` cells. -/
theorem putBytes_agree (A B body : List ℕ) (o N : ℕ)
    (hA : N ≤ A.length) (hB : N ≤ B.length)
    (h : ∀ i, i < N → A.getD i 0 = B.getD i 0) :
    ∀ i, i < N → (putBytes A o body).getD i 0 = (putBytes B o body).getD i 0 := by
  intro i hi
  rw [putBytes_getD, putBytes_getD]
  by_cases hc : o ≤ i ∧ i < o + body.length
  · rw [if_pos ⟨hc.1, hc.2, by omega⟩, if_pos ⟨hc.1, hc.2, by omega⟩]
  · rw [if_neg (by tauto), if_neg (by tauto)]
    exact h i hi

/-- Positional description of one parameter's write: cells in
`[off, off + paramAdv v)` that are in range receive `paramBytes v`, all other
cells keep their value. -/
theorem paramWrite_getD (msg : List ℕ) (off : ℕ) (v : Option (List ℕ)) (i : ℕ) :
    (paramWrite msg off v).1.getD i 0 =
      if off ≤ i ∧ i < off + paramAdv v ∧ i < msg.length
      then (paramBytes v).getD (i - off) 0 % 256 else msg.getD i 0 := by
  cases v with
  | none => rw [paramWrite, putBytes_getD]; rfl
  | some body =>
      show (putBytes (putBytes msg (off + 4) body) off
          (writeInt32Bytes (body.length : ℤ))).getD i 0 = _
      have h4 : (writeInt32Bytes (body.length : ℤ)).length = 4 := by
        simp [writeInt32Bytes, be4]
      rw [putBytes_getD, putBytes_getD, putBytes_length, h4]
      simp only [paramAdv]
      by_cases hc1 : off ≤ i ∧ i < off + 4 ∧ i < msg.length
      · rw [if_pos hc1, if_pos ⟨hc1.1, by omega, hc1.2.2⟩,
          paramBytes, getD_append_left2 (by omega)]
      · rw [if_neg hc1]
        by_cases hc2 : off + 4 ≤ i ∧ i < off + 4 + body.length ∧ i < msg.length
        · rw [if_pos hc2, if_pos ⟨by omega, by omega, hc2.2.2⟩,
            paramBytes, getD_append_right2 (by omega), h4, Nat.sub_sub]
        · rw [if_neg hc2, if_neg (by omega)]

/-- The doubling loop, given enough fuel to reach a size past `4 + o`,
returns the first `n * 2 ^ k` exceeding `4 + o`. -/
theorem growSizeF_spec (f : ℕ) : ∀ n o : ℕ, (∃ j, j < f ∧ 4 + o < n * 2 ^ j) →
    ∃ k, growSizeF f n o = some (n * 2 ^ k) ∧ 4 + o < n * 2 ^ k ∧
      ∀ j, j < k → n * 2 ^ j ≤ 4 + o := by
  induction f with
  | zero =>
      intro n o h
      obtain ⟨j, hj, -⟩ := h
      omega
  | succ f ih =>
      intro n o h
      by_cases hn : n ≤ 4 + o
      · obtain ⟨j, hj, hjv⟩ := h
        have hj1 : 1 ≤ j := by
          rcases Nat.eq_zero_or_pos j with h0 | h1
          · subst h0
            simp at hjv
            omega
          · exact h1
        obtain ⟨k, hk, hkv, hkmin⟩ := ih (n * 2) o
          ⟨j - 1, by omega, by
            have : n * 2 * 2 ^ (j - 1) = n * 2 ^ j := by
              rw [mul_assoc, ← pow_succ']
              congr 2
              omega
            omega⟩
        have hpow : n * 2 * 2 ^ k = n * 2 ^ (k + 1) := by
          rw [mul_assoc, ← pow_succ']
        refine ⟨k + 1, ?_, ?_, ?_⟩
        · rw [growSizeF, if_pos hn, hk, hpow]
        · rw [← hpow]
          exact hkv
        · intro j' hj'
          rcases Nat.eq_zero_or_pos j' with h0 | h1
          · subst h0
            simpa using hn
          · have := hkmin (j' - 1) (by omega)
            rw [mul_assoc, ← pow_succ'] at this
            rw [show j' - 1 + 1 = j' from by omega] at this
            exact this
      · push_neg at hn
        refine ⟨0, ?_, by simpa using hn, fun j hj => absurd hj (by omega)⟩
        rw [growSizeF, if_neg (by omega)]
        simp

/-- `growSize cap o` (for positive `cap`, as in the source where `cap` starts
at 4096) is the least `cap * 2 ^ k` with `k ≥ 1` exceeding `o + 4`. -/
theorem growSize_spec (cap o : ℕ) (hcap : 1 ≤ cap) :
    ∃ k, 1 ≤ k ∧ growSize cap o = some (cap * 2 ^ k) ∧ 4 + o < cap * 2 ^ k ∧
      ∀ j, 1 ≤ j → j < k → cap * 2 ^ j ≤ 4 + o := by
  have hwit : ∃ j, j < o + 6 ∧ 4 + o < cap * 2 * 2 ^ j := by
    refine ⟨o + 4, by omega, ?_⟩
    have h2 : o + 5 < 2 ^ (o + 5) := Nat.lt_two_pow (o + 5)
    have h3 : 2 ^ (o + 5) ≤ cap * 2 * 2 ^ (o + 4) := by
      calc 2 ^ (o + 5) = 2 * 2 ^ (o + 4) := by rw [← pow_succ']
        _ ≤ cap * 2 * 2 ^ (o + 4) := by
            have : 2 ≤ cap * 2 := by omega
            exact Nat.mul_le_mul_right _ this
    omega
  obtain ⟨k, hk, hkv, hkmin⟩ := growSizeF_spec (o + 6) (cap * 2) o hwit
  have hpow : ∀ m : ℕ, cap * 2 * 2 ^ m = cap * 2 ^ (m + 1) := by
    intro m
    rw [mul_assoc, ← pow_succ']
  refine ⟨k + 1, by omega, ?_, ?_, ?_⟩
  · rw [growSize, hk, hpow]
  · rw [← hpow]
    exact hkv
  · intro j hj1 hjk
    have := hkmin (j - 1) (by omega)
    rw [hpow, show j - 1 + 1 = j from by omega] at this
    exact this

theorem bindLoopF_cons2 (f : ℕ) (v : Option (List ℕ))
    (rest : List (Option (List ℕ))) (msg : List ℕ) (off : ℕ) (allocs : List ℕ) :
    bindLoopF (f + 1) (v :: rest) msg off allocs =
      (if msg.length ≤ 4 + (paramWrite msg off v).2 then
         match growSize msg.length (paramWrite msg off v).2 with
         | none => none
         | some newCap =>
             bindLoopF f (v :: rest)
               ((paramWrite msg off v).1.take off ++ List.replicate (newCap - off) 0)
               off (allocs ++ [newCap])
       else bindLoopF f rest (paramWrite msg off v).1 (paramWrite msg off v).2 allocs) :=
  rfl

/-- More fuel never changes a run that already finished. -/
theorem bindLoopF_fuel_mono : ∀ (fuel fuel' : ℕ) (params : List (Option (List ℕ)))
    (msg : List ℕ) (off : ℕ) (a : List ℕ) (r : List ℕ × ℕ × List ℕ),
    bindLoopF fuel params msg off a = some r → fuel ≤ fuel' →
    bindLoopF fuel' params msg off a = some r := by
  intro fuel
  induction fuel with
  | zero =>
      intro fuel' params msg off a r h
      rw [bindLoopF_zero] at h
      exact absurd h (by simp)
  | succ f ihf =>
      intro fuel' params msg off a r h hle
      obtain ⟨f2, rfl⟩ : ∃ f2, fuel' = f2 + 1 := ⟨fuel' - 1, by omega⟩
      cases params with
      | nil =>
          rw [bindLoopF_nil] at h ⊢
          exact h
      | cons v rest =>
          rw [bindLoopF_cons2] at h ⊢
          by_cases hc : msg.length ≤ 4 + (paramWrite msg off v).2
          · rw [if_pos hc] at h ⊢
            cases hg : growSize msg.length (paramWrite msg off v).2 with
            | none =>
                rw [hg] at h
                exact Option.noConfusion h
            | some nc =>
                rw [hg] at h
                exact ihf f2 _ _ _ _ r h (by omega)
          · rw [if_neg hc] at h ⊢
            exact ihf f2 _ _ _ _ r h (by omega)

/-- Simulation of the parameter loop against a run whose buffer is already
large enough for everything: starting from buffers agreeing on the first
`off` cells, and given fuel for at most one growth retry per parameter, both
runs finish at offset `off + paramsSize params`, the large run never grows
(its allocation list stays `aB`), and the final buffers agree on every cell
below the final offset, with the small run's last capacity check passed. -/
theorem bindLoopF_sim (params : List (Option (List ℕ))) :
    ∀ (msgS msgB : List ℕ) (off : ℕ) (aS aB : List ℕ),
      (∀ i, i < off → msgS.getD i 0 = msgB.getD i 0) →
      4 + off < msgS.length →
      4 + off + paramsSize params < msgB.length →
      ∀ fuel, 2 * params.length + 1 ≤ fuel →
      ∃ M A MB,
        bindLoopF fuel params msgS off aS = some (M, off + paramsSize params, A) ∧
        bindLoopF fuel params msgB off aB = some (MB, off + paramsSize params, aB) ∧
        (∀ i, i < off + paramsSize params → M.getD i 0 = MB.getD i 0) ∧
        4 + off + paramsSize params < M.length ∧
        MB.length = msgB.length := by
  induction params with
  | nil =>
      intro msgS msgB off aS aB hpre hS hB fuel hfuel
      obtain ⟨f, rfl⟩ : ∃ f, fuel = f + 1 := ⟨fuel - 1, by omega⟩
      have h0 : paramsSize ([] : List (Option (List ℕ))) = 0 := rfl
      refine ⟨msgS, aS, msgB, ?_, ?_, ?_, by omega, rfl⟩
      · rw [bindLoopF_nil, h0, Nat.add_zero]
      · rw [bindLoopF_nil, h0, Nat.add_zero]
      · intro i hi
        exact hpre i (by omega)
  | cons v rest ih =>
      intro msgS msgB off aS aB hpre hS hB fuel hfuel
      obtain ⟨f, rfl⟩ : ∃ f, fuel = f + 1 := ⟨fuel - 1, by omega⟩
      have hadvS := paramWrite_offset msgS off v
      have hadvB := paramWrite_offset msgB off v
      have hpsc : paramsSize (v :: rest) = paramAdv v + paramsSize rest := rfl
      simp only [hpsc, ← Nat.add_assoc]
      rw [hpsc] at hB
      have hlenc : 2 * (v :: rest).length + 1 = 2 * rest.length + 3 := by
        simp [List.length_cons]
        omega
      rw [hlenc] at hfuel
      have hBpass : ¬(msgB.length ≤ 4 + (paramWrite msgB off v).2) := by
        rw [hadvB]
        omega
      by_cases hov : msgS.length ≤ 4 + (off + paramAdv v)
      · -- the small buffer overflows: grow once, retry, then the retry passes
        obtain ⟨k, hk1, hgrow, hlt, hmin⟩ :=
          growSize_spec msgS.length (off + paramAdv v) (by omega)
        have hovG : msgS.length ≤ 4 + (paramWrite msgS off v).2 := by
          rw [hadvS]
          exact hov
        have hlenS2 : ((paramWrite msgS off v).1.take off ++
            List.replicate (msgS.length * 2 ^ k - off) 0).length
              = msgS.length * 2 ^ k := by
          rw [List.length_append, List.length_take, List.length_replicate,
            paramWrite_length]
          omega
        obtain ⟨f2, rfl⟩ : ∃ f2, f = f2 + 1 := ⟨f - 1, by omega⟩
        have hadvS2 := paramWrite_offset
          ((paramWrite msgS off v).1.take off ++
            List.replicate (msgS.length * 2 ^ k - off) 0) off v
        have hovG2 : ¬(((paramWrite msgS off v).1.take off ++
            List.replicate (msgS.length * 2 ^ k - off) 0).length ≤
              4 + (paramWrite ((paramWrite msgS off v).1.take off ++
                List.replicate (msgS.length * 2 ^ k - off) 0) off v).2) := by
          rw [hadvS2, hlenS2]
          omega
        have hpre2 : ∀ i, i < off + paramAdv v →
            (paramWrite ((paramWrite msgS off v).1.take off ++
              List.replicate (msgS.length * 2 ^ k - off) 0) off v).1.getD i 0
              = (paramWrite msgB off v).1.getD i 0 := by
          intro i hi
          rw [paramWrite_getD, paramWrite_getD]
          by_cases hio : off ≤ i
          · rw [if_pos ⟨hio, hi, by rw [hlenS2]; omega⟩,
              if_pos ⟨hio, hi, by omega⟩]
          · rw [if_neg (by omega), if_neg (by omega)]
            have hi' : i < off := by omega
            rw [getD_append_left2 (by rw [List.length_take, paramWrite_length]; omega),
              getD_take_of_lt _ _ _ hi', paramWrite_getD, if_neg (by omega)]
            exact hpre i hi'
        obtain ⟨M, A, MB, h1, h2, h3, h4, h5⟩ :=
          ih (paramWrite ((paramWrite msgS off v).1.take off ++
                List.replicate (msgS.length * 2 ^ k - off) 0) off v).1
            (paramWrite msgB off v).1 (off + paramAdv v) (aS ++ [msgS.length * 2 ^ k])
            aB hpre2
            (by rw [paramWrite_length, hlenS2]; omega)
            (by rw [paramWrite_length]; omega)
            f2 (by omega)
        refine ⟨M, A, MB, ?_, ?_, h3, by omega,
          by rw [paramWrite_length] at h5; exact h5⟩
        · rw [bindLoopF_cons2, if_pos hovG, hadvS, hgrow]
          show bindLoopF (f2 + 1) (v :: rest)
              ((paramWrite msgS off v).1.take off ++
                List.replicate (msgS.length * 2 ^ k - off) 0) off
              (aS ++ [msgS.length * 2 ^ k]) = _
          rw [bindLoopF_cons2, if_neg hovG2, hadvS2]
          exact h1
        · rw [bindLoopF_cons2, if_neg hBpass, hadvB]
          exact bindLoopF_fuel_mono f2 (f2 + 1) _ _ _ _ _ h2 (by omega)
      · -- the small buffer is large enough for this parameter
        have hovG : ¬(msgS.length ≤ 4 + (paramWrite msgS off v).2) := by
          rw [hadvS]
          exact hov
        have hpre2 : ∀ i, i < off + paramAdv v →
            (paramWrite msgS off v).1.getD i 0 = (paramWrite msgB off v).1.getD i 0 := by
          intro i hi
          rw [paramWrite_getD, paramWrite_getD]
          by_cases hio : off ≤ i
          · rw [if_pos ⟨hio, hi, by omega⟩, if_pos ⟨hio, hi, by omega⟩]
          · rw [if_neg (by omega), if_neg (by omega)]
            exact hpre i (by omega)
        obtain ⟨M, A, MB, h1, h2, h3, h4, h5⟩ :=
          ih (paramWrite msgS off v).1 (paramWrite msgB off v).1
            (off + paramAdv v) aS aB hpre2
            (by rw [paramWrite_length]; omega)
            (by rw [paramWrite_length]; omega)
            f (by omega)
        refine ⟨M, A, MB, ?_, ?_, h3, by omega,
          by rw [paramWrite_length] at h5; exact h5⟩
        · rw [bindLoopF_cons2, if_neg hovG, hadvS]
          exact h1
        · rw [bindLoopF_cons2, if_neg hBpass, hadvB]
          exact h2

theorem getD_replicate_zero (c i : ℕ) : (List.replicate c 0).getD i 0 = 0 := by
  rw [List.getD_eq_getElem?_getD, List.getElem?_replicate]
  split <;> rfl

/-- The header writes depend only on their arguments, not on the capacity:
two header buffers agree on any prefix that fits in both. -/
theorem bindHeaderMsg_agree (cap cap' : ℕ) (portal queryId : List ℕ) (n N : ℕ)
    (h1 : N ≤ cap) (h2 : N ≤ cap') :
    ∀ i, i < N → (bindHeaderMsg cap portal queryId n).getD i 0
      = (bindHeaderMsg cap' portal queryId n).getD i 0 := by
  unfold bindHeaderMsg
  refine putBytes_agree _ _ _ _ N (by simp [putBytes_length]; omega)
    (by simp [putBytes_length]; omega)
    (putBytes_agree _ _ _ _ N (by simp [putBytes_length]; omega)
      (by simp [putBytes_length]; omega)
      (putBytes_agree _ _ _ _ N (by simp [putBytes_length]; omega)
        (by simp [putBytes_length]; omega)
        (putBytes_agree _ _ _ _ N (by simp [putBytes_length]; omega)
          (by simp [putBytes_length]; omega)
          (putBytes_agree _ _ _ _ N (by simp [putBytes_length]; omega)
            (by simp [putBytes_length]; omega)
            (putBytes_agree _ _ _ _ N (by simp; omega) (by simp; omega)
              (fun i hi => by rw [getD_replicate_zero, getD_replicate_zero]))))))

theorem take_eq_of_getD (a b : List ℕ) (n : ℕ) (ha : n ≤ a.length)
    (hb : n ≤ b.length) (h : ∀ i, i < n → a.getD i 0 = b.getD i 0) :
    a.take n = b.take n := by
  apply List.ext_getElem?
  intro i
  by_cases hi : i < n
  · rw [List.getElem?_take_of_lt hi, List.getElem?_take_of_lt hi,
      List.getElem?_eq_getElem (by omega), List.getElem?_eq_getElem (by omega)]
    have := h i hi
    rw [List.getD_eq_getElem _ _ (by omega)] at this
    rw [this, List.getD_eq_getElem _ _ (by omega)]
  · rw [List.getElem?_eq_none (by simp [List.length_take]; omega),
      List.getElem?_eq_none (by simp [List.length_take]; omega)]

theorem writeInt16Bytes_length (z : ℤ) : (writeInt16Bytes z).length = 2 := rfl

theorem writeInt32Bytes_length (z : ℤ) : (writeInt32Bytes z).length = 4 := rfl

/-- Positional description of the post-loop writes of `createBindMessage`:
`writeInt16 1`, `writeInt16 Binary` at the final offset, then the message
size at offset 1. -/
theorem trailerChain_getD (X : List ℕ) (fo i : ℕ) :
    (putBytes (putBytes (putBytes X fo (writeInt16Bytes 1)) (fo + 2)
        (writeInt16Bytes 1)) 1 (writeInt32Bytes (((fo + 4 : ℕ) : ℤ) - 1))).getD i 0 =
      if 1 ≤ i ∧ i < 1 + 4 ∧ i < X.length
      then (writeInt32Bytes (((fo + 4 : ℕ) : ℤ) - 1)).getD (i - 1) 0 % 256
      else if fo + 2 ≤ i ∧ i < fo + 2 + 2 ∧ i < X.length
      then (writeInt16Bytes 1).getD (i - (fo + 2)) 0 % 256
      else if fo ≤ i ∧ i < fo + 2 ∧ i < X.length
      then (writeInt16Bytes 1).getD (i - fo) 0 % 256
      else X.getD i 0 := by
  rw [putBytes_getD, putBytes_getD, putBytes_getD, putBytes_length,
    putBytes_length, writeInt16Bytes_length, writeInt32Bytes_length]

/-- **C6 (amended).** On overflow (`4 + offset >= message.length`), the new
buffer size is the *least doubling* of the current capacity that exceeds
`offset + 4` — the least `capacity * 2 ^ k` with `k ≥ 1` and
`capacity * 2 ^ k > offset + 4` — not `max(2·capacity, 4·offset)`; the prefix
written so far is copied, the failed parameter is re-encoded, and the final
message bytes are identical to those of a run that starts from any buffer
already large enough to need no growth at all. -/
theorem createBindMessage_growth :
    (∀ cap o : ℕ, 1 ≤ cap → ∃ k, 1 ≤ k ∧ growSize cap o = some (cap * 2 ^ k) ∧
        4 + o < cap * 2 ^ k ∧ ∀ j, 1 ≤ j → j < k → cap * 2 ^ j ≤ 4 + o) ∧
    (∀ (portal queryId : List ℕ) (params : List (Option (List ℕ))) (capB fuel : ℕ),
      2 * params.length + 1 ≤ fuel →
      4 + headerEnd portal queryId < 4096 →
      4 + headerEnd portal queryId + paramsSize params < capB →
      ∃ bytes allocs,
        createBindMessage portal queryId params fuel = some (bytes, allocs) ∧
        createBindMessageWith capB portal queryId params fuel = some (bytes, [])) := by
  constructor
  · intro cap o hcap
    exact growSize_spec cap o hcap
  · intro portal queryId params capB fuel hfuel hhdr hcapB
    have hpre : ∀ i, i < headerEnd portal queryId →
        (bindHeaderMsg 4096 portal queryId params.length).getD i 0
          = (bindHeaderMsg capB portal queryId params.length).getD i 0 :=
      bindHeaderMsg_agree 4096 capB portal queryId params.length
        (headerEnd portal queryId) (by omega) (by omega)
    obtain ⟨M, A, MB, h1, h2, h3, h4, h5⟩ :=
      bindLoopF_sim params (bindHeaderMsg 4096 portal queryId params.length)
        (bindHeaderMsg capB portal queryId params.length)
        (headerEnd portal queryId) [] [] hpre
        (by rw [bindHeaderMsg_length]; omega)
        (by rw [bindHeaderMsg_length]; omega)
        fuel hfuel
    rw [bindHeaderMsg_length] at h5
    have hMlen : (headerEnd portal queryId + paramsSize params) + 4 ≤ M.length := by omega
    have hMBlen : (headerEnd portal queryId + paramsSize params) + 4 ≤ MB.length := by omega
    have hpt : ∀ i, i < (headerEnd portal queryId + paramsSize params) + 4 →
        (putBytes (putBytes (putBytes M (headerEnd portal queryId + paramsSize params) (writeInt16Bytes 1))
            ((headerEnd portal queryId + paramsSize params) + 2) (writeInt16Bytes 1)) 1
            (writeInt32Bytes (((((headerEnd portal queryId + paramsSize params) + 4 : ℕ)) : ℤ) - 1))).getD i 0
          = (putBytes (putBytes (putBytes MB (headerEnd portal queryId + paramsSize params) (writeInt16Bytes 1))
            ((headerEnd portal queryId + paramsSize params) + 2) (writeInt16Bytes 1)) 1
            (writeInt32Bytes (((((headerEnd portal queryId + paramsSize params) + 4 : ℕ)) : ℤ) - 1))).getD i 0 := by
      intro i hi
      rw [trailerChain_getD, trailerChain_getD]
      by_cases hc1 : 1 ≤ i ∧ i < 1 + 4
      · rw [if_pos ⟨hc1.1, hc1.2, by omega⟩, if_pos ⟨hc1.1, hc1.2, by omega⟩]
      · have hn1 : ¬(1 ≤ i ∧ i < 1 + 4 ∧ i < M.length) := by omega
        have hn1B : ¬(1 ≤ i ∧ i < 1 + 4 ∧ i < MB.length) := by omega
        rw [if_neg hn1, if_neg hn1B]
        by_cases hc2 : (headerEnd portal queryId + paramsSize params) + 2 ≤ i ∧ i < (headerEnd portal queryId + paramsSize params) + 2 + 2
        · rw [if_pos ⟨hc2.1, hc2.2, by omega⟩, if_pos ⟨hc2.1, hc2.2, by omega⟩]
        · have hn2 : ¬((headerEnd portal queryId + paramsSize params) + 2 ≤ i ∧ i < (headerEnd portal queryId + paramsSize params) + 2 + 2 ∧ i < M.length) := by omega
          have hn2B : ¬((headerEnd portal queryId + paramsSize params) + 2 ≤ i ∧ i < (headerEnd portal queryId + paramsSize params) + 2 + 2 ∧ i < MB.length) := by omega
          rw [if_neg hn2, if_neg hn2B]
          by_cases hc3 : (headerEnd portal queryId + paramsSize params) ≤ i ∧ i < (headerEnd portal queryId + paramsSize params) + 2
          · rw [if_pos ⟨hc3.1, hc3.2, by omega⟩, if_pos ⟨hc3.1, hc3.2, by omega⟩]
          · have hn3 : ¬((headerEnd portal queryId + paramsSize params) ≤ i ∧ i < (headerEnd portal queryId + paramsSize params) + 2 ∧ i < M.length) := by omega
            have hn3B : ¬((headerEnd portal queryId + paramsSize params) ≤ i ∧ i < (headerEnd portal queryId + paramsSize params) + 2 ∧ i < MB.length) := by omega
            rw [if_neg hn3, if_neg hn3B]
            exact h3 i (by omega)
    have heq := take_eq_of_getD _ _ ((headerEnd portal queryId + paramsSize params) + 4)
      (by simp only [putBytes_length]; omega)
      (by simp only [putBytes_length]; omega) hpt
    refine ⟨(putBytes (putBytes (putBytes M (headerEnd portal queryId + paramsSize params) (writeInt16Bytes 1))
        ((headerEnd portal queryId + paramsSize params) + 2) (writeInt16Bytes 1)) 1
        (writeInt32Bytes (((((headerEnd portal queryId + paramsSize params) + 4 : ℕ)) : ℤ) - 1))).take ((headerEnd portal queryId + paramsSize params) + 4), A, ?_, ?_⟩
    · show createBindMessageWith 4096 portal queryId params fuel = _
      unfold createBindMessageWith
      rw [h1]
    · unfold createBindMessageWith
      rw [h2, heq]

/-- Unfolding `createBindMessageWith` once the loop's result is known. -/
theorem createBindMessageWith_some (cap : ℕ) (portal queryId : List ℕ)
    (params : List (Option (List ℕ))) (fuel : ℕ) (M : List ℕ) (off : ℕ)
    (A : List ℕ)
    (h : bindLoopF fuel params (bindHeaderMsg cap portal queryId params.length)
      (headerEnd portal queryId) [] = some (M, off, A)) :
    createBindMessageWith cap portal queryId params fuel =
      some ((putBytes (putBytes (putBytes M off (writeInt16Bytes 1)) (off + 2)
          (writeInt16Bytes 1)) 1
          (writeInt32Bytes (((off + 4 : ℕ) : ℤ) - 1))).take (off + 4), A) := by
  unfold createBindMessageWith
  rw [h]

/-- Counterexample for C6 as stated: with the initial 4096-byte buffer and a
single 5000-byte parameter, the overflow check fires at offset 5017, and the
code allocates `4096 * 2 = 8192` bytes (the first doubling already exceeds
`5017 + 4`), not `max(2·4096, 4·5017) = 20068` as the spec's formula says. -/
theorem bindMessage_alloc_not_max_formula :
    (createBindMessage [] [] [some (List.replicate 5000 7)] 3).map Prod.snd
        = some [8192] ∧
    (8192 : ℕ) ≠ max (2 * 4096) (4 * 5017) := by
  have hE : headerEnd [] [] = 13 := rfl
  have hadv : headerEnd [] [] + paramAdv (some (List.replicate 5000 7)) = 5017 := by
    simp only [paramAdv]
    rw [List.length_replicate, hE]
  have hgrow : growSize 4096 5017 = some 8192 := by decide
  have hov1 : (bindHeaderMsg 4096 [] [] 1).length ≤
      4 + (paramWrite (bindHeaderMsg 4096 [] [] 1) (headerEnd [] [])
        (some (List.replicate 5000 7))).2 := by
    rw [paramWrite_offset, bindHeaderMsg_length, hadv]
    omega
  have hstep1 : bindLoopF 3 [some (List.replicate 5000 7)]
      (bindHeaderMsg 4096 [] [] 1) (headerEnd [] []) [] =
        bindLoopF 2 [some (List.replicate 5000 7)]
          ((paramWrite (bindHeaderMsg 4096 [] [] 1) (headerEnd [] [])
              (some (List.replicate 5000 7))).1.take (headerEnd [] []) ++
            List.replicate (8192 - headerEnd [] []) 0)
          (headerEnd [] []) [8192] := by
    rw [show (3 : ℕ) = 2 + 1 from rfl, bindLoopF_cons2, if_pos hov1,
      paramWrite_offset, bindHeaderMsg_length, hadv, hgrow]
    rfl
  have hB1len : ((paramWrite (bindHeaderMsg 4096 [] [] 1) (headerEnd [] [])
      (some (List.replicate 5000 7))).1.take (headerEnd [] []) ++
        List.replicate (8192 - headerEnd [] []) 0).length = 8192 := by
    rw [List.length_append, List.length_take, paramWrite_length,
      bindHeaderMsg_length, List.length_replicate, hE]
    omega
  have hov2 : ¬(((paramWrite (bindHeaderMsg 4096 [] [] 1) (headerEnd [] [])
      (some (List.replicate 5000 7))).1.take (headerEnd [] []) ++
        List.replicate (8192 - headerEnd [] []) 0).length ≤
      4 + (paramWrite ((paramWrite (bindHeaderMsg 4096 [] [] 1) (headerEnd [] [])
          (some (List.replicate 5000 7))).1.take (headerEnd [] []) ++
            List.replicate (8192 - headerEnd [] []) 0) (headerEnd [] [])
        (some (List.replicate 5000 7))).2) := by
    rw [paramWrite_offset, hadv, hB1len]
    omega
  have hstep2 : bindLoopF 2 [some (List.replicate 5000 7)]
      ((paramWrite (bindHeaderMsg 4096 [] [] 1) (headerEnd [] [])
          (some (List.replicate 5000 7))).1.take (headerEnd [] []) ++
        List.replicate (8192 - headerEnd [] []) 0)
      (headerEnd [] []) [8192] =
        some ((paramWrite ((paramWrite (bindHeaderMsg 4096 [] [] 1)
            (headerEnd [] []) (some (List.replicate 5000 7))).1.take
              (headerEnd [] []) ++ List.replicate (8192 - headerEnd [] []) 0)
            (headerEnd [] []) (some (List.replicate 5000 7))).1,
          (paramWrite ((paramWrite (bindHeaderMsg 4096 [] [] 1)
            (headerEnd [] []) (some (List.replicate 5000 7))).1.take
              (headerEnd [] []) ++ List.replicate (8192 - headerEnd [] []) 0)
            (headerEnd [] []) (some (List.replicate 5000 7))).2, [8192]) := by
    rw [show (2 : ℕ) = 1 + 1 from rfl, bindLoopF_cons2, if_neg hov2,
      show (1 : ℕ) = 0 + 1 from rfl, bindLoopF_nil]
  constructor
  · rw [createBindMessage,
      createBindMessageWith_some 4096 [] [] [some (List.replicate 5000 7)] 3 _ _ _
        (by rw [show ([some (List.replicate 5000 7)] :
            List (Option (List ℕ))).length = 1 from rfl]
            exact hstep1.trans hstep2)]
    rfl
  · decide

/-- Witness for C6's amended theorem: `growSize` at the counterexample's
overflow point, and a three-byte parameter encoded identically from the
4096-byte initial buffer and from a 64-byte buffer needing no growth. -/
theorem createBindMessage_growth_witness :
    (∃ k, 1 ≤ k ∧ growSize 4096 5017 = some (4096 * 2 ^ k) ∧
        4 + 5017 < 4096 * 2 ^ k ∧
        ∀ j, 1 ≤ j → j < k → 4096 * 2 ^ j ≤ 4 + 5017) ∧
    (∃ bytes allocs,
      createBindMessage [] [] [some [7, 7, 7]] 3 = some (bytes, allocs) ∧
      createBindMessageWith 64 [] [] [some [7, 7, 7]] 3 = some (bytes, [])) :=
  ⟨createBindMessage_growth.1 4096 5017 (by decide),
   createBindMessage_growth.2 [] [] [some [7, 7, 7]] 64 3 (by decide) (by decide)
     (by decide)⟩

/-! ### C1: NUMERIC codec (serialization.ts 186-289)

`readNumeric`/`writeNumeric` translate between PostgreSQL's base-10000 wire
format and decimal strings.  JS strings are lists of character codes.  Sign
words: Plus 0x0000, Minus 0x4000 (16384), NaN 0xC000 (49152), Infinity
0xD000 (53248), −Infinity 0xF000 (61440). -/

/-- Split a char-code list into the 4-character substrings the
`for (i += 4) substr(i, 4)` loops of `writeNumeric` visit. -/
def chunks4 : List ℕ → List (List ℕ)
  | [] => []
  | a :: rest => (a :: rest).take 4 :: chunks4 ((a :: rest).drop 4)
termination_by l => l.length
decreasing_by simp [List.length_drop]; omega

/-- JS `s.padStart(4, '0')`. -/
def padStart4 (s : List ℕ) : List ℕ := List.replicate (4 - s.length) 48 ++ s

def infinityChars : List ℕ := [73, 110, 102, 105, 110, 105, 116, 121]

/-- The whole part left-padded with `'0'` to a multiple of four characters
(`'0'.repeat(4 - ((length - 1) % 4 + 1))`), as reassigned by `writeNumeric`;
the identity when the whole part is empty (the `if` is skipped). -/
def wholePaddedOf (w : List ℕ) : List ℕ :=
  if 0 < w.length then List.replicate (4 - ((w.length - 1) % 4 + 1)) 48 ++ w else w

/-- The decimal part right-padded with `'0'` to a multiple of four. -/
def decPaddedOf (d : List ℕ) : List ℕ :=
  if 0 < d.length then d ++ List.replicate (4 - ((d.length - 1) % 4 + 1)) 48 else d

/-- The part of `writeNumeric` after the sign and the `'.'` split: `w` is the
unsigned whole part, `d` the decimal part, `sign` the numeric sign word.
`Math.ceil(len / 4) - 1 = (len + 3) / 4 - 1` for natural `len`; the written
bytes are the four header uint16s followed by the base-10000 groups of the
zero-padded whole and decimal parts. -/
def writeNumericBody (w d : List ℕ) (sign : ℕ) : List ℕ :=
  let wholePadded := wholePaddedOf w
  let decPadded := decPaddedOf d
  let weight : ℤ := if 0 < w.length then (((w.length + 3) / 4 : ℕ) : ℤ) - 1 else -1
  writeUint16Bytes ((wholePadded.length + decPadded.length) / 4)
    ++ writeInt16Bytes weight
    ++ writeUint16Bytes sign
    ++ writeUint16Bytes d.length
    ++ (((chunks4 wholePadded ++ chunks4 decPadded).map parseIntDigits).map
          writeUint16Bytes).flatten

/-- `writeNumeric` (serialization.ts 251-289) as the bytes it stores from the
initial offset: the NaN header, or the split on `'.'` (`split` takes the
first two fields; a missing decimal part defaults to the empty string), the
`'-'` detection on the whole part, and the body.  `parseInt` on the all-digit
4-character groups is `parseIntDigits`. -/
def writeNumericBytes (value : List ℕ) : List ℕ :=
  if value = nanChars then
    writeUint16Bytes 0 ++ writeInt16Bytes 0 ++ writeUint16Bytes 49152 ++
      writeUint16Bytes 0
  else
    let parts := value.splitOn 46
    let wholePart := parts.getD 0 []
    let decimalPart := parts.getD 1 []
    if wholePart.getD 0 0 = 45 then
      writeNumericBody (wholePart.drop 1) decimalPart 16384
    else writeNumericBody wholePart decimalPart 0

/-- `readNumericDigit` (serialization.ts 247-249): note the absolute offset
`8 + 2 * idx`, independent of the `offset` argument of `readNumeric` (which
all call sites pass as 0). -/
def readNumericDigit (buffer : List ℕ) (idx : ℕ) : ℕ :=
  readUint16 buffer (8 + 2 * idx)

/-- `readNumeric` (serialization.ts 195-245) at offset 0.  `'' + n` is
`natToChars n`; the `for` loops become maps over index ranges; `wholesCount`
and `wholesInBuffer` are `ℤ` as in JS (`weight` may be −1). -/
def readNumeric (buffer : List ℕ) : List ℕ :=
  let sign := readUint16 buffer 4
  if sign = 49152 then nanChars
  else if sign = 53248 then infinityChars
  else if sign = 61440 then 45 :: infinityChars
  else
    let digitsInBuffer := readUint16 buffer 0
    let weight := readInt16 buffer 2
    let wholesCount : ℤ := weight + 1
    let wholesInBuffer : ℤ := max 0 (min wholesCount (digitsInBuffer : ℤ))
    let head : List ℕ := if sign = 16384 then [45] else []
    let wholeStr : List ℕ :=
      if digitsInBuffer = 0 ∨ wholesCount ≤ 0 then [48]
      else
        (if 0 < wholesInBuffer then natToChars (readNumericDigit buffer 0) else [])
        ++ (((List.range wholesInBuffer.toNat).drop 1).map
              (fun i => padStart4 (natToChars (readNumericDigit buffer i)))).flatten
        ++ (if 0 < wholesCount - wholesInBuffer then
              List.replicate (4 * (wholesCount - wholesInBuffer).toNat) 48 else [])
    let decimalsCount := readUint16 buffer 6
    let decStr : List ℕ :=
      if 0 < decimalsCount then
        let omittedZeros := if wholesCount < 0 then (-wholesCount).toNat else 0
        let decimals := List.replicate (4 * omittedZeros) 48
          ++ (((List.range digitsInBuffer).drop wholesInBuffer.toNat).map
                (fun i => padStart4 (natToChars (readNumericDigit buffer i)))).flatten
        46 :: (if decimals.length < decimalsCount then
            decimals ++ List.replicate (decimalsCount - decimals.length) 48
          else if decimalsCount < decimals.length then decimals.take decimalsCount
          else decimals)
      else []
    head ++ wholeStr ++ decStr

/-- Base-10000 value of a group list, most significant first (the number the
whole-part groups represent). -/
def groupsVal (gs : List ℕ) : ℕ := gs.foldl (fun a g => 10000 * a + g) 0

theorem chunks4_flatten (l : List ℕ) : (chunks4 l).flatten = l := by
  induction l using chunks4.induct with
  | case1 => simp [chunks4]
  | case2 a rest ih =>
      rw [chunks4, List.flatten_cons, ih, List.take_append_drop]

theorem chunks4_length (l : List ℕ) (h : l.length % 4 = 0) :
    (chunks4 l).length = l.length / 4 := by
  induction l using chunks4.induct with
  | case1 => simp [chunks4]
  | case2 a rest ih =>
      simp only [List.length_cons] at h
      rw [chunks4, List.length_cons,
        ih (by simp only [List.length_drop, List.length_cons]; omega)]
      simp only [List.length_drop, List.length_cons]
      omega

theorem chunks4_mem_length (l : List ℕ) (h : l.length % 4 = 0) :
    ∀ c ∈ chunks4 l, c.length = 4 := by
  induction l using chunks4.induct with
  | case1 => simp [chunks4]
  | case2 a rest ih =>
      simp only [List.length_cons] at h
      intro c hc
      rw [chunks4, List.mem_cons] at hc
      rcases hc with rfl | hc
      · rw [List.length_take]
        simp only [List.length_cons]
        omega
      · exact ih (by simp only [List.length_drop, List.length_cons]; omega) c hc

theorem chunks4_mem_mem (l : List ℕ) :
    ∀ c ∈ chunks4 l, ∀ x ∈ c, x ∈ l := by
  induction l using chunks4.induct with
  | case1 => simp [chunks4]
  | case2 a rest ih =>
      intro c hc x hx
      rw [chunks4, List.mem_cons] at hc
      rcases hc with rfl | hc
      · exact List.mem_of_mem_take hx
      · exact List.mem_of_mem_drop (ih c hc x hx)

theorem splitOn_no_sep (l : List ℕ) (h : 46 ∉ l) : l.splitOn 46 = [l] := by
  induction l with
  | nil => rfl
  | cons a rest ih =>
      simp only [List.mem_cons, not_or] at h
      rw [List.splitOn, List.splitOnP_cons, if_neg (by simp only [beq_iff_eq]; omega)]
      rw [List.splitOn] at ih
      rw [ih h.2]
      rfl

theorem splitOn_one_sep (l r : List ℕ) (hl : 46 ∉ l) (hr : 46 ∉ r) :
    (l ++ 46 :: r).splitOn 46 = [l, r] := by
  induction l with
  | nil =>
      rw [List.nil_append, List.splitOn, List.splitOnP_cons, if_pos (by simp)]
      rw [show List.splitOnP (fun x => x == 46) r = r.splitOn 46 from rfl,
        splitOn_no_sep r hr]
  | cons a rest ih =>
      simp only [List.mem_cons, not_or] at hl
      rw [List.cons_append, List.splitOn, List.splitOnP_cons,
        if_neg (by simp only [beq_iff_eq]; omega)]
      rw [List.splitOn] at ih
      rw [ih hl.2]
      rfl

theorem range_map_getD (l : List ℕ) :
    (List.range l.length).map (fun i => l.getD i 0) = l := by
  induction l with
  | nil => rfl
  | cons x xs ih =>
      rw [List.length_cons, List.range_succ_eq_map, List.map_cons, List.map_map]
      simp only [List.getD_cons_zero]
      congr 1

theorem parseIntDigits_eq_digitsVal (c : List ℕ) :
    parseIntDigits c = digitsVal (c.map (fun x => x - 48)) := by
  rw [digitsVal, List.foldl_map]
  rfl

theorem digitsVal_replicate_zero (k : ℕ) :
    digitsVal (List.replicate k 0) = 0 := by
  induction k with
  | zero => rfl
  | succ n ih =>
      rw [List.replicate_succ]
      show digitsVal (0 :: List.replicate n 0) = 0
      simp only [digitsVal, List.foldl_cons]
      exact ih

theorem digitsVal_snoc (xs : List ℕ) (x : ℕ) :
    digitsVal (xs ++ [x]) = 10 * digitsVal xs + x := by
  rw [digitsVal_append]
  simp only [List.length_cons, List.length_nil, pow_one]
  show digitsVal xs * 10 + digitsVal [x] = _
  simp [digitsVal]
  ring

theorem digitsVal_lt (l : List ℕ) (h : ∀ d ∈ l, d < 10) :
    digitsVal l < 10 ^ l.length := by
  induction l using List.reverseRecOn with
  | nil => simp [digitsVal]
  | append_singleton xs x ih =>
      rw [digitsVal_snoc, List.length_append, List.length_cons, List.length_nil,
        pow_succ]
      have hx : x < 10 := h x (by simp)
      have := ih (fun d hd => h d (by simp [hd]))
      omega

theorem digitsVal_inj (a : List ℕ) : ∀ b : List ℕ, (∀ d ∈ a, d < 10) →
    (∀ d ∈ b, d < 10) → a.length = b.length → digitsVal a = digitsVal b →
    a = b := by
  induction a using List.reverseRecOn with
  | nil =>
      intro b _ _ hlen _
      have hb0 : b.length = 0 := by simpa using hlen.symm
      exact (List.eq_nil_of_length_eq_zero hb0).symm
  | append_singleton xs x ih =>
      intro b ha hb hlen hv
      rcases b.eq_nil_or_concat with rfl | ⟨ys, y, rfl⟩
      · simp at hlen
      · rw [List.concat_eq_append] at hb hlen hv ⊢
        rw [digitsVal_snoc, digitsVal_snoc] at hv
        have hx : x < 10 := ha x (by simp)
        have hy : y < 10 := hb y (by simp)
        have hxy : x = y ∧ digitsVal xs = digitsVal ys := by omega
        have hlen2 : xs.length = ys.length := by
          simp only [List.length_append, List.length_cons, List.length_nil] at hlen
          omega
        rw [hxy.1, ih ys (fun d hd => ha d (by simp [hd]))
          (fun d hd => hb d (by simp [hd])) hlen2 hxy.2]

theorem sub48_inj (a : List ℕ) : ∀ b : List ℕ, (∀ x ∈ a, 48 ≤ x) →
    (∀ x ∈ b, 48 ≤ x) →
    a.map (fun x => x - 48) = b.map (fun x => x - 48) → a = b := by
  induction a with
  | nil =>
      intro b _ _ h
      have := congrArg List.length h
      simp at this
      rw [List.eq_nil_of_length_eq_zero this.symm]
  | cons x xs ih =>
      intro b ha hb h
      rcases b with - | ⟨y, ys⟩
      · simp at h
      · simp only [List.map_cons, List.cons.injEq] at h
        have hx : 48 ≤ x := ha x (by simp)
        have hy : 48 ≤ y := hb y (by simp)
        have : x = y := by omega
        rw [this, ih ys (fun t ht => ha t (by simp [ht]))
          (fun t ht => hb t (by simp [ht])) h.2]

theorem groupsVal_foldl (init : ℕ) (l : List ℕ) :
    l.foldl (fun a g => 10000 * a + g) init =
      init * 10000 ^ l.length + groupsVal l := by
  induction l generalizing init with
  | nil => simp [groupsVal]
  | cons d l ih =>
      simp only [List.foldl_cons, groupsVal, List.length_cons]
      rw [ih, ih]
      ring

theorem groupsVal_cons (g : ℕ) (gs : List ℕ) :
    groupsVal (g :: gs) = g * 10000 ^ gs.length + groupsVal gs := by
  show List.foldl _ (10000 * 0 + g) gs = _
  rw [groupsVal_foldl]
  ring_nf

theorem groupsVal_snoc (gs : List ℕ) (g : ℕ) :
    groupsVal (gs ++ [g]) = 10000 * groupsVal gs + g := by
  show List.foldl _ 0 (gs ++ [g]) = _
  rw [List.foldl_append]
  show List.foldl _ _ [g] = _
  simp only [List.foldl_cons, List.foldl_nil]
  rfl

theorem pad4_block (g : ℕ) (hg : g < 10000) :
    (padStart4 (natToChars g)).length = 4 ∧
    digitsVal ((padStart4 (natToChars g)).map (fun x => x - 48)) = g ∧
    (∀ c ∈ padStart4 (natToChars g), 48 ≤ c ∧ c ≤ 57) := by
  have hlen := natToChars_length_le g 4 (by norm_num)
    (by have h4 : (10 : ℕ) ^ 4 = 10000 := by norm_num
        omega)
  refine ⟨?_, ?_, ?_⟩
  · rw [padStart4, List.length_append, List.length_replicate]
    omega
  · rw [padStart4, List.map_append]
    rw [show (List.replicate (4 - (natToChars g).length) 48).map (fun x => x - 48)
        = List.replicate (4 - (natToChars g).length) 0 from by
      rw [List.map_replicate]]
    rw [digitsVal_append, digitsVal_replicate_zero, digitsVal_natToChars]
    simp
  · intro c hc
    rw [padStart4, List.mem_append] at hc
    rcases hc with hc | hc
    · have := List.eq_of_mem_replicate hc
      omega
    · exact natToChars_isDigit g c hc

theorem pad4_group (c : List ℕ) (hc : ∀ x ∈ c, 48 ≤ x ∧ x ≤ 57)
    (hlen : c.length = 4) :
    padStart4 (natToChars (parseIntDigits c)) = c := by
  have hdlt : ∀ d ∈ c.map (fun x => x - 48), d < 10 := by
    intro d hd
    simp only [List.mem_map] at hd
    obtain ⟨x, hx, rfl⟩ := hd
    have := hc x hx
    omega
  have hglt : parseIntDigits c < 10000 := by
    rw [parseIntDigits_eq_digitsVal]
    have := digitsVal_lt _ hdlt
    rw [List.length_map, hlen] at this
    norm_num at this
    exact this
  obtain ⟨hl4, hv4, hd4⟩ := pad4_block (parseIntDigits c) hglt
  apply sub48_inj
  · intro x hx
    exact (hd4 x hx).1
  · intro x hx
    exact (hc x hx).1
  · apply digitsVal_inj
    · intro d hd
      simp only [List.mem_map] at hd
      obtain ⟨x, hx, rfl⟩ := hd
      have := hd4 x hx
      omega
    · exact hdlt
    · rw [List.length_map, List.length_map, hl4, hlen]
    · rw [hv4, parseIntDigits_eq_digitsVal]

theorem readUint16_flatten_be2 (vals : List ℕ) :
    ∀ i, i < vals.length → (∀ v ∈ vals, v < 65536) →
      readUint16 ((vals.map be2).flatten) (2 * i) = vals.getD i 0 := by
  induction vals with
  | nil =>
      intro i hi
      simp at hi
  | cons v rest ih =>
      intro i hi hv
      cases i with
      | zero =>
          show readUint16 (be2 v ++ (rest.map be2).flatten) (2 * 0) = v
          rw [Nat.mul_zero]
          exact readUint16_be2 v (hv v (by simp)) _
      | succ j =>
          have hlen2 : (be2 v).length = 2 := rfl
          have h1 : (be2 v ++ (rest.map be2).flatten).getD (2 * (j + 1)) 0
              = ((rest.map be2).flatten).getD (2 * j) 0 := by
            rw [getD_append_right2 (by rw [hlen2]; omega), hlen2,
              show 2 * (j + 1) - 2 = 2 * j from by omega]
          have h2 : (be2 v ++ (rest.map be2).flatten).getD (2 * (j + 1) + 1) 0
              = ((rest.map be2).flatten).getD (2 * j + 1) 0 := by
            rw [getD_append_right2 (by rw [hlen2]; omega), hlen2,
              show 2 * (j + 1) + 1 - 2 = 2 * j + 1 from by omega]
          show readUint16 (be2 v ++ (rest.map be2).flatten) (2 * (j + 1))
            = (v :: rest).getD (j + 1) 0
          rw [readUint16, h1, h2, List.getD_cons_succ]
          have := ih j (by simp only [List.length_cons] at hi; omega)
            (fun w hw => hv w (by simp [hw]))
          rw [readUint16] at this
          exact this

/-- The whole-part rendering of `readNumeric`: first group unpadded, the
rest zero-padded to four characters. -/
def printGroups (vs : List ℕ) : List ℕ :=
  natToChars (vs.getD 0 0) ++
    (((List.range vs.length).drop 1).map
      (fun i => padStart4 (natToChars (vs.getD i 0)))).flatten

theorem printGroups_spec (vs : List ℕ) (hne : vs ≠ [])
    (hv : ∀ v ∈ vs, v < 10000) :
    (∀ c ∈ printGroups vs, 48 ≤ c ∧ c ≤ 57) ∧ printGroups vs ≠ [] ∧
    digitsVal ((printGroups vs).map (fun x => x - 48)) = groupsVal vs := by
  induction vs using List.reverseRecOn with
  | nil => exact absurd rfl hne
  | append_singleton vs g ih =>
      rcases vs.eq_nil_or_concat with rfl | ⟨vs0, g0, rfl⟩
      · refine ⟨?_, ?_, ?_⟩
        · intro c hc
          rw [printGroups] at hc
          simp only [List.nil_append, List.length_singleton, List.getD_cons_zero] at hc
          rw [show (List.range 1).drop 1 = [] from rfl] at hc
          simp only [List.map_nil, List.flatten_nil, List.append_nil] at hc
          exact natToChars_isDigit g c hc
        · rw [printGroups]
          simp only [List.nil_append, List.length_singleton, List.getD_cons_zero]
          rw [show (List.range 1).drop 1 = [] from rfl]
          simp only [List.map_nil, List.flatten_nil, List.append_nil]
          exact natToChars_ne_nil g
        · rw [printGroups]
          simp only [List.nil_append, List.length_singleton, List.getD_cons_zero]
          rw [show (List.range 1).drop 1 = [] from rfl]
          simp only [List.map_nil, List.flatten_nil, List.append_nil]
          rw [digitsVal_natToChars]
          show g = groupsVal ([] ++ [g])
          rw [groupsVal_snoc]
          simp [groupsVal]
      · rw [List.concat_eq_append] at *
        have hvs_ne : vs0 ++ [g0] ≠ [] := by simp
        have hn1 : 1 ≤ (vs0 ++ [g0]).length := by simp
        have hg : g < 10000 := hv g (by simp)
        have hsplit : printGroups ((vs0 ++ [g0]) ++ [g])
            = printGroups (vs0 ++ [g0]) ++ padStart4 (natToChars g) := by
          rw [printGroups, printGroups, List.length_append (vs0 ++ [g0]),
            List.length_singleton, List.range_succ,
            List.drop_append_of_le_length (by rw [List.length_range]; omega),
            List.map_append, List.flatten_append]
          rw [List.map_singleton, List.flatten_singleton]
          rw [show ((vs0 ++ [g0]) ++ [g]).getD (vs0 ++ [g0]).length 0 = g from by
            rw [getD_append_right2 (le_refl _), Nat.sub_self, List.getD_cons_zero]]
          rw [show ((vs0 ++ [g0]) ++ [g]).getD 0 0 = (vs0 ++ [g0]).getD 0 0 from
            getD_append_left2 (by omega)]
          rw [List.map_congr_left (fun i hi => by
            rw [show ((vs0 ++ [g0]) ++ [g]).getD i 0 = (vs0 ++ [g0]).getD i 0 from
              getD_append_left2 (by
                have := List.mem_range.mp (List.mem_of_mem_drop hi)
                omega)])]
          rw [List.append_assoc]
        obtain ⟨ihd, ihne, ihv⟩ := ih hvs_ne
          (fun v hvm => hv v (by simp at hvm ⊢; tauto))
        obtain ⟨hbl, hbv, hbd⟩ := pad4_block g hg
        refine ⟨?_, ?_, ?_⟩
        · intro c hc
          rw [hsplit, List.mem_append] at hc
          rcases hc with hc | hc
          · exact ihd c hc
          · exact hbd c hc
        · rw [hsplit]
          simp only [ne_eq, List.append_eq_nil, not_and]
          intro h
          exact absurd h ihne
        · rw [hsplit, List.map_append, digitsVal_append, ihv, List.length_map,
            hbl, hbv, groupsVal_snoc (vs0 ++ [g0]) g]
          have h10 : (10 : ℕ) ^ 4 = 10000 := by norm_num
          rw [h10]
          ring

theorem chunks4_groups_lt (l : List ℕ) (hd : ∀ x ∈ l, 48 ≤ x ∧ x ≤ 57)
    (h4 : l.length % 4 = 0) :
    ∀ g ∈ (chunks4 l).map parseIntDigits, g < 10000 := by
  intro g hg
  simp only [List.mem_map] at hg
  obtain ⟨c, hc, rfl⟩ := hg
  have hcl := chunks4_mem_length l h4 c hc
  have hcd : ∀ x ∈ c, 48 ≤ x ∧ x ≤ 57 :=
    fun x hx => hd x (chunks4_mem_mem l c hc x hx)
  rw [parseIntDigits_eq_digitsVal]
  have hlt := digitsVal_lt (c.map fun x => x - 48) (by
    intro e he
    simp only [List.mem_map] at he
    obtain ⟨x, hx, rfl⟩ := he
    have := hcd x hx
    omega)
  rw [List.length_map, hcl] at hlt
  have h10 : (10 : ℕ) ^ 4 = 10000 := by norm_num
  omega

theorem digitsVal_chunks4 (l : List ℕ) (h : l.length % 4 = 0) :
    groupsVal ((chunks4 l).map parseIntDigits) =
      digitsVal (l.map (fun x => x - 48)) := by
  induction l using chunks4.induct with
  | case1 => simp [chunks4, groupsVal, digitsVal]
  | case2 a rest ih =>
      simp only [List.length_cons] at h
      rw [chunks4, List.map_cons, groupsVal_cons,
        ih (by simp only [List.length_drop, List.length_cons]; omega)]
      conv_rhs => rw [← List.take_append_drop 4 (a :: rest)]
      rw [List.map_append, digitsVal_append, ← parseIntDigits_eq_digitsVal,
        List.length_map, List.length_map,
        chunks4_length _ (by simp only [List.length_drop, List.length_cons]; omega)]
      have hexp : (10000 : ℕ) ^ ((List.drop 4 (a :: rest)).length / 4)
          = 10 ^ (List.drop 4 (a :: rest)).length := by
        rw [show (10000 : ℕ) = 10 ^ 4 from by norm_num, ← pow_mul]
        congr 1
        simp only [List.length_drop, List.length_cons]
        omega
      rw [hexp, parseIntDigits_eq_digitsVal]

theorem pad4_chunks_flatten (l : List ℕ) (hd : ∀ x ∈ l, 48 ≤ x ∧ x ≤ 57)
    (h4 : l.length % 4 = 0) :
    (((chunks4 l).map parseIntDigits).map
        (fun g => padStart4 (natToChars g))).flatten = l := by
  rw [List.map_map]
  have hmap : (chunks4 l).map ((fun g => padStart4 (natToChars g)) ∘ parseIntDigits)
      = (chunks4 l).map id := by
    apply List.map_congr_left
    intro c hc
    show padStart4 (natToChars (parseIntDigits c)) = c
    exact pad4_group c (fun x hx => hd x (chunks4_mem_mem l c hc x hx))
      (chunks4_mem_length l h4 c hc)
  rw [hmap, List.map_id, chunks4_flatten]

theorem digitsVal_pad_prefix (k : ℕ) (w : List ℕ) :
    digitsVal ((List.replicate k 48 ++ w).map (fun x => x - 48))
      = digitsVal (w.map (fun x => x - 48)) := by
  rw [List.map_append, digitsVal_append,
    show (List.replicate k 48).map (fun x => x - 48) = List.replicate k 0 from by
      rw [List.map_replicate],
    digitsVal_replicate_zero]
  simp

theorem wholePaddedOf_facts (w : List ℕ) (hwne : w ≠ [])
    (hwd : ∀ c ∈ w, 48 ≤ c ∧ c ≤ 57) :
    wholePaddedOf w = List.replicate (4 - ((w.length - 1) % 4 + 1)) 48 ++ w ∧
    (wholePaddedOf w).length = 4 * ((w.length + 3) / 4) ∧
    (∀ c ∈ wholePaddedOf w, 48 ≤ c ∧ c ≤ 57) := by
  have hL : 0 < w.length := List.length_pos.mpr hwne
  have heq : wholePaddedOf w = List.replicate (4 - ((w.length - 1) % 4 + 1)) 48 ++ w :=
    if_pos hL
  refine ⟨heq, ?_, ?_⟩
  · rw [heq, List.length_append, List.length_replicate]
    omega
  · rw [heq]
    intro c hc
    rw [List.mem_append] at hc
    rcases hc with hc | hc
    · have := List.eq_of_mem_replicate hc
      omega
    · exact hwd c hc

theorem decPaddedOf_facts (d : List ℕ) (hdd : ∀ c ∈ d, 48 ≤ c ∧ c ≤ 57) :
    (decPaddedOf d).length % 4 = 0 ∧
    (decPaddedOf d).length ≤ 4 * ((d.length + 3) / 4) ∧
    d.length ≤ (decPaddedOf d).length ∧
    (∀ c ∈ decPaddedOf d, 48 ≤ c ∧ c ≤ 57) ∧
    (decPaddedOf d).take d.length = d ∧
    (d ≠ [] → decPaddedOf d = d ++ List.replicate (4 - ((d.length - 1) % 4 + 1)) 48) := by
  by_cases hd : d = []
  · subst hd
    have h0 : decPaddedOf [] = [] := if_neg (by simp)
    refine ⟨by simp [h0], by simp [h0], by simp [h0], ?_,
      by simp [h0], fun h => absurd rfl h⟩
    intro c hc
    rw [h0] at hc
    simp at hc
  · have hL : 0 < d.length := List.length_pos.mpr hd
    have heq : decPaddedOf d = d ++ List.replicate (4 - ((d.length - 1) % 4 + 1)) 48 :=
      if_pos hL
    refine ⟨?_, ?_, ?_, ?_, ?_, fun _ => heq⟩
    · rw [heq, List.length_append, List.length_replicate]
      omega
    · rw [heq, List.length_append, List.length_replicate]
      omega
    · rw [heq, List.length_append]
      omega
    · rw [heq]
      intro c hc
      rw [List.mem_append] at hc
      rcases hc with hc | hc
      · exact hdd c hc
      · have := List.eq_of_mem_replicate hc
        omega
    · rw [heq, List.take_left]

/-- The byte image of `writeNumericBody`: four header uint16s and the
base-10000 groups, each as a big-endian pair. -/
theorem writeNumericBody_layout (w d : List ℕ) (s : ℕ)
    (hwne : w ≠ []) (hwl : w.length ≤ 131072) (hdl : d.length ≤ 16383)
    (hs : s < 65536)
    (hwd : ∀ c ∈ w, 48 ≤ c ∧ c ≤ 57) (hdd : ∀ c ∈ d, 48 ≤ c ∧ c ≤ 57) :
    writeNumericBody w d s =
      (([(w.length + 3) / 4 + (decPaddedOf d).length / 4,
          (w.length + 3) / 4 - 1, s, d.length]
        ++ ((chunks4 (wholePaddedOf w)).map parseIntDigits
            ++ (chunks4 (decPaddedOf d)).map parseIntDigits)).map be2).flatten := by
  have hL : 0 < w.length := List.length_pos.mpr hwne
  obtain ⟨hWPeq, hWPlen, hWPd⟩ := wholePaddedOf_facts w hwne hwd
  obtain ⟨hDP4, hDPle, hDPge, hDPd, -, -⟩ := decPaddedOf_facts d hdd
  have hWP4 : (wholePaddedOf w).length % 4 = 0 := by omega
  have e1 : writeUint16Bytes (((wholePaddedOf w).length + (decPaddedOf d).length) / 4)
      = be2 ((w.length + 3) / 4 + (decPaddedOf d).length / 4) := by
    rw [writeUint16Bytes]
    congr 1
    omega
  have e2 : writeInt16Bytes ((((w.length + 3) / 4 : ℕ) : ℤ) - 1)
      = be2 ((w.length + 3) / 4 - 1) := by
    rw [writeInt16Bytes]
    congr 1
    omega
  have e3 : writeUint16Bytes s = be2 s := by
    rw [writeUint16Bytes]
    congr 1
    omega
  have e4 : writeUint16Bytes d.length = be2 d.length := by
    rw [writeUint16Bytes]
    congr 1
    omega
  have e5 : ((chunks4 (wholePaddedOf w) ++ chunks4 (decPaddedOf d)).map
        parseIntDigits).map writeUint16Bytes
      = ((chunks4 (wholePaddedOf w)).map parseIntDigits
          ++ (chunks4 (decPaddedOf d)).map parseIntDigits).map be2 := by
    rw [List.map_append, List.map_append, List.map_append]
    congr 1
    · apply List.map_congr_left
      intro g hg
      rw [writeUint16Bytes]
      congr 1
      have := chunks4_groups_lt (wholePaddedOf w) hWPd hWP4 g hg
      omega
    · apply List.map_congr_left
      intro g hg
      rw [writeUint16Bytes]
      congr 1
      have := chunks4_groups_lt (decPaddedOf d) hDPd hDP4 g hg
      omega
  simp only [writeNumericBody]
  rw [if_pos hL, e1, e2, e3, e4, e5]
  simp only [List.cons_append, List.nil_append, List.map_cons, List.flatten_cons,
    List.append_assoc]

/-- Roundtrip through the numeric body writer and `readNumeric`: the sign and
the decimal part survive verbatim, the whole part keeps its value. -/
theorem numeric_body_roundtrip (w d : List ℕ) (s : ℕ)
    (hwne : w ≠ []) (hwd : ∀ c ∈ w, 48 ≤ c ∧ c ≤ 57)
    (hdd : ∀ c ∈ d, 48 ≤ c ∧ c ≤ 57)
    (hwl : w.length ≤ 131072) (hdl : d.length ≤ 16383)
    (hs : s = 0 ∨ s = 16384) :
    ∃ w', readNumeric (writeNumericBody w d s)
        = (if s = 16384 then [45] else []) ++ w' ++
            (if d = [] then [] else 46 :: d)
      ∧ w' ≠ [] ∧ (∀ c ∈ w', 48 ≤ c ∧ c ≤ 57)
      ∧ digitsVal (w'.map (fun x => x - 48))
          = digitsVal (w.map (fun x => x - 48)) := by
  have hs65 : s < 65536 := by rcases hs with rfl | rfl <;> norm_num
  have hlay := writeNumericBody_layout w d s hwne hwl hdl hs65 hwd hdd
  obtain ⟨hWPeq, hWPlen, hWPd⟩ := wholePaddedOf_facts w hwne hwd
  obtain ⟨hDP4, hDPle, hDPge, hDPd, hDPtake, -⟩ := decPaddedOf_facts d hdd
  have hL : 0 < w.length := List.length_pos.mpr hwne
  have hWP4 : (wholePaddedOf w).length % 4 = 0 := by omega
  set G := (w.length + 3) / 4 with hGdef
  set D := (decPaddedOf d).length / 4 with hDdef
  have hG1 : 1 ≤ G := by omega
  have hGle : G ≤ 32768 := by omega
  have hDle : D ≤ 4096 := by omega
  have hDPlen4 : (decPaddedOf d).length = 4 * D := by omega
  set gl := (chunks4 (wholePaddedOf w)).map parseIntDigits with hgl
  set dl := (chunks4 (decPaddedOf d)).map parseIntDigits with hdl2
  have hgl_len : gl.length = G := by
    rw [hgl, List.length_map, chunks4_length _ hWP4, hWPlen]
    omega
  have hdl_len : dl.length = D := by
    rw [hdl2, List.length_map, chunks4_length _ hDP4]
  have hgl_lt : ∀ g ∈ gl, g < 10000 := chunks4_groups_lt _ hWPd hWP4
  have hdl_lt : ∀ g ∈ dl, g < 10000 := chunks4_groups_lt _ hDPd hDP4
  set vals := [G + D, G - 1, s, d.length] ++ (gl ++ dl) with hvals
  have hvlen : vals.length = 4 + (G + D) := by
    rw [hvals]
    simp only [List.length_append, List.length_cons, List.length_nil,
      hgl_len, hdl_len]
  have hvals_lt : ∀ v ∈ vals, v < 65536 := by
    intro v hv
    rw [hvals, List.mem_append] at hv
    rcases hv with hv | hv
    · simp only [List.mem_cons, List.not_mem_nil, or_false] at hv
      rcases hv with rfl | rfl | rfl | rfl <;> omega
    · rw [List.mem_append] at hv
      rcases hv with hv | hv
      · have := hgl_lt v hv
        omega
      · have := hdl_lt v hv
        omega
  have hread : ∀ i, i < vals.length →
      readUint16 ((vals.map be2).flatten) (2 * i) = vals.getD i 0 :=
    fun i hi => readUint16_flatten_be2 vals i hi hvals_lt
  have hr0 : readUint16 ((vals.map be2).flatten) 0 = G + D := by
    have h := hread 0 (by omega)
    simpa [hvals] using h
  have hr1 : readUint16 ((vals.map be2).flatten) 2 = G - 1 := by
    have h := hread 1 (by omega)
    simpa [hvals] using h
  have hr2 : readUint16 ((vals.map be2).flatten) 4 = s := by
    have h := hread 2 (by omega)
    simpa [hvals] using h
  have hr3 : readUint16 ((vals.map be2).flatten) 6 = d.length := by
    have h := hread 3 (by omega)
    simpa [hvals] using h
  have hdig : ∀ i, i < G + D →
      readNumericDigit ((vals.map be2).flatten) i = (gl ++ dl).getD i 0 := by
    intro i hi
    have h := hread (4 + i) (by omega)
    rw [readNumericDigit, show 8 + 2 * i = 2 * (4 + i) from by ring, h, hvals,
      getD_append_right2 (by simp)]
    congr 1
    simp
  have hri : readInt16 ((vals.map be2).flatten) 2 = ((G - 1 : ℕ) : ℤ) := by
    rw [readInt16]
    show (if readUint16 ((vals.map be2).flatten) 2 < 32768 then _ else _) = _
    rw [hr1, if_pos (by omega)]
  have hglne : gl ≠ [] := by
    intro h
    rw [h] at hgl_len
    simp at hgl_len
    omega
  obtain ⟨hpgd, hpgne, hpgv⟩ := printGroups_spec gl hglne hgl_lt
  have hpgval : digitsVal ((printGroups gl).map (fun x => x - 48))
      = digitsVal (w.map (fun x => x - 48)) := by
    rw [hpgv, hgl, digitsVal_chunks4 _ hWP4, hWPeq, digitsVal_pad_prefix]
  refine ⟨printGroups gl, ?_, hpgne, hpgd, hpgval⟩
  rw [hlay]
  simp only [readNumeric]
  rw [hr2, hr0, hr3, hri]
  rw [if_neg (show ¬s = 49152 from by rcases hs with rfl | rfl <;> decide)]
  rw [if_neg (show ¬s = 53248 from by rcases hs with rfl | rfl <;> decide)]
  rw [if_neg (show ¬s = 61440 from by rcases hs with rfl | rfl <;> decide)]
  rw [show ((G - 1 : ℕ) : ℤ) + 1 = (G : ℤ) from by omega]
  rw [if_neg (show ¬(G + D = 0 ∨ (G : ℤ) ≤ 0) from by omega)]
  rw [show max 0 (min (G : ℤ) ((G + D : ℕ) : ℤ)) = (G : ℤ) from by omega]
  rw [show ((G : ℤ)).toNat = G from by omega]
  rw [if_pos (show (0 : ℤ) < (G : ℤ) from by omega)]
  rw [if_neg (show ¬(0 : ℤ) < (G : ℤ) - (G : ℤ) from by omega)]
  rw [hdig 0 (by omega)]
  rw [show (gl ++ dl).getD 0 0 = gl.getD 0 0 from
    getD_append_left2 (by rw [hgl_len]; omega)]
  have hmapw : ((List.range G).drop 1).map
      (fun i => padStart4 (natToChars
        (readNumericDigit ((vals.map be2).flatten) i)))
    = ((List.range G).drop 1).map
      (fun i => padStart4 (natToChars (gl.getD i 0))) := by
    apply List.map_congr_left
    intro i hi
    have hiG : i < G := List.mem_range.mp (List.mem_of_mem_drop hi)
    rw [hdig i (by omega), show (gl ++ dl).getD i 0 = gl.getD i 0 from
      getD_append_left2 (by rw [hgl_len]; omega)]
  rw [hmapw]
  simp only [List.append_nil]
  have hpg2 : printGroups gl = natToChars (gl.getD 0 0) ++
      (((List.range G).drop 1).map
        (fun i => padStart4 (natToChars (gl.getD i 0)))).flatten := by
    rw [printGroups, hgl_len]
  by_cases hd : d = []
  · subst hd
    rw [if_neg (show ¬(0 : ℕ) < ([] : List ℕ).length from by simp)]
    rw [if_pos (show ([] : List ℕ) = [] from rfl)]
    simp only [List.append_nil]
    rw [hpg2]
  · rw [if_pos (show 0 < d.length from List.length_pos.mpr hd)]
    rw [if_neg hd]
    rw [if_neg (show ¬(G : ℤ) < 0 from by omega)]
    rw [show List.replicate (4 * 0) 48 = ([] : List ℕ) from rfl, List.nil_append]
    have hdrop : (List.range (G + D)).drop G
        = (List.range D).map (fun i => G + i) := by
      rw [List.range_add]
      have h := List.drop_left (List.range G) ((List.range D).map (fun i => G + i))
      rw [List.length_range] at h
      exact h
    rw [hdrop, List.map_map]
    have hmapd : (List.range D).map
        ((fun i => padStart4 (natToChars
            (readNumericDigit ((vals.map be2).flatten) i))) ∘ (fun i => G + i))
      = (List.range D).map (fun j => padStart4 (natToChars (dl.getD j 0))) := by
      apply List.map_congr_left
      intro j hj
      have hjD : j < D := List.mem_range.mp hj
      show padStart4 (natToChars
        (readNumericDigit ((vals.map be2).flatten) (G + j))) = _
      rw [hdig (G + j) (by omega), getD_append_right2 (by rw [hgl_len]; omega)]
      congr 3
      rw [hgl_len]
      omega
    rw [hmapd]
    have hflat : ((List.range D).map
        (fun j => padStart4 (natToChars (dl.getD j 0)))).flatten
          = decPaddedOf d := by
      rw [show (fun j => padStart4 (natToChars (dl.getD j 0)))
          = ((fun g => padStart4 (natToChars g)) ∘ (fun j => dl.getD j 0)) from rfl]
      rw [← List.map_map]
      rw [show List.range D = List.range dl.length from by rw [hdl_len]]
      rw [range_map_getD, hdl2]
      exact pad4_chunks_flatten (decPaddedOf d) hDPd hDP4
    rw [hflat, hDPlen4]
    by_cases hdl4 : d.length < 4 * D
    · rw [if_neg (show ¬4 * D < d.length from by omega), if_pos hdl4]
      rw [show (decPaddedOf d).take d.length = d from hDPtake]
      rw [hpg2]
    · rw [if_neg (show ¬4 * D < d.length from by omega),
        if_neg (show ¬d.length < 4 * D from by omega)]
      rw [show decPaddedOf d = d from by
        have hlen : (decPaddedOf d).length = d.length := by omega
        conv_lhs => rw [← List.take_length (decPaddedOf d)]
        rw [hlen, hDPtake]]
      rw [hpg2]


/-- **C1.** For every decimal string — optional leading `'-'`, a non-empty
integer part of at most 131072 digits, an optional fractional part of at most
16383 digits — `writeNumeric` followed by `readNumeric` yields a string with
the same sign, an integer part denoting the same value, and *exactly* the
original fractional digits (dscale preserved, trailing zeros kept); `'NaN'`
reads back as `'NaN'`. -/
theorem numeric_roundtrip :
    readNumeric (writeNumericBytes nanChars) = nanChars ∧
    (∀ (neg : Bool) (whole frac : List ℕ),
      whole ≠ [] →
      (∀ c ∈ whole, 48 ≤ c ∧ c ≤ 57) →
      (∀ c ∈ frac, 48 ≤ c ∧ c ≤ 57) →
      whole.length ≤ 131072 →
      frac.length ≤ 16383 →
      ∃ w', readNumeric (writeNumericBytes
            ((if neg then [45] else []) ++ whole ++
              (if frac = [] then [] else 46 :: frac)))
          = (if neg then [45] else []) ++ w' ++
              (if frac = [] then [] else 46 :: frac)
        ∧ w' ≠ [] ∧ (∀ c ∈ w', 48 ≤ c ∧ c ≤ 57)
        ∧ digitsVal (w'.map (fun x => x - 48))
            = digitsVal (whole.map (fun x => x - 48))) := by
  constructor
  · decide
  · intro neg whole frac hne hwd hfd hwl hfl
    obtain ⟨w0, wrest, rfl⟩ := List.exists_cons_of_ne_nil hne
    have hw0 : 48 ≤ w0 ∧ w0 ≤ 57 := hwd w0 (by simp)
    have h46w : 46 ∉ w0 :: wrest := by
      intro h
      have := hwd 46 h
      omega
    have h46f : 46 ∉ frac := by
      intro h
      have := hfd 46 h
      omega
    cases neg with
    | false =>
        have hgd0 : ¬(w0 :: wrest).getD 0 0 = 45 := by
          simp only [List.getD_cons_zero]
          omega
        by_cases hfrac : frac = []
        · subst hfrac
          have hnan : w0 :: wrest ≠ nanChars := by
            intro h
            have h2 : (w0 :: wrest).getD 0 0 = nanChars.getD 0 0 := by rw [h]
            simp only [List.getD_cons_zero, nanChars] at h2
            omega
          have hwnb : writeNumericBytes (w0 :: wrest)
              = writeNumericBody (w0 :: wrest) [] 0 := by
            simp only [writeNumericBytes]
            rw [if_neg hnan, splitOn_no_sep _ h46w]
            rw [show [w0 :: wrest].getD 0 ([] : List ℕ) = w0 :: wrest from rfl,
              show [w0 :: wrest].getD 1 ([] : List ℕ) = ([] : List ℕ) from rfl,
              if_neg hgd0]
          obtain ⟨w', hread, hne', hd', hv'⟩ :=
            numeric_body_roundtrip (w0 :: wrest) [] 0 (by simp) hwd (by simp)
              hwl (by simp) (Or.inl rfl)
          refine ⟨w', ?_, hne', hd', hv'⟩
          simp only [List.cons_append, List.singleton_append, List.nil_append] at hwnb
          simp [hwnb, hread]
        · have hnan : (w0 :: wrest) ++ 46 :: frac ≠ nanChars := by
            intro h
            have h46 : 46 ∈ (w0 :: wrest) ++ 46 :: frac := by simp
            rw [h] at h46
            simp [nanChars] at h46
          have hwnb : writeNumericBytes ((w0 :: wrest) ++ 46 :: frac)
              = writeNumericBody (w0 :: wrest) frac 0 := by
            simp only [writeNumericBytes]
            rw [if_neg hnan, splitOn_one_sep _ _ h46w h46f]
            rw [show [w0 :: wrest, frac].getD 0 ([] : List ℕ)
                = w0 :: wrest from rfl,
              show [w0 :: wrest, frac].getD 1 ([] : List ℕ) = frac from rfl,
              if_neg hgd0]
          obtain ⟨w', hread, hne', hd', hv'⟩ :=
            numeric_body_roundtrip (w0 :: wrest) frac 0 (by simp) hwd hfd hwl
              hfl (Or.inl rfl)
          refine ⟨w', ?_, hne', hd', hv'⟩
          simp only [List.cons_append, List.singleton_append, List.nil_append] at hwnb
          simp [hwnb, hread, hfrac]
    | true =>
        have h46m : 46 ∉ [45] ++ (w0 :: wrest) := by
          intro h
          rw [List.mem_append] at h
          rcases h with h | h
          · simp at h
          · exact h46w h
        have hgd1 : ([45] ++ (w0 :: wrest)).getD 0 0 = 45 := rfl
        by_cases hfrac : frac = []
        · subst hfrac
          have hnan : [45] ++ (w0 :: wrest) ≠ nanChars := by
            intro h
            have h2 : ([45] ++ (w0 :: wrest)).getD 0 0 = nanChars.getD 0 0 := by
              rw [h]
            simp [nanChars] at h2
          have hwnb : writeNumericBytes ([45] ++ (w0 :: wrest))
              = writeNumericBody (w0 :: wrest) [] 16384 := by
            simp only [writeNumericBytes]
            rw [if_neg hnan, splitOn_no_sep _ h46m]
            rw [show [[45] ++ (w0 :: wrest)].getD 0 ([] : List ℕ)
                = [45] ++ (w0 :: wrest) from rfl,
              show [[45] ++ (w0 :: wrest)].getD 1 ([] : List ℕ)
                = ([] : List ℕ) from rfl,
              if_pos hgd1]
            have hdrop1 : ([45] ++ (w0 :: wrest)).drop 1 = w0 :: wrest := by
              rw [List.singleton_append, List.drop_one, List.tail_cons]
            rw [hdrop1]
          obtain ⟨w', hread, hne', hd', hv'⟩ :=
            numeric_body_roundtrip (w0 :: wrest) [] 16384 (by simp) hwd
              (by simp) hwl (by simp) (Or.inr rfl)
          refine ⟨w', ?_, hne', hd', hv'⟩
          simp only [List.cons_append, List.singleton_append, List.nil_append] at hwnb
          simp [hwnb, hread]
        · have hnan : ([45] ++ (w0 :: wrest)) ++ 46 :: frac ≠ nanChars := by
            intro h
            have h2 : (([45] ++ (w0 :: wrest)) ++ 46 :: frac).getD 0 0
                = nanChars.getD 0 0 := by rw [h]
            simp [nanChars] at h2
          have hwnb : writeNumericBytes (([45] ++ (w0 :: wrest)) ++ 46 :: frac)
              = writeNumericBody (w0 :: wrest) frac 16384 := by
            simp only [writeNumericBytes]
            rw [if_neg hnan, splitOn_one_sep _ _ h46m h46f]
            rw [show [[45] ++ (w0 :: wrest), frac].getD 0 ([] : List ℕ)
                = [45] ++ (w0 :: wrest) from rfl,
              show [[45] ++ (w0 :: wrest), frac].getD 1 ([] : List ℕ)
                = frac from rfl,
              if_pos hgd1]
            have hdrop1 : ([45] ++ (w0 :: wrest)).drop 1 = w0 :: wrest := by
              rw [List.singleton_append, List.drop_one, List.tail_cons]
            rw [hdrop1]
          obtain ⟨w', hread, hne', hd', hv'⟩ :=
            numeric_body_roundtrip (w0 :: wrest) frac 16384 (by simp) hwd hfd hwl
              hfl (Or.inr rfl)
          refine ⟨w', ?_, hne', hd', hv'⟩
          simp only [List.cons_append, List.singleton_append, List.nil_append] at hwnb
          simp [hwnb, hread, hfrac]


/-- Witness for C1: `'NaN'` round-trips, and `"-5.01"` (sign, one whole
digit, two fractional digits) reads back with the same sign, value and
fractional digits. -/
theorem numeric_roundtrip_witness :
    readNumeric (writeNumericBytes nanChars) = nanChars ∧
    (∃ w', readNumeric (writeNumericBytes
          ((if true then [45] else []) ++ [53] ++
            (if ([48, 49] : List ℕ) = [] then [] else 46 :: [48, 49])))
        = (if true then [45] else []) ++ w' ++
            (if ([48, 49] : List ℕ) = [] then [] else 46 :: [48, 49])
      ∧ w' ≠ [] ∧ (∀ c ∈ w', 48 ≤ c ∧ c ≤ 57)
      ∧ digitsVal (w'.map (fun x => x - 48))
          = digitsVal ([53].map (fun x => x - 48))) :=
  ⟨numeric_roundtrip.1, numeric_roundtrip.2 true [53] [48, 49] (by decide)
    (by decide) (by decide) (by decide) (by decide)⟩

end Pgeon

